import Mathlib

/-!
Verification of the Martini RTIN mesh engine (src/index.js).

The development shallowly embeds the three parts of the engine:

* the Martini (Grid) constructor: the power-of-two check done with the
  JavaScript 32-bit bitwise AND, the stored triangle counts, and the
  coordinate table built by the bit-consuming descent loop;
* the Tile error pass (update): a bottom-up fold over the triangle table
  accumulating per-pixel approximation errors;
* the mesh extraction (getMesh): the two recursive passes countElements
  and processTriangle over the two root triangles.

Numbers: grid coordinates are natural numbers (all values stay within
[0, tileSize], so the 16-bit storage of the source is exact for every
grid the source can actually allocate); heights and errors are rationals
standing for the JavaScript float values -- every property proved below
depends only on the ordered-field operations (max, abs, midpoint
average), not on rounding.  Counters that can go negative in JavaScript
(numParentTriangles is -1 for gridSize = 2) are integers.

The two recursive extraction passes are written with an explicit fuel
parameter; the recursion of the source has no fuel, and the development
proves (triInv machinery below) that for every validly constructed tile
the recursion depth from the two root calls is bounded, so the fuel
2 * gridSize used in getMesh is never exhausted and the embedding agrees
with the unbounded recursion of the source on the whole domain of the
claims.
-/

namespace Martini

abbrev Point := ℕ × ℕ

/-- Midpoint of two grid points with the floor semantics of the source
expression ((ax + bx) >> 1, (ay + by) >> 1). -/
def mid (p q : Point) : Point := ((p.1 + q.1) / 2, (p.2 + q.2) / 2)

/-- Flat buffer index of pixel (x, y): y * size + x. -/
def key (size : ℕ) (p : Point) : ℕ := p.2 * size + p.1

/-- Cast a grid point to an integer vector. -/
def toZ (p : Point) : ℤ × ℤ := ((p.1 : ℤ), (p.2 : ℤ))

/-! ## Grid construction (Martini constructor) -/

/-- Bit pattern of the 32-bit two complements representation of an
integer, as produced by the JavaScript ToInt32 conversion applied to the
operands of the bitwise AND. -/
def bits32 (x : ℤ) : ℕ := (x % (2 ^ 32)).toNat

/-- The validity test of the constructor:
if (tileSize and (tileSize - 1)) throw, with tileSize = gridSize - 1 and
the JavaScript 32-bit bitwise AND. -/
def gridSizeCheckFails (gridSize : ℕ) : Bool :=
  Nat.land (bits32 ((gridSize : ℤ) - 1)) (bits32 ((gridSize : ℤ) - 2)) != 0

/-- Stored count: tileSize * tileSize * 2 - 2 (an integer, since the
source computes -2 for gridSize = 1). -/
def numTrianglesZ (gridSize : ℕ) : ℤ :=
  ((gridSize : ℤ) - 1) * ((gridSize : ℤ) - 1) * 2 - 2

/-- Stored count: numTriangles - tileSize * tileSize (an integer, since
the source computes -1 for gridSize = 2). -/
def numParentTrianglesZ (gridSize : ℕ) : ℤ :=
  numTrianglesZ gridSize - ((gridSize : ℤ) - 1) * ((gridSize : ℤ) - 1)

/-- Failures of the constructor.  invalidGridSize models the explicit
throw of the power-of-two check; rangeErr models the RangeError the
JavaScript engine raises when a typed array is created with a negative
length (ECMAScript ToIndex), which happens for gridSize = 1 where
numTriangles * 4 = -8.  Allocation failure for astronomically large
sizes is implementation defined and not modelled. -/
inductive ConstructErr
  | invalidGridSize (gridSize : ℕ)
  | rangeErr
deriving DecidableEq

/-- The constructor entry: the validity check, then the typed array
allocations (coords has length numTriangles * 4). -/
def martiniNew (gridSize : ℕ) : Except ConstructErr ℕ :=
  if gridSizeCheckFails gridSize then .error (.invalidGridSize gridSize)
  else if numTrianglesZ gridSize * 4 < 0 then .error .rangeErr
  else .ok gridSize

/-- One iteration of the coordinate descent loop of the constructor.
For bit 1 (left half) the new state is (c, a, m); for bit 0 (right
half) it is (b, c, m). -/
def childTriple (bit1 : Bool) (s : Point × Point × Point) : Point × Point × Point :=
  let m := mid s.1 s.2.1
  if bit1 then (s.2.2, s.1, m) else (s.2.1, s.2.2, m)

/-- The descent loop: while ((id >>= 1) > 1) step with bit (id and 1).
The c component, discarded by the source when storing, is kept here so
that the invariant can speak about it.  The loop is written with a
structural counter so that the kernel can evaluate it; the counter
starts at id and the loop halves id each iteration, so it never runs
out (coordLoopF_congr below). -/
def coordLoopF : ℕ → ℕ → Point × Point × Point → Point × Point × Point
  | 0, _, s => s
  | fuel + 1, id, s =>
    if 1 < id / 2 then
      coordLoopF fuel (id / 2) (childTriple ((id / 2) % 2 == 1) s)
    else s

def coordLoop (id : ℕ) (s : Point × Point × Point) : Point × Point × Point :=
  coordLoopF id id s

lemma coordLoopF_congr : ∀ fuel fuel' id s, id ≤ fuel → id ≤ fuel' →
    coordLoopF fuel id s = coordLoopF fuel' id s := by
  intro fuel
  induction fuel with
  | zero =>
    intro fuel' id s h h'
    cases fuel' with
    | zero => rfl
    | succ f =>
      have : id = 0 := by omega
      subst this
      simp [coordLoopF]
  | succ f ih =>
    intro fuel' id s h h'
    cases fuel' with
    | zero =>
      have : id = 0 := by omega
      subst this
      simp [coordLoopF]
    | succ f' =>
      show coordLoopF (f + 1) id s = coordLoopF (f' + 1) id s
      simp only [coordLoopF]
      by_cases hid : 1 < id / 2
      · simp only [if_pos hid]
        exact ih f' (id / 2) _ (by omega) (by omega)
      · simp only [if_neg hid]

/-- Initial root configuration chosen by the parity of the id:
odd ids start from the bottom-left root triangle, even ids from the
top-right one. -/
def rootTriple (tileSize : ℕ) (id : ℕ) : Point × Point × Point :=
  if id % 2 = 1 then ((0, 0), (tileSize, tileSize), (tileSize, 0))
  else ((tileSize, tileSize), (0, 0), (0, tileSize))

/-- Full vertex triple of the table triangle at index i (id = i + 2). -/
def triABC (tileSize : ℕ) (i : ℕ) : Point × Point × Point :=
  coordLoop (i + 2) (rootTriple tileSize (i + 2))

/-- The stored coordinate table entry (ax, ay, bx, by) at index i,
as the pair (a, b). -/
def coords (tileSize : ℕ) (i : ℕ) : Point × Point :=
  ((triABC tileSize i).1, (triABC tileSize i).2.1)

/-! ## Tile error pass (update) -/

/-- The apex recovered by the identity of the source:
cx = mx + my - ay, cy = my + ax - mx (computed over ℤ). -/
def apex (a : Point) (m : Point) : ℤ × ℤ :=
  ((m.1 : ℤ) + (m.2 : ℤ) - (a.2 : ℤ), (m.2 : ℤ) + (a.1 : ℤ) - (m.1 : ℤ))

/-- Child midpoint buffer index ((py + cy) >> 1) * size + ((px + cx) >> 1).
All values reached from the table are nonnegative and in range (proved
below), so the toNat conversion is exact there. -/
def childKey (size : ℕ) (p : Point) (cz : ℤ × ℤ) : ℕ :=
  (((((p.2 : ℤ) + cz.2) / 2) * size + (((p.1 : ℤ) + cz.1) / 2))).toNat

/-- One iteration of the update loop at table index i: write the local
midpoint error, then for internal triangles accumulate the two child
midpoint errors (reading from the once-written field, as the source
does). -/
def errorsStep (terrain : ℕ → ℚ) (gridSize : ℕ) (errs : ℕ → ℚ) (i : ℕ) : ℕ → ℚ :=
  let ab := coords (gridSize - 1) i
  let a := ab.1
  let b := ab.2
  let m := mid a b
  let mi := key gridSize m
  let interpolated := (terrain (key gridSize a) + terrain (key gridSize b)) / 2
  let middleError := |interpolated - terrain mi|
  let errs1 : ℕ → ℚ := fun k => if k = mi then max (errs mi) middleError else errs k
  if (i : ℤ) < numParentTrianglesZ gridSize then
    let cz := apex a m
    let e := max (errs1 mi) (max (errs1 (childKey gridSize a cz)) (errs1 (childKey gridSize b cz)))
    fun k => if k = mi then e else errs1 k
  else errs1

/-- The whole update sweep: table indices from numTriangles - 1 down
to 0, starting from the zeroed error field. -/
def computeErrors (terrain : ℕ → ℚ) (gridSize : ℕ) : ℕ → ℚ :=
  ((List.range (numTrianglesZ gridSize).toNat).reverse).foldl
    (errorsStep terrain gridSize) (fun _ => 0)

/-- Terrain lookup function of a tile built from a sample list. -/
def terrainFun (terrain : List ℚ) : ℕ → ℚ := fun i => terrain.getD i 0

/-- Error field of a tile built from a sample list. -/
def tileErrors (terrain : List ℚ) (gridSize : ℕ) : ℕ → ℚ :=
  computeErrors (terrainFun terrain) gridSize

/-- A validly constructed tile: the grid passed the constructor check
(tileSize is a positive power of two, gridSize at least 2) and the
terrain has gridSize * gridSize samples. -/
def ValidTile (n : ℕ) (gridSize : ℕ) (terrain : List ℚ) : Prop :=
  gridSize = 2 ^ n + 1 ∧ terrain.length = gridSize * gridSize

/-! ## Mesh extraction (getMesh) -/

structure Triangle where
  a : Point
  b : Point
  c : Point
deriving DecidableEq

/-- Manhattan length of the leg from c to a:
Math.abs(ax - cx) + Math.abs(ay - cy). -/
def legLength (t : Triangle) : ℕ :=
  (((t.a.1 : ℤ) - (t.c.1 : ℤ)).natAbs + ((t.a.2 : ℤ) - (t.c.2 : ℤ)).natAbs)

/-- The two children produced by a split, in the argument order of the
source: first (c, a, m), then (b, c, m). -/
def childTris (t : Triangle) : Triangle × Triangle :=
  let m := mid t.a t.b
  (⟨t.c, t.a, m⟩, ⟨t.b, t.c, m⟩)

/-- Parameters shared by both extraction passes. -/
structure MeshCfg where
  errs : ℕ → ℚ
  size : ℕ
  maxError : ℚ
  maxScale : ℚ

/-- The split predicate of both passes:
(legLength > 1 AND errors[middle] > maxError) OR legLength > maxScale. -/
def shouldSplit (cfg : MeshCfg) (t : Triangle) : Bool :=
  let m := mid t.a t.b
  (decide (1 < legLength t) && decide (cfg.maxError < cfg.errs (key cfg.size m)))
    || decide (cfg.maxScale < (legLength t : ℚ))

/-- The list of leaf triangles emitted by the recursion, in emission
order, cut off by fuel. -/
def leavesF (cfg : MeshCfg) : ℕ → Triangle → List Triangle
  | 0, _ => []
  | fuel + 1, t =>
    if shouldSplit cfg t then
      leavesF cfg fuel (childTris t).1 ++ leavesF cfg fuel (childTris t).2
    else [t]

/-- The list of all triangles visited by the recursion (internal nodes
and leaves), used to state that every buffer access is in bounds. -/
def visitsF (cfg : MeshCfg) : ℕ → Triangle → List Triangle
  | 0, _ => []
  | fuel + 1, t =>
    if shouldSplit cfg t then
      t :: (visitsF cfg fuel (childTris t).1 ++ visitsF cfg fuel (childTris t).2)
    else [t]

/-- State of pass 1 (countElements): the shared index scratch buffer
(0 = unassigned, otherwise assigned index + 1) and the two counters. -/
structure Pass1State where
  indices : ℕ → ℕ
  numVertices : ℕ
  numTriangles : ℕ

/-- indices[k] = indices[k] || ++numVertices. -/
def markKey (k : ℕ) (s : Pass1State) : Pass1State :=
  if s.indices k = 0 then
    { indices := fun j => if j = k then s.numVertices + 1 else s.indices j,
      numVertices := s.numVertices + 1,
      numTriangles := s.numTriangles }
  else s

/-- Leaf action of pass 1: mark a, b, c, then count the triangle. -/
def emitCount (size : ℕ) (t : Triangle) (s : Pass1State) : Pass1State :=
  let s3 := markKey (key size t.c) (markKey (key size t.b) (markKey (key size t.a) s))
  { s3 with numTriangles := s3.numTriangles + 1 }

/-- Pass 1 recursion (countElements). -/
def countElements (cfg : MeshCfg) : ℕ → Triangle → Pass1State → Pass1State
  | 0, _, s => s
  | fuel + 1, t, s =>
    if shouldSplit cfg t then
      countElements cfg fuel (childTris t).2 (countElements cfg fuel (childTris t).1 s)
    else emitCount cfg.size t s

/-- State of pass 2 (processTriangle): the two output buffers with an
explicit written / unwritten distinction (a typed array slot never
written still reads 0, but the claims quantify over writtenness), and
the running triangle write cursor. -/
structure Pass2State where
  vertices : ℕ → Option ℕ
  triangles : ℕ → Option ℕ
  triIndex : ℕ

/-- Guarded typed-array write: out-of-bounds stores on typed arrays are
discarded by JavaScript. -/
def bufWrite (len : ℕ) (idx : ℤ) (v : ℕ) (buf : ℕ → Option ℕ) : ℕ → Option ℕ :=
  if 0 ≤ idx ∧ idx < (len : ℤ) then
    fun k => if (k : ℤ) = idx then some v else buf k
  else buf

/-- Uint32 storage of a possibly negative index value. -/
def u32 (x : ℤ) : ℕ := (x % (2 ^ 32)).toNat

/-- Leaf action of pass 2: look up the three assigned indices (minus
one), write the three vertex coordinate pairs, append the index
triple. -/
def emitFill (size : ℕ) (ind : ℕ → ℕ) (numV numT : ℕ) (t : Triangle) (s : Pass2State) :
    Pass2State :=
  let ja : ℤ := (ind (key size t.a) : ℤ) - 1
  let jb : ℤ := (ind (key size t.b) : ℤ) - 1
  let jc : ℤ := (ind (key size t.c) : ℤ) - 1
  let vb :=
    bufWrite (2 * numV) (2 * jc + 1) t.c.2 (bufWrite (2 * numV) (2 * jc) t.c.1
      (bufWrite (2 * numV) (2 * jb + 1) t.b.2 (bufWrite (2 * numV) (2 * jb) t.b.1
        (bufWrite (2 * numV) (2 * ja + 1) t.a.2 (bufWrite (2 * numV) (2 * ja) t.a.1
          s.vertices)))))
  let tb :=
    bufWrite (3 * numT) ((s.triIndex : ℤ) + 2) (u32 jc)
      (bufWrite (3 * numT) ((s.triIndex : ℤ) + 1) (u32 jb)
        (bufWrite (3 * numT) (s.triIndex : ℤ) (u32 ja) s.triangles))
  { vertices := vb, triangles := tb, triIndex := s.triIndex + 3 }

/-- Pass 2 recursion (processTriangle). -/
def processTriangle (cfg : MeshCfg) (ind : ℕ → ℕ) (numV numT : ℕ) :
    ℕ → Triangle → Pass2State → Pass2State
  | 0, _, s => s
  | fuel + 1, t, s =>
    if shouldSplit cfg t then
      processTriangle cfg ind numV numT fuel (childTris t).2
        (processTriangle cfg ind numV numT fuel (childTris t).1 s)
    else emitFill cfg.size ind numV numT t s

/-- The result of getMesh, together with the pass 1 scratch data the
claims quantify over. -/
structure Mesh where
  numVertices : ℕ
  numTriangles : ℕ
  indices : ℕ → ℕ
  vertices : ℕ → Option ℕ
  triangles : ℕ → Option ℕ
  triIndex : ℕ

/-- maxScale = maxLength || size: absent and zero both fall back to the
grid size. -/
def maxScaleOf (size : ℕ) (maxLength : Option ℚ) : ℚ :=
  match maxLength with
  | none => (size : ℚ)
  | some l => if l = 0 then (size : ℚ) else l

def rootTriangle1 (mx : ℕ) : Triangle := ⟨(0, 0), (mx, mx), (mx, 0)⟩

def rootTriangle2 (mx : ℕ) : Triangle := ⟨(mx, mx), (0, 0), (0, mx)⟩

/-- Fuel bound used by getMesh; for a valid tile the recursion depth
from the roots is at most 2 * log2(tileSize) + 2 which is below
2 * gridSize. -/
def meshFuel (size : ℕ) : ℕ := 2 * size

/-- The full two-pass extraction. -/
def getMesh (errs : ℕ → ℚ) (size : ℕ) (maxError : ℚ) (maxLength : Option ℚ) : Mesh :=
  let cfg : MeshCfg := ⟨errs, size, maxError, maxScaleOf size maxLength⟩
  let mx := size - 1
  let s1 := countElements cfg (meshFuel size) (rootTriangle2 mx)
      (countElements cfg (meshFuel size) (rootTriangle1 mx) ⟨fun _ => 0, 0, 0⟩)
  let s2 := processTriangle cfg s1.indices s1.numVertices s1.numTriangles (meshFuel size)
      (rootTriangle2 mx)
      (processTriangle cfg s1.indices s1.numVertices s1.numTriangles (meshFuel size)
        (rootTriangle1 mx) ⟨fun _ => none, fun _ => none, 0⟩)
  ⟨s1.numVertices, s1.numTriangles, s1.indices, s2.vertices, s2.triangles, s2.triIndex⟩

/-- getMesh of a tile built from a sample list. -/
def tileGetMesh (terrain : List ℚ) (gridSize : ℕ) (maxError : ℚ) (maxLength : Option ℚ) :
    Mesh :=
  getMesh (tileErrors terrain gridSize) gridSize maxError maxLength

end Martini

namespace Martini

/-! ## The power-of-two bit trick -/

lemma land_as_and (x y : ℕ) : Nat.land x y = x &&& y := rfl

lemma land_even_pred (m : ℕ) (hm : 1 ≤ m) :
    Nat.land (2 * m) (2 * m - 1) = 2 * Nat.land m (m - 1) := by
  apply Nat.eq_of_testBit_eq
  intro i
  have hdiv : (2 * m - 1) / 2 = m - 1 := by omega
  have hdiv2 : (2 * m) / 2 = m := by omega
  have hdiv3 : (2 * Nat.land m (m - 1)) / 2 = Nat.land m (m - 1) := by omega
  cases i with
  | zero =>
    simp [land_as_and, Nat.testBit_and, Nat.testBit_zero, Nat.mul_mod_right]
  | succ i =>
    rw [land_as_and, Nat.testBit_and, Nat.testBit_add_one (2 * m) i,
      Nat.testBit_add_one (2 * m - 1) i, hdiv2, hdiv,
      Nat.testBit_add_one (2 * Nat.land m (m - 1)) i, hdiv3,
      land_as_and, Nat.testBit_and]

lemma land_odd_pred (m : ℕ) :
    Nat.land (2 * m + 1) (2 * m) = 2 * m := by
  apply Nat.eq_of_testBit_eq
  intro i
  cases i with
  | zero =>
    simp [land_as_and, Nat.testBit_and, Nat.testBit_zero, Nat.mul_mod_right]
  | succ i =>
    have h1 : (2 * m + 1) / 2 = m := by omega
    have h2 : (2 * m) / 2 = m := by omega
    rw [land_as_and, Nat.testBit_and, Nat.testBit_add_one (2 * m + 1) i,
      Nat.testBit_add_one (2 * m) i, h1, h2, Bool.and_self]

/-- The source check tileSize AND (tileSize - 1) vanishes exactly on the
positive powers of two. -/
lemma land_pred_eq_zero_iff : ∀ t : ℕ, 1 ≤ t → (Nat.land t (t - 1) = 0 ↔ ∃ k, t = 2 ^ k) := by
  intro t
  induction t using Nat.strong_induction_on with
  | _ t ih =>
    intro ht
    rcases Nat.lt_or_ge t 2 with h2 | h2
    · have h1 : t = 1 := by omega
      subst h1
      constructor
      · intro _; exact ⟨0, rfl⟩
      · intro _; rfl
    · rcases Nat.even_or_odd t with ⟨m, hm⟩ | ⟨m, hm⟩
      · have hm' : t = 2 * m := by omega
        subst hm'
        have hm1 : 1 ≤ m := by omega
        rw [land_even_pred m hm1]
        constructor
        · intro h
          have h0 : Nat.land m (m - 1) = 0 := by omega
          obtain ⟨k, hk⟩ := (ih m (by omega) hm1).mp h0
          exact ⟨k + 1, by rw [hk]; ring⟩
        · rintro ⟨k, hk⟩
          have hk1 : 1 ≤ k := by
            by_contra hc
            interval_cases k <;> omega
          have hmk : m = 2 ^ (k - 1) := by
            have hpow : 2 * 2 ^ (k - 1) = 2 ^ k := by
              rw [← pow_succ']
              congr 1
              omega
            omega
          have h0 : Nat.land m (m - 1) = 0 := (ih m (by omega) hm1).mpr ⟨k - 1, hmk⟩
          omega
      · have hm1 : 1 ≤ m := by omega
        have hsub : t - 1 = 2 * m := by omega
        have ht2 : t = 2 * m + 1 := by omega
        rw [hsub, ht2, land_odd_pred m]
        constructor
        · intro h; omega
        · rintro ⟨k, hk⟩
          exfalso
          rcases Nat.eq_zero_or_pos k with rfl | hkpos
          · omega
          · have : (2 : ℕ) ∣ 2 ^ k := dvd_pow_self 2 (by omega)
            omega

/-! ## Claim C5: grid-size validation -/

lemma bits32_of_nat (x : ℕ) (hx : x < 2 ^ 32) : bits32 (x : ℤ) = x := by
  unfold bits32
  rw [Int.emod_eq_of_lt (by positivity) (by exact_mod_cast hx)]
  exact Int.toNat_natCast x

/-- C5 counterexample: the claim says every failing grid size is
reported with InvalidGridSize, but gridSize = 1 slips through the
bitwise check (0 AND -1 = 0) and instead fails with a RangeError when
allocating a typed array of negative length. -/
theorem C5_counterexample :
    martiniNew 1 = .error .rangeErr ∧
      ∀ g : ℕ, martiniNew 1 ≠ .error (.invalidGridSize g) := by
  have h : martiniNew 1 = .error .rangeErr := rfl
  refine ⟨h, fun g hg => ?_⟩
  rw [h] at hg
  injection hg with hg'
  exact ConstructErr.noConfusion hg'

/-- C5 amended: for every grid size below 2 to the 20 (beyond which the
modelling of JavaScript float arithmetic and allocation limits would
dominate), construction succeeds exactly when gridSize is at least 2 and
gridSize - 1 is a power of two; every failure is reported as
InvalidGridSize with the offending value, except gridSize = 1 which
fails with the RangeError of the negative allocation length. -/
theorem C5_grid_validation (g : ℕ) (hg : g ≤ 2 ^ 20) :
    ((∃ m, martiniNew g = .ok m) ↔ (2 ≤ g ∧ ∃ k, g - 1 = 2 ^ k)) ∧
      (∀ e, martiniNew g = .error e →
        (g = 1 ∧ e = .rangeErr) ∨ e = .invalidGridSize g) := by
  match g, hg with
  | 0, _ =>
    have h0 : martiniNew 0 = .error (.invalidGridSize 0) := rfl
    constructor
    · constructor
      · rintro ⟨m, hm⟩
        rw [h0] at hm
        exact Except.noConfusion hm
      · rintro ⟨h2, _⟩; omega
    · intro e he
      rw [h0] at he
      injection he with he'
      exact Or.inr he'.symm
  | 1, _ =>
    have h1 : martiniNew 1 = .error .rangeErr := rfl
    constructor
    · constructor
      · rintro ⟨m, hm⟩
        rw [h1] at hm
        exact Except.noConfusion hm
      · rintro ⟨h2, _⟩; omega
    · intro e he
      rw [h1] at he
      injection he with he'
      exact Or.inl ⟨rfl, he'.symm⟩
  | (g + 2), hg =>
    have hb1 : bits32 ((((g + 2) : ℕ) : ℤ) - 1) = g + 1 := by
      have he : ((((g + 2) : ℕ) : ℤ) - 1) = (((g + 1 : ℕ)) : ℤ) := by push_cast; ring
      rw [he, bits32_of_nat (g + 1) (by omega)]
    have hb2 : bits32 ((((g + 2) : ℕ) : ℤ) - 2) = g := by
      have he : ((((g + 2) : ℕ) : ℤ) - 2) = ((g : ℕ) : ℤ) := by push_cast; ring
      rw [he, bits32_of_nat g (by omega)]
    have hiff : Nat.land (g + 1) g = 0 ↔ ∃ k, g + 1 = 2 ^ k := by
      have hs : (g + 1) - 1 = g := by omega
      have := land_pred_eq_zero_iff (g + 1) (by omega)
      rwa [hs] at this
    have hsub : (g + 2) - 1 = g + 1 := by omega
    have halloc : ¬ numTrianglesZ (g + 2) * 4 < 0 := by
      unfold numTrianglesZ
      have h1 : (1 : ℤ) ≤ ((g + 2 : ℕ) : ℤ) - 1 := by push_cast; omega
      nlinarith
    rcases Nat.eq_zero_or_pos (Nat.land (g + 1) g) with hz | hp
    · have hcheck : gridSizeCheckFails (g + 2) = false := by
        unfold gridSizeCheckFails
        rw [hb1, hb2, hz]
        rfl
      have hok : martiniNew (g + 2) = .ok (g + 2) := by
        unfold martiniNew
        rw [hcheck]
        simp [halloc]
      constructor
      · constructor
        · intro _
          refine ⟨by omega, ?_⟩
          rw [hsub]
          exact hiff.mp hz
        · intro _; exact ⟨g + 2, hok⟩
      · intro e he
        rw [hok] at he
        exact Except.noConfusion he
    · have hcheck : gridSizeCheckFails (g + 2) = true := by
        unfold gridSizeCheckFails
        rw [hb1, hb2]
        simpa using by omega
      have herr : martiniNew (g + 2) = .error (.invalidGridSize (g + 2)) := by
        unfold martiniNew
        rw [hcheck]
        simp
      constructor
      · constructor
        · rintro ⟨m, hm⟩
          rw [herr] at hm
          exact Except.noConfusion hm
        · rintro ⟨_, k, hk⟩
          rw [hsub] at hk
          have := hiff.mpr ⟨k, hk⟩
          omega
      · intro e he
        rw [herr] at he
        injection he with he'
        exact Or.inr he'.symm

/-- C5 witness for the amended statement at gridSize 3. -/
theorem C5_grid_validation_witness :
    ((∃ m, martiniNew 3 = .ok m) ↔ (2 ≤ 3 ∧ ∃ k, 3 - 1 = 2 ^ k)) ∧
      (∀ e, martiniNew 3 = .error e →
        (3 = 1 ∧ e = .rangeErr) ∨ e = .invalidGridSize 3) :=
  C5_grid_validation 3 (by norm_num)

/-! ## Claim C9: stored triangle counts -/

/-- C9: for every valid grid size, the stored counts are
numTriangles = 2 T^2 - 2 and numParentTriangles = T^2 - 2. -/
theorem C9_triangle_counts (n gridSize : ℕ) (h : gridSize = 2 ^ n + 1) :
    numTrianglesZ gridSize = 2 * ((gridSize : ℤ) - 1) ^ 2 - 2 ∧
      numParentTrianglesZ gridSize = ((gridSize : ℤ) - 1) ^ 2 - 2 := by
  simp only [numParentTrianglesZ, numTrianglesZ]
  constructor <;> ring

/-- C9 witness at gridSize 3. -/
theorem C9_triangle_counts_witness :
    numTrianglesZ 3 = 2 * ((3 : ℤ) - 1) ^ 2 - 2 ∧
      numParentTrianglesZ 3 = ((3 : ℤ) - 1) ^ 2 - 2 :=
  C9_triangle_counts 1 3 rfl

/-! ## Claim C10: maxLength = 0 is no length constraint -/

/-- C10: get_mesh with max_length = 0 equals get_mesh with max_length
absent, because maxLength || size treats 0 as falsy. -/
theorem C10_zero_max_length (terrain : List ℚ) (gridSize : ℕ) (maxError : ℚ) :
    tileGetMesh terrain gridSize maxError (some 0) =
      tileGetMesh terrain gridSize maxError none := by
  unfold tileGetMesh getMesh maxScaleOf
  norm_num

/-! ## Counterexamples for claims C3 and C4 -/

/-- C3 counterexample: a valid 3 by 3 tile with a non-flat terrain (one
raised corner sample) whose zero-threshold mesh has 6 triangles, not the
full 2 T^2 = 8: the subtree away from the peak has zero error and is
emitted as two coarse triangles. -/
theorem C3_counterexample :
    ValidTile 1 3 [1, 0, 0, 0, 0, 0, 0, 0, 0] ∧
      terrainFun [1, 0, 0, 0, 0, 0, 0, 0, 0] 0 ≠ terrainFun [1, 0, 0, 0, 0, 0, 0, 0, 0] 1 ∧
      (tileGetMesh [1, 0, 0, 0, 0, 0, 0, 0, 0] 3 0 none).numTriangles ≠ 2 * (3 - 1) ^ 2 := by
  refine ⟨⟨rfl, rfl⟩, by decide, ?_⟩
  intro hc
  have hv : (tileGetMesh [1, 0, 0, 0, 0, 0, 0, 0, 0] 3 0 none).numTriangles = 6 := by with_unfolding_all decide
  rw [hv] at hc
  norm_num at hc

/-- C4 counterexample: on a valid 3 by 3 tile, the edge pixel (0, 1)
(on the edge x = 0) receives the leaf-level interpolation error of the
left edge, which is 5 for this terrain, not 0. -/
theorem C4_counterexample :
    ValidTile 1 3 [0, 0, 0, 5, 0, 0, 0, 0, 0] ∧
      (0 = 0 ∨ 0 = 3 - 1 ∨ 1 = 0 ∨ 1 = 3 - 1) ∧
      tileErrors [0, 0, 0, 5, 0, 0, 0, 0, 0] 3 (key 3 (0, 1)) ≠ 0 := by
  refine ⟨⟨rfl, rfl⟩, Or.inl rfl, ?_⟩
  intro hc
  have hv : tileErrors [0, 0, 0, 5, 0, 0, 0, 0, 0] 3 (key 3 (0, 1)) = 5 := by with_unfolding_all decide
  rw [hv] at hc
  norm_num at hc

/-! ## Pass correspondence: both passes traverse one leaf list -/

lemma countElements_eq_foldl (cfg : MeshCfg) :
    ∀ fuel t s, countElements cfg fuel t s =
      (leavesF cfg fuel t).foldl (fun s u => emitCount cfg.size u s) s := by
  intro fuel
  induction fuel with
  | zero => intro t s; rfl
  | succ f ih =>
    intro t s
    simp only [countElements, leavesF]
    by_cases h : shouldSplit cfg t
    · simp only [if_pos h, List.foldl_append, ih]
    · simp only [if_neg h, List.foldl_cons, List.foldl_nil]

lemma processTriangle_eq_foldl (cfg : MeshCfg) (ind : ℕ → ℕ) (numV numT : ℕ) :
    ∀ fuel t s, processTriangle cfg ind numV numT fuel t s =
      (leavesF cfg fuel t).foldl (fun s u => emitFill cfg.size ind numV numT u s) s := by
  intro fuel
  induction fuel with
  | zero => intro t s; rfl
  | succ f ih =>
    intro t s
    simp only [processTriangle, leavesF]
    by_cases h : shouldSplit cfg t
    · simp only [if_pos h, List.foldl_append, ih]
    · simp only [if_neg h, List.foldl_cons, List.foldl_nil]

/-- The common leaf list of a full getMesh run. -/
def rootLeaves (cfg : MeshCfg) (fuel mx : ℕ) : List Triangle :=
  leavesF cfg fuel (rootTriangle1 mx) ++ leavesF cfg fuel (rootTriangle2 mx)

/-- Final pass 1 state of a getMesh run. -/
def pass1Final (cfg : MeshCfg) (fuel mx : ℕ) : Pass1State :=
  countElements cfg fuel (rootTriangle2 mx)
    (countElements cfg fuel (rootTriangle1 mx) ⟨fun _ => 0, 0, 0⟩)

/-- Final pass 2 state of a getMesh run. -/
def pass2Final (cfg : MeshCfg) (ind : ℕ → ℕ) (numV numT fuel mx : ℕ) : Pass2State :=
  processTriangle cfg ind numV numT fuel (rootTriangle2 mx)
    (processTriangle cfg ind numV numT fuel (rootTriangle1 mx) ⟨fun _ => none, fun _ => none, 0⟩)

lemma getMesh_as_passes (errs : ℕ → ℚ) (size : ℕ) (maxError : ℚ) (maxLength : Option ℚ) :
    getMesh errs size maxError maxLength =
      let cfg : MeshCfg := ⟨errs, size, maxError, maxScaleOf size maxLength⟩
      let s1 := pass1Final cfg (meshFuel size) (size - 1)
      let s2 := pass2Final cfg s1.indices s1.numVertices s1.numTriangles (meshFuel size) (size - 1)
      ⟨s1.numVertices, s1.numTriangles, s1.indices, s2.vertices, s2.triangles, s2.triIndex⟩ := rfl

lemma pass1Final_eq_foldl (cfg : MeshCfg) (fuel mx : ℕ) :
    pass1Final cfg fuel mx =
      (rootLeaves cfg fuel mx).foldl (fun s u => emitCount cfg.size u s) ⟨fun _ => 0, 0, 0⟩ := by
  unfold pass1Final rootLeaves
  rw [List.foldl_append, countElements_eq_foldl, countElements_eq_foldl]

lemma pass2Final_eq_foldl (cfg : MeshCfg) (ind : ℕ → ℕ) (numV numT fuel mx : ℕ) :
    pass2Final cfg ind numV numT fuel mx =
      (rootLeaves cfg fuel mx).foldl (fun s u => emitFill cfg.size ind numV numT u s)
        ⟨fun _ => none, fun _ => none, 0⟩ := by
  unfold pass2Final rootLeaves
  rw [List.foldl_append, processTriangle_eq_foldl, processTriangle_eq_foldl]

/-! ## Pass 1: the vertex indexing discipline -/

/-- The flat list of buffer keys touched by pass 1, in touch order. -/
def keysOf (size : ℕ) : List Triangle → List ℕ
  | [] => []
  | t :: ts => key size t.a :: key size t.b :: key size t.c :: keysOf size ts

def markKeys (ks : List ℕ) (s : Pass1State) : Pass1State :=
  ks.foldl (fun s k => markKey k s) s

lemma markKey_numTriangles (k : ℕ) (s : Pass1State) :
    (markKey k s).numTriangles = s.numTriangles := by
  unfold markKey; split <;> rfl

lemma markKey_set_numTriangles (k : ℕ) (s : Pass1State) (m : ℕ) :
    markKey k { s with numTriangles := m } = { markKey k s with numTriangles := m } := by
  unfold markKey; split <;> rfl

lemma markKeys_set_numTriangles (ks : List ℕ) :
    ∀ s m, markKeys ks { s with numTriangles := m } = { markKeys ks s with numTriangles := m } := by
  induction ks with
  | nil => intro s m; rfl
  | cons k ks ih =>
    intro s m
    show markKeys ks (markKey k { s with numTriangles := m }) = _
    rw [markKey_set_numTriangles, ih]
    rfl

lemma emitCount_as_markKeys (size : ℕ) (t : Triangle) (s : Pass1State) :
    emitCount size t s =
      { markKeys (keysOf size [t]) s with
        numTriangles := s.numTriangles + 1 } := by
  unfold emitCount markKeys keysOf
  simp only [List.foldl_cons, List.foldl_nil]
  rw [markKey_numTriangles, markKey_numTriangles, markKey_numTriangles]
  rfl

lemma markKeys_append (ks ks' : List ℕ) (s : Pass1State) :
    markKeys (ks ++ ks') s = markKeys ks' (markKeys ks s) := by
  unfold markKeys
  rw [List.foldl_append]

lemma keysOf_cons (size : ℕ) (t : Triangle) (ts : List Triangle) :
    keysOf size (t :: ts) = keysOf size [t] ++ keysOf size ts := rfl

/-- Pass 1 over a leaf list is the key-marking fold plus the length count. -/
lemma foldl_emitCount_eq (size : ℕ) :
    ∀ (L : List Triangle) (s : Pass1State),
      L.foldl (fun s u => emitCount size u s) s =
        { markKeys (keysOf size L) s with numTriangles := s.numTriangles + L.length } := by
  intro L
  induction L with
  | nil => intro s; rfl
  | cons t ts ih =>
    intro s
    rw [List.foldl_cons, ih, emitCount_as_markKeys, markKeys_set_numTriangles,
      keysOf_cons, markKeys_append]
    simp only [List.length_cons]
    congr 1
    omega

/-- The indexing invariant: 0 marks exactly the untouched keys, the
assigned values 1..numVertices are a bijection with the touched keys. -/
structure P1Inv (s : Pass1State) (K : Finset ℕ) : Prop where
  mem : ∀ k, s.indices k ≠ 0 ↔ k ∈ K
  bound : ∀ k, s.indices k ≤ s.numVertices
  inj : ∀ k k', s.indices k ≠ 0 → s.indices k = s.indices k' → k = k'
  surj : ∀ j, 1 ≤ j → j ≤ s.numVertices → ∃ k, s.indices k = j
  card : s.numVertices = K.card

lemma P1Inv_zero : P1Inv ⟨fun _ => 0, 0, 0⟩ ∅ := by
  refine ⟨?_, ?_, ?_, ?_, ?_⟩
  · intro k; simp
  · intro k; exact Nat.le_refl 0
  · intro k k' h; exact absurd rfl h
  · intro j h1 h2
    dsimp only at h2
    omega
  · simp

lemma markKey_of_zero (k : ℕ) (s : Pass1State) (h : s.indices k = 0) :
    markKey k s =
      { indices := fun j => if j = k then s.numVertices + 1 else s.indices j,
        numVertices := s.numVertices + 1,
        numTriangles := s.numTriangles } := by
  unfold markKey
  rw [if_pos h]

lemma markKey_of_ne (k : ℕ) (s : Pass1State) (h : s.indices k ≠ 0) :
    markKey k s = s := by
  unfold markKey
  rw [if_neg h]

lemma markKey_inv (k : ℕ) (s : Pass1State) (K : Finset ℕ) (h : P1Inv s K) :
    P1Inv (markKey k s) (insert k K) := by
  by_cases hk : s.indices k = 0
  · rw [markKey_of_zero k s hk]
    refine ⟨?_, ?_, ?_, ?_, ?_⟩
    · intro j
      dsimp only
      by_cases hj : j = k
      · subst hj; simp
      · simp only [if_neg hj, Finset.mem_insert]
        rw [h.mem]
        constructor
        · exact Or.inr
        · rintro (rfl | hm)
          · exact absurd rfl hj
          · exact hm
    · intro j
      dsimp only
      by_cases hj : j = k
      · simp [hj]
      · simp only [if_neg hj]
        exact Nat.le_succ_of_le (h.bound j)
    · intro j j' hne heq
      dsimp only at hne heq
      by_cases hj : j = k
      · by_cases hj' : j' = k
        · rw [hj, hj']
        · rw [if_pos hj, if_neg hj'] at heq
          have := h.bound j'
          omega
      · by_cases hj' : j' = k
        · rw [if_neg hj, if_pos hj'] at heq
          rw [if_neg hj] at hne
          have := h.bound j
          omega
        · rw [if_neg hj] at hne
          rw [if_neg hj, if_neg hj'] at heq
          exact h.inj j j' hne heq
    · intro j h1 h2
      dsimp only at h2 ⊢
      by_cases hj : j = s.numVertices + 1
      · exact ⟨k, by simp [hj]⟩
      · obtain ⟨k', hk'⟩ := h.surj j h1 (by omega)
        refine ⟨k', ?_⟩
        have hk'k : k' ≠ k := by
          intro he
          rw [he, hk] at hk'
          omega
        simp [hk'k, hk']
    · dsimp only
      have hkK : k ∉ K := by
        rw [← h.mem]
        simp [hk]
      rw [Finset.card_insert_of_not_mem hkK, h.card]
  · rw [markKey_of_ne k s hk]
    have hkK : k ∈ K := (h.mem k).mp hk
    have hins : insert k K = K := Finset.insert_eq_self.mpr hkK
    rw [hins]
    exact h

lemma markKeys_inv : ∀ (ks : List ℕ) (s : Pass1State) (K : Finset ℕ),
    P1Inv s K → P1Inv (markKeys ks s) (K ∪ ks.toFinset) := by
  intro ks
  induction ks with
  | nil =>
    intro s K h
    simpa using h
  | cons k ks ih =>
    intro s K h
    have h2 := ih (markKey k s) (insert k K) (markKey_inv k s K h)
    rw [Finset.insert_union] at h2
    rw [List.toFinset_cons, Finset.union_insert]
    exact h2

/-! ## Pass 2: buffer write discipline -/

lemma bufWrite_ne (len : ℕ) (idx : ℤ) (v : ℕ) (buf : ℕ → Option ℕ) (j : ℕ)
    (h : (j : ℤ) ≠ idx) : bufWrite len idx v buf j = buf j := by
  unfold bufWrite
  split
  · simp [if_neg h]
  · rfl

lemma bufWrite_isSome_mono (len : ℕ) (idx : ℤ) (v : ℕ) (buf : ℕ → Option ℕ) (j : ℕ)
    (h : (buf j).isSome) : ((bufWrite len idx v buf) j).isSome := by
  unfold bufWrite
  split
  · by_cases hj : (j : ℤ) = idx
    · simp [if_pos hj]
    · simpa [if_neg hj] using h
  · exact h

lemma bufWrite_self (len : ℕ) (idx : ℤ) (v : ℕ) (buf : ℕ → Option ℕ)
    (h0 : 0 ≤ idx) (h1 : idx < (len : ℤ)) :
    (bufWrite len idx v buf) idx.toNat = some v := by
  unfold bufWrite
  rw [if_pos ⟨h0, h1⟩]
  simp [Int.toNat_of_nonneg h0]

lemma bufWrite_none_high (len : ℕ) (idx : ℤ) (v : ℕ) (buf : ℕ → Option ℕ) (j : ℕ)
    (hlen : (len : ℤ) ≤ (j : ℤ)) (h : buf j = none) : bufWrite len idx v buf j = none := by
  unfold bufWrite
  split
  · rename_i hg
    have : (j : ℤ) ≠ idx := by omega
    simp [if_neg this, h]
  · exact h

/-- Every corner of the leaf has an assigned 1-based index within
numVertices. -/
def leafIndexOk (ind : ℕ → ℕ) (size numV : ℕ) (t : Triangle) : Prop :=
  (1 ≤ ind (key size t.a) ∧ ind (key size t.a) ≤ numV) ∧
    (1 ≤ ind (key size t.b) ∧ ind (key size t.b) ≤ numV) ∧
    (1 ≤ ind (key size t.c) ∧ ind (key size t.c) ≤ numV)

lemma u32_of_index (n numV : ℕ) (h1 : 1 ≤ n) (h2 : n ≤ numV) (hV : numV ≤ 2 ^ 32) :
    u32 ((n : ℤ) - 1) = n - 1 := by
  unfold u32
  have he : ((n : ℤ) - 1) = (((n - 1 : ℕ)) : ℤ) := by push_cast; omega
  rw [he, Int.emod_eq_of_lt (by positivity) (by exact_mod_cast (by omega : n - 1 < 2 ^ 32))]
  exact Int.toNat_natCast _

lemma emitFill_triIndex (size : ℕ) (ind : ℕ → ℕ) (numV numT : ℕ) (t : Triangle)
    (s : Pass2State) : (emitFill size ind numV numT t s).triIndex = s.triIndex + 3 := rfl

lemma emitFill_vertices_eq (size : ℕ) (ind : ℕ → ℕ) (numV numT : ℕ) (t : Triangle)
    (s : Pass2State) :
    (emitFill size ind numV numT t s).vertices =
      bufWrite (2 * numV) (2 * ((ind (key size t.c) : ℤ) - 1) + 1) t.c.2
        (bufWrite (2 * numV) (2 * ((ind (key size t.c) : ℤ) - 1)) t.c.1
          (bufWrite (2 * numV) (2 * ((ind (key size t.b) : ℤ) - 1) + 1) t.b.2
            (bufWrite (2 * numV) (2 * ((ind (key size t.b) : ℤ) - 1)) t.b.1
              (bufWrite (2 * numV) (2 * ((ind (key size t.a) : ℤ) - 1) + 1) t.a.2
                (bufWrite (2 * numV) (2 * ((ind (key size t.a) : ℤ) - 1)) t.a.1
                  s.vertices))))) := rfl

lemma emitFill_triangles_eq (size : ℕ) (ind : ℕ → ℕ) (numV numT : ℕ) (t : Triangle)
    (s : Pass2State) :
    (emitFill size ind numV numT t s).triangles =
      bufWrite (3 * numT) ((s.triIndex : ℤ) + 2) (u32 ((ind (key size t.c) : ℤ) - 1))
        (bufWrite (3 * numT) ((s.triIndex : ℤ) + 1) (u32 ((ind (key size t.b) : ℤ) - 1))
          (bufWrite (3 * numT) (s.triIndex : ℤ) (u32 ((ind (key size t.a) : ℤ) - 1))
            s.triangles)) := rfl

lemma emitFill_vertices_isSome_mono (size : ℕ) (ind : ℕ → ℕ) (numV numT : ℕ)
    (t : Triangle) (s : Pass2State) (j : ℕ) (h : (s.vertices j).isSome) :
    ((emitFill size ind numV numT t s).vertices j).isSome := by
  rw [emitFill_vertices_eq]
  exact bufWrite_isSome_mono _ _ _ _ _ (bufWrite_isSome_mono _ _ _ _ _
    (bufWrite_isSome_mono _ _ _ _ _ (bufWrite_isSome_mono _ _ _ _ _
      (bufWrite_isSome_mono _ _ _ _ _ (bufWrite_isSome_mono _ _ _ _ _ h)))))

lemma emitFill_vertices_none_high (size : ℕ) (ind : ℕ → ℕ) (numV numT : ℕ)
    (t : Triangle) (s : Pass2State) (j : ℕ) (hj : 2 * numV ≤ j)
    (h : s.vertices j = none) :
    (emitFill size ind numV numT t s).vertices j = none := by
  have hj2 : ((2 * numV : ℕ) : ℤ) ≤ (j : ℤ) := by exact_mod_cast hj
  rw [emitFill_vertices_eq]
  exact bufWrite_none_high _ _ _ _ _ hj2 (bufWrite_none_high _ _ _ _ _ hj2
    (bufWrite_none_high _ _ _ _ _ hj2 (bufWrite_none_high _ _ _ _ _ hj2
      (bufWrite_none_high _ _ _ _ _ hj2 (bufWrite_none_high _ _ _ _ _ hj2 h)))))

lemma bufWrite_isSome_self (len : ℕ) (idx : ℤ) (v : ℕ) (buf : ℕ → Option ℕ) (j : ℕ)
    (hj : (j : ℤ) = idx) (h0 : 0 ≤ idx) (h1 : idx < (len : ℤ)) :
    ((bufWrite len idx v buf) j).isSome := by
  unfold bufWrite
  rw [if_pos ⟨h0, h1⟩]
  simp [hj]

/-- The six coordinate writes of emitFill land, in bounds, at the two
slots of each assigned index. -/
lemma vertexSlot_isSome (size : ℕ) (ind : ℕ → ℕ) (numV numT : ℕ) (t : Triangle)
    (s : Pass2State) (hok : leafIndexOk ind size numV t) :
    ((emitFill size ind numV numT t s).vertices (2 * (ind (key size t.a) - 1))).isSome ∧
      ((emitFill size ind numV numT t s).vertices (2 * (ind (key size t.a) - 1) + 1)).isSome ∧
      ((emitFill size ind numV numT t s).vertices (2 * (ind (key size t.b) - 1))).isSome ∧
      ((emitFill size ind numV numT t s).vertices (2 * (ind (key size t.b) - 1) + 1)).isSome ∧
      ((emitFill size ind numV numT t s).vertices (2 * (ind (key size t.c) - 1))).isSome ∧
      ((emitFill size ind numV numT t s).vertices (2 * (ind (key size t.c) - 1) + 1)).isSome := by
  obtain ⟨⟨ha1, ha2⟩, ⟨hb1, hb2⟩, ⟨hc1, hc2⟩⟩ := hok
  rw [emitFill_vertices_eq]
  refine ⟨?_, ?_, ?_, ?_, ?_, ?_⟩
  · apply bufWrite_isSome_mono
    apply bufWrite_isSome_mono
    apply bufWrite_isSome_mono
    apply bufWrite_isSome_mono
    apply bufWrite_isSome_mono
    exact bufWrite_isSome_self _ _ _ _ _ (by push_cast; omega) (by omega) (by push_cast; omega)
  · apply bufWrite_isSome_mono
    apply bufWrite_isSome_mono
    apply bufWrite_isSome_mono
    apply bufWrite_isSome_mono
    exact bufWrite_isSome_self _ _ _ _ _ (by push_cast; omega) (by omega) (by push_cast; omega)
  · apply bufWrite_isSome_mono
    apply bufWrite_isSome_mono
    apply bufWrite_isSome_mono
    exact bufWrite_isSome_self _ _ _ _ _ (by push_cast; omega) (by omega) (by push_cast; omega)
  · apply bufWrite_isSome_mono
    apply bufWrite_isSome_mono
    exact bufWrite_isSome_self _ _ _ _ _ (by push_cast; omega) (by omega) (by push_cast; omega)
  · apply bufWrite_isSome_mono
    exact bufWrite_isSome_self _ _ _ _ _ (by push_cast; omega) (by omega) (by push_cast; omega)
  · exact bufWrite_isSome_self _ _ _ _ _ (by push_cast; omega) (by omega) (by push_cast; omega)

lemma bufWrite_eq_of (len : ℕ) (idx : ℤ) (v : ℕ) (buf : ℕ → Option ℕ) (j : ℕ)
    (hj : (j : ℤ) = idx) (h0 : 0 ≤ idx) (h1 : idx < (len : ℤ)) :
    bufWrite len idx v buf j = some v := by
  unfold bufWrite
  rw [if_pos ⟨h0, h1⟩]
  simp [hj]

lemma emitFill_triangles_spec (size : ℕ) (ind : ℕ → ℕ) (numV numT : ℕ) (t : Triangle)
    (s : Pass2State) (hok : leafIndexOk ind size numV t) (hV : numV ≤ 2 ^ 32)
    (htx : s.triIndex + 3 ≤ 3 * numT)
    (hlow : ∀ i, i < s.triIndex → ∃ v, s.triangles i = some v ∧ v < numV)
    (hhigh : ∀ i, s.triIndex ≤ i → s.triangles i = none) :
    (∀ i, i < s.triIndex + 3 → ∃ v, (emitFill size ind numV numT t s).triangles i = some v ∧ v < numV) ∧
      (∀ i, s.triIndex + 3 ≤ i → (emitFill size ind numV numT t s).triangles i = none) := by
  obtain ⟨⟨ha1, ha2⟩, ⟨hb1, hb2⟩, ⟨hc1, hc2⟩⟩ := hok
  have hua := u32_of_index (ind (key size t.a)) numV ha1 ha2 hV
  have hub := u32_of_index (ind (key size t.b)) numV hb1 hb2 hV
  have huc := u32_of_index (ind (key size t.c)) numV hc1 hc2 hV
  constructor
  · intro i hi
    rw [emitFill_triangles_eq]
    rcases Nat.lt_or_ge i s.triIndex with hlt | hge
    · obtain ⟨v, hv, hvV⟩ := hlow i hlt
      refine ⟨v, ?_, hvV⟩
      rw [bufWrite_ne _ _ _ _ _ (by omega), bufWrite_ne _ _ _ _ _ (by omega),
        bufWrite_ne _ _ _ _ _ (by omega)]
      exact hv
    · rcases (by omega : i = s.triIndex ∨ i = s.triIndex + 1 ∨ i = s.triIndex + 2) with h0 | h1 | h2
      · refine ⟨ind (key size t.a) - 1, ?_, by omega⟩
        subst h0
        rw [bufWrite_ne _ _ _ _ _ (by omega), bufWrite_ne _ _ _ _ _ (by omega), ← hua]
        exact bufWrite_eq_of _ _ _ _ _ rfl (by positivity) (by push_cast; omega)
      · refine ⟨ind (key size t.b) - 1, ?_, by omega⟩
        subst h1
        rw [bufWrite_ne _ _ _ _ _ (by omega), ← hub]
        exact bufWrite_eq_of _ _ _ _ _ (by push_cast; omega) (by positivity) (by push_cast; omega)
      · refine ⟨ind (key size t.c) - 1, ?_, by omega⟩
        subst h2
        rw [← huc]
        exact bufWrite_eq_of _ _ _ _ _ (by push_cast; omega) (by positivity) (by push_cast; omega)
  · intro i hi
    rw [emitFill_triangles_eq]
    rw [bufWrite_ne _ _ _ _ _ (by omega), bufWrite_ne _ _ _ _ _ (by omega),
      bufWrite_ne _ _ _ _ _ (by omega)]
    exact hhigh i (by omega)

/-- The pass 2 fold over a leaf list: the cursor advances by 3 per leaf,
the written triangle entries are exactly the prefix below the cursor and
all point into the vertex range, the vertex buffer stays none above its
length, grows monotonically, and holds both coordinate slots of every
processed leaf corner. -/
lemma pass2_fold_props (size : ℕ) (ind : ℕ → ℕ) (numV numT : ℕ) (hV : numV ≤ 2 ^ 32) :
    ∀ (L : List Triangle) (s : Pass2State),
      (∀ t ∈ L, leafIndexOk ind size numV t) →
      s.triIndex + 3 * L.length ≤ 3 * numT →
      (∀ i, i < s.triIndex → ∃ v, s.triangles i = some v ∧ v < numV) →
      (∀ i, s.triIndex ≤ i → s.triangles i = none) →
      (∀ j, 2 * numV ≤ j → s.vertices j = none) →
      ((L.foldl (fun s u => emitFill size ind numV numT u s) s).triIndex =
          s.triIndex + 3 * L.length ∧
        (∀ i, i < s.triIndex + 3 * L.length →
          ∃ v, (L.foldl (fun s u => emitFill size ind numV numT u s) s).triangles i = some v ∧
            v < numV) ∧
        (∀ i, s.triIndex + 3 * L.length ≤ i →
          (L.foldl (fun s u => emitFill size ind numV numT u s) s).triangles i = none) ∧
        (∀ j, 2 * numV ≤ j →
          (L.foldl (fun s u => emitFill size ind numV numT u s) s).vertices j = none) ∧
        (∀ j, (s.vertices j).isSome →
          ((L.foldl (fun s u => emitFill size ind numV numT u s) s).vertices j).isSome) ∧
        (∀ t ∈ L, ∀ p ∈ [t.a, t.b, t.c],
          ((L.foldl (fun s u => emitFill size ind numV numT u s) s).vertices
              (2 * (ind (key size p) - 1))).isSome ∧
            ((L.foldl (fun s u => emitFill size ind numV numT u s) s).vertices
              (2 * (ind (key size p) - 1) + 1)).isSome)) := by
  intro L
  induction L with
  | nil =>
    intro s hok htx hlow hhigh hvhigh
    refine ⟨by simp, ?_, ?_, ?_, ?_, ?_⟩
    · intro i hi
      exact hlow i (by simpa using hi)
    · intro i hi
      exact hhigh i (by simpa using hi)
    · intro j hj
      exact hvhigh j hj
    · intro j hj
      exact hj
    · intro t ht
      exact absurd ht (List.not_mem_nil t)
  | cons t ts ih =>
    intro s hok htx hlow hhigh hvhigh
    have hokt := hok t (List.mem_cons_self t ts)
    have hlen : s.triIndex + 3 ≤ 3 * numT := by
      simp only [List.length_cons] at htx
      omega
    obtain ⟨hlow', hhigh'⟩ := emitFill_triangles_spec size ind numV numT t s hokt hV hlen hlow hhigh
    have hvhigh' : ∀ j, 2 * numV ≤ j → (emitFill size ind numV numT t s).vertices j = none :=
      fun j hj => emitFill_vertices_none_high size ind numV numT t s j hj (hvhigh j hj)
    have hstep := ih (emitFill size ind numV numT t s)
      (fun u hu => hok u (List.mem_cons_of_mem t hu))
      (by rw [emitFill_triIndex]; simp only [List.length_cons] at htx; omega)
      (by rw [emitFill_triIndex]; exact hlow')
      (by rw [emitFill_triIndex]; exact hhigh')
      hvhigh'
    rw [List.foldl_cons]
    rw [emitFill_triIndex] at hstep
    obtain ⟨h1, h2, h3, h4, h5, h6⟩ := hstep
    refine ⟨by rw [h1]; simp only [List.length_cons]; omega, ?_, ?_, h4, ?_, ?_⟩
    · intro i hi
      exact h2 i (by simp only [List.length_cons] at hi ⊢; omega)
    · intro i hi
      exact h3 i (by simp only [List.length_cons] at hi ⊢; omega)
    · intro j hj
      exact h5 j (emitFill_vertices_isSome_mono size ind numV numT t s j hj)
    · intro u hu p hp
      rcases List.mem_cons.mp hu with rfl | hu2
      · obtain ⟨w1, w2, w3, w4, w5, w6⟩ := vertexSlot_isSome size ind numV numT u s hokt
        have hp' : p = u.a ∨ p = u.b ∨ p = u.c := by simpa using hp
        rcases hp' with rfl | rfl | rfl
        · exact ⟨h5 _ w1, h5 _ w2⟩
        · exact ⟨h5 _ w3, h5 _ w4⟩
        · exact ⟨h5 _ w5, h5 _ w6⟩
      · exact h6 u hu2 p hp

/-! ## Coordinate bounds of the recursion -/

/-- All six coordinates of the triangle lie in [0, mx]. -/
def triBounded (mx : ℕ) (t : Triangle) : Prop :=
  t.a.1 ≤ mx ∧ t.a.2 ≤ mx ∧ t.b.1 ≤ mx ∧ t.b.2 ≤ mx ∧ t.c.1 ≤ mx ∧ t.c.2 ≤ mx

lemma childTris_bounded (mx : ℕ) (t : Triangle) (h : triBounded mx t) :
    triBounded mx (childTris t).1 ∧ triBounded mx (childTris t).2 := by
  obtain ⟨h1, h2, h3, h4, h5, h6⟩ := h
  unfold childTris mid triBounded
  dsimp only
  omega

lemma visitsF_bounded (cfg : MeshCfg) (mx : ℕ) :
    ∀ fuel t, triBounded mx t → ∀ u ∈ visitsF cfg fuel t, triBounded mx u := by
  intro fuel
  induction fuel with
  | zero => intro t ht u hu; exact absurd hu (List.not_mem_nil u)
  | succ f ih =>
    intro t ht u hu
    simp only [visitsF] at hu
    by_cases hs : shouldSplit cfg t
    · rw [if_pos hs] at hu
      rcases List.mem_cons.mp hu with rfl | hu2
      · exact ht
      · rcases List.mem_append.mp hu2 with h | h
        · exact ih (childTris t).1 (childTris_bounded mx t ht).1 u h
        · exact ih (childTris t).2 (childTris_bounded mx t ht).2 u h
    · rw [if_neg hs] at hu
      rcases List.mem_cons.mp hu with rfl | hu2
      · exact ht
      · exact absurd hu2 (List.not_mem_nil u)

lemma leavesF_bounded (cfg : MeshCfg) (mx : ℕ) :
    ∀ fuel t, triBounded mx t → ∀ u ∈ leavesF cfg fuel t, triBounded mx u := by
  intro fuel
  induction fuel with
  | zero => intro t ht u hu; exact absurd hu (List.not_mem_nil u)
  | succ f ih =>
    intro t ht u hu
    simp only [leavesF] at hu
    by_cases hs : shouldSplit cfg t
    · rw [if_pos hs] at hu
      rcases List.mem_append.mp hu with h | h
      · exact ih (childTris t).1 (childTris_bounded mx t ht).1 u h
      · exact ih (childTris t).2 (childTris_bounded mx t ht).2 u h
    · rw [if_neg hs] at hu
      rcases List.mem_cons.mp hu with rfl | hu2
      · exact ht
      · exact absurd hu2 (List.not_mem_nil u)

lemma rootTriangle1_bounded (mx : ℕ) : triBounded mx (rootTriangle1 mx) := by
  unfold rootTriangle1 triBounded
  dsimp only
  omega

lemma rootTriangle2_bounded (mx : ℕ) : triBounded mx (rootTriangle2 mx) := by
  unfold rootTriangle2 triBounded
  dsimp only
  omega

lemma key_lt_of_bounded (size : ℕ) (p : Point) (hs : 1 ≤ size)
    (hx : p.1 ≤ size - 1) (hy : p.2 ≤ size - 1) : key size p < size * size := by
  unfold key
  have h1 : p.2 * size ≤ (size - 1) * size := Nat.mul_le_mul_right size hy
  have h2 : (size - 1) * size + size = size * size := by
    have hsz : size - 1 + 1 = size := by omega
    calc (size - 1) * size + size = (size - 1 + 1) * size := by ring
      _ = size * size := by rw [hsz]
  omega

lemma mem_keysOf (size : ℕ) :
    ∀ (L : List Triangle) (k : ℕ), k ∈ keysOf size L ↔
      ∃ t ∈ L, k = key size t.a ∨ k = key size t.b ∨ k = key size t.c := by
  intro L
  induction L with
  | nil =>
    intro k
    constructor
    · intro h; exact absurd h (List.not_mem_nil k)
    · rintro ⟨t, ht, _⟩; exact absurd ht (List.not_mem_nil t)
  | cons t ts ih =>
    intro k
    show k ∈ key size t.a :: key size t.b :: key size t.c :: keysOf size ts ↔ _
    simp only [List.mem_cons, ih]
    constructor
    · rintro (rfl | rfl | rfl | ⟨u, hu, h⟩)
      · exact ⟨t, Or.inl rfl, Or.inl rfl⟩
      · exact ⟨t, Or.inl rfl, Or.inr (Or.inl rfl)⟩
      · exact ⟨t, Or.inl rfl, Or.inr (Or.inr rfl)⟩
      · exact ⟨u, Or.inr hu, h⟩
    · rintro ⟨u, rfl | hu, h⟩
      · rcases h with rfl | rfl | rfl
        · exact Or.inl rfl
        · exact Or.inr (Or.inl rfl)
        · exact Or.inr (Or.inr (Or.inl rfl))
      · exact Or.inr (Or.inr (Or.inr ⟨u, hu, h⟩))

/-! ## Claim C1: the two-pass extraction discipline -/

/-- The configuration getMesh builds from its arguments. -/
def meshCfgOf (errs : ℕ → ℚ) (size : ℕ) (maxError : ℚ) (maxLength : Option ℚ) : MeshCfg :=
  ⟨errs, size, maxError, maxScaleOf size maxLength⟩

/-- The leaf list of a getMesh call (the triangles emitted by either
pass, in emission order). -/
def meshLeaves (errs : ℕ → ℚ) (size : ℕ) (maxError : ℚ) (maxLength : Option ℚ) :
    List Triangle :=
  rootLeaves (meshCfgOf errs size maxError maxLength) (meshFuel size) (size - 1)

/-- All triangles visited by a getMesh call, leaves and internal
nodes. -/
def meshVisits (errs : ℕ → ℚ) (size : ℕ) (maxError : ℚ) (maxLength : Option ℚ) :
    List Triangle :=
  visitsF (meshCfgOf errs size maxError maxLength) (meshFuel size) (rootTriangle1 (size - 1)) ++
    visitsF (meshCfgOf errs size maxError maxLength) (meshFuel size) (rootTriangle2 (size - 1))

lemma getMesh_fields (errs : ℕ → ℚ) (size : ℕ) (maxError : ℚ) (maxLength : Option ℚ) :
    getMesh errs size maxError maxLength =
      (let cfg := meshCfgOf errs size maxError maxLength
       let s1 := pass1Final cfg (meshFuel size) (size - 1)
       let s2 := pass2Final cfg s1.indices s1.numVertices s1.numTriangles (meshFuel size)
         (size - 1)
       ⟨s1.numVertices, s1.numTriangles, s1.indices, s2.vertices, s2.triangles, s2.triIndex⟩) :=
  rfl

/-- C1: for every error field, threshold pair and tile size, the two
recursive passes of getMesh traverse one common leaf list in one common
order (both passes are folds of their leaf action over meshLeaves);
pass 2 writes exactly 3 numTriangles index entries, each an index below
numVertices; the vertex indices assigned in pass 1 are dense: 0 marks
exactly the unused pixels, every used pixel key holds one index of
1..numVertices with no duplicates and none skipped; every slot of the
vertices buffer is written and no slot beyond it; the pass 2 lookup
indices[v] - 1 is never -1 because every leaf corner key is assigned;
and every buffer access of either pass is in bounds (all visited pixel
keys are below size * size, the grid buffer length).  The size bound
2 ^ 16 reflects the 16-bit coordinate storage: larger grids cannot be
allocated by the source (the coords table would exceed the maximum
typed array length), and keeps all Uint32 stores exact. -/
theorem C1_two_pass_extraction (errs : ℕ → ℚ) (size : ℕ) (maxError : ℚ)
    (maxLength : Option ℚ) (hs : 1 ≤ size) (hs16 : size ≤ 2 ^ 16) :
    (pass1Final (meshCfgOf errs size maxError maxLength) (meshFuel size) (size - 1) =
        (meshLeaves errs size maxError maxLength).foldl
          (fun s u => emitCount size u s) ⟨fun _ => 0, 0, 0⟩ ∧
      pass2Final (meshCfgOf errs size maxError maxLength)
          (getMesh errs size maxError maxLength).indices
          (getMesh errs size maxError maxLength).numVertices
          (getMesh errs size maxError maxLength).numTriangles (meshFuel size) (size - 1) =
        (meshLeaves errs size maxError maxLength).foldl
          (fun s u => emitFill size (getMesh errs size maxError maxLength).indices
            (getMesh errs size maxError maxLength).numVertices
            (getMesh errs size maxError maxLength).numTriangles u s)
          ⟨fun _ => none, fun _ => none, 0⟩) ∧
    (getMesh errs size maxError maxLength).numTriangles =
        (meshLeaves errs size maxError maxLength).length ∧
    (getMesh errs size maxError maxLength).triIndex =
        3 * (getMesh errs size maxError maxLength).numTriangles ∧
    (∀ i, i < 3 * (getMesh errs size maxError maxLength).numTriangles →
      ∃ v, (getMesh errs size maxError maxLength).triangles i = some v ∧
        v < (getMesh errs size maxError maxLength).numVertices) ∧
    (∀ i, 3 * (getMesh errs size maxError maxLength).numTriangles ≤ i →
      (getMesh errs size maxError maxLength).triangles i = none) ∧
    (∀ k, (getMesh errs size maxError maxLength).indices k ≠ 0 ↔
      k ∈ keysOf size (meshLeaves errs size maxError maxLength)) ∧
    (∀ k, (getMesh errs size maxError maxLength).indices k ≤
      (getMesh errs size maxError maxLength).numVertices) ∧
    (∀ k k', (getMesh errs size maxError maxLength).indices k ≠ 0 →
      (getMesh errs size maxError maxLength).indices k =
        (getMesh errs size maxError maxLength).indices k' → k = k') ∧
    (∀ j, 1 ≤ j → j ≤ (getMesh errs size maxError maxLength).numVertices →
      ∃ k, (getMesh errs size maxError maxLength).indices k = j) ∧
    (∀ t ∈ meshLeaves errs size maxError maxLength, ∀ p ∈ [t.a, t.b, t.c],
      1 ≤ (getMesh errs size maxError maxLength).indices (key size p)) ∧
    (∀ j, j < 2 * (getMesh errs size maxError maxLength).numVertices →
      ((getMesh errs size maxError maxLength).vertices j).isSome) ∧
    (∀ j, 2 * (getMesh errs size maxError maxLength).numVertices ≤ j →
      (getMesh errs size maxError maxLength).vertices j = none) ∧
    (∀ t ∈ meshVisits errs size maxError maxLength,
      key size (mid t.a t.b) < size * size ∧ key size t.a < size * size ∧
        key size t.b < size * size ∧ key size t.c < size * size) := by
  set cfg := meshCfgOf errs size maxError maxLength with hcfg
  set L := meshLeaves errs size maxError maxLength with hL
  set M := getMesh errs size maxError maxLength with hM
  have hsize : cfg.size = size := rfl
  -- pass 1 is the fold over the common leaf list
  have hp1 : pass1Final cfg (meshFuel size) (size - 1) =
      L.foldl (fun s u => emitCount size u s) ⟨fun _ => 0, 0, 0⟩ := by
    rw [pass1Final_eq_foldl]
    rfl
  -- pass 1 in closed form
  have hp1' : pass1Final cfg (meshFuel size) (size - 1) =
      { markKeys (keysOf size L) ⟨fun _ => 0, 0, 0⟩ with numTriangles := 0 + L.length } := by
    rw [hp1, foldl_emitCount_eq]
  -- getMesh components
  have hMnumT : M.numTriangles = (pass1Final cfg (meshFuel size) (size - 1)).numTriangles := rfl
  have hMnumV : M.numVertices = (pass1Final cfg (meshFuel size) (size - 1)).numVertices := rfl
  have hMind : M.indices = (pass1Final cfg (meshFuel size) (size - 1)).indices := rfl
  have hlen : M.numTriangles = L.length := by
    rw [hMnumT, hp1']
    dsimp only
    omega
  -- the indexing invariant, with the key set of the leaf list
  have hinv0 := markKeys_inv (keysOf size L) ⟨fun _ => 0, 0, 0⟩ ∅ P1Inv_zero
  have hKset : (∅ ∪ (keysOf size L).toFinset : Finset ℕ) = (keysOf size L).toFinset := by
    simp
  rw [hKset] at hinv0
  have hindices_eq : M.indices = (markKeys (keysOf size L) ⟨fun _ => 0, 0, 0⟩).indices := by
    rw [hMind, hp1']
  have hnumV_eq : M.numVertices = (markKeys (keysOf size L) ⟨fun _ => 0, 0, 0⟩).numVertices := by
    rw [hMnumV, hp1']
  have hmem : ∀ k, M.indices k ≠ 0 ↔ k ∈ keysOf size L := by
    intro k
    rw [hindices_eq, hinv0.mem k, List.mem_toFinset]
  have hbound : ∀ k, M.indices k ≤ M.numVertices := by
    intro k
    rw [hindices_eq, hnumV_eq]
    exact hinv0.bound k
  have hinj : ∀ k k', M.indices k ≠ 0 → M.indices k = M.indices k' → k = k' := by
    intro k k'
    rw [hindices_eq]
    exact hinv0.inj k k'
  have hsurj : ∀ j, 1 ≤ j → j ≤ M.numVertices → ∃ k, M.indices k = j := by
    intro j h1 h2
    rw [hnumV_eq] at h2
    obtain ⟨k, hk⟩ := hinv0.surj j h1 h2
    exact ⟨k, by rw [hindices_eq]; exact hk⟩
  -- leaves are bounded, so keys are in range
  have hLbounded : ∀ t ∈ L, triBounded (size - 1) t := by
    intro t ht
    rw [hL] at ht
    unfold meshLeaves rootLeaves at ht
    rcases List.mem_append.mp ht with h | h
    · exact leavesF_bounded _ (size - 1) (meshFuel size) _ (rootTriangle1_bounded (size - 1)) t h
    · exact leavesF_bounded _ (size - 1) (meshFuel size) _ (rootTriangle2_bounded (size - 1)) t h
  have hkeys_lt : ∀ k ∈ keysOf size L, k < size * size := by
    intro k hk
    obtain ⟨t, ht, hor⟩ := (mem_keysOf size L k).mp hk
    obtain ⟨b1, b2, b3, b4, b5, b6⟩ := hLbounded t ht
    rcases hor with rfl | rfl | rfl
    · exact key_lt_of_bounded size t.a hs b1 b2
    · exact key_lt_of_bounded size t.b hs b3 b4
    · exact key_lt_of_bounded size t.c hs b5 b6
  -- numVertices is bounded by the pixel count, hence below 2 ^ 32
  have hV : M.numVertices ≤ size * size := by
    rw [hnumV_eq, hinv0.card]
    have hsub : (keysOf size L).toFinset ⊆ Finset.range (size * size) := by
      intro k hk
      rw [List.mem_toFinset] at hk
      exact Finset.mem_range.mpr (hkeys_lt k hk)
    calc (keysOf size L).toFinset.card ≤ (Finset.range (size * size)).card :=
          Finset.card_le_card hsub
      _ = size * size := Finset.card_range _
  have hV32 : M.numVertices ≤ 2 ^ 32 := by
    have : size * size ≤ 2 ^ 16 * 2 ^ 16 := Nat.mul_le_mul hs16 hs16
    omega
  -- every leaf corner is assigned
  have hleafok : ∀ t ∈ L, leafIndexOk M.indices size M.numVertices t := by
    intro t ht
    have hma : key size t.a ∈ keysOf size L := (mem_keysOf size L _).mpr ⟨t, ht, Or.inl rfl⟩
    have hmb : key size t.b ∈ keysOf size L := (mem_keysOf size L _).mpr ⟨t, ht, Or.inr (Or.inl rfl)⟩
    have hmc : key size t.c ∈ keysOf size L :=
      (mem_keysOf size L _).mpr ⟨t, ht, Or.inr (Or.inr rfl)⟩
    exact ⟨⟨by have := (hmem _).mpr hma; omega, hbound _⟩,
      ⟨by have := (hmem _).mpr hmb; omega, hbound _⟩,
      ⟨by have := (hmem _).mpr hmc; omega, hbound _⟩⟩
  -- pass 2 is the fold over the same leaf list
  have hp2 : pass2Final cfg M.indices M.numVertices M.numTriangles (meshFuel size) (size - 1) =
      L.foldl (fun s u => emitFill size M.indices M.numVertices M.numTriangles u s)
        ⟨fun _ => none, fun _ => none, 0⟩ := by
    rw [pass2Final_eq_foldl]
    rfl
  have hMvert : M.vertices =
      (L.foldl (fun s u => emitFill size M.indices M.numVertices M.numTriangles u s)
        ⟨fun _ => none, fun _ => none, 0⟩).vertices := by
    rw [← hp2]; rfl
  have hMtris : M.triangles =
      (L.foldl (fun s u => emitFill size M.indices M.numVertices M.numTriangles u s)
        ⟨fun _ => none, fun _ => none, 0⟩).triangles := by
    rw [← hp2]; rfl
  have hMtx : M.triIndex =
      (L.foldl (fun s u => emitFill size M.indices M.numVertices M.numTriangles u s)
        ⟨fun _ => none, fun _ => none, 0⟩).triIndex := by
    rw [← hp2]; rfl
  have hprops := pass2_fold_props size M.indices M.numVertices M.numTriangles hV32 L
    ⟨fun _ => none, fun _ => none, 0⟩ hleafok
    (by dsimp only; omega)
    (by intro i hi; dsimp only at hi; omega)
    (fun i _ => rfl) (fun j _ => rfl)
  obtain ⟨q1, q2, q3, q4, q5, q6⟩ := hprops
  dsimp only at q1 q2 q3 q4
  refine ⟨⟨hp1, hp2⟩, hlen, ?_, ?_, ?_, hmem, hbound, hinj, hsurj, ?_, ?_, ?_, ?_⟩
  · rw [hMtx, q1, hlen]
    omega
  · intro i hi
    rw [hMtris]
    exact q2 i (by omega)
  · intro i hi
    rw [hMtris]
    exact q3 i (by omega)
  · intro t ht p hp
    have hk : key size p ∈ keysOf size L := by
      have hp' : p = t.a ∨ p = t.b ∨ p = t.c := by simpa using hp
      rcases hp' with rfl | rfl | rfl
      · exact (mem_keysOf size L _).mpr ⟨t, ht, Or.inl rfl⟩
      · exact (mem_keysOf size L _).mpr ⟨t, ht, Or.inr (Or.inl rfl)⟩
      · exact (mem_keysOf size L _).mpr ⟨t, ht, Or.inr (Or.inr rfl)⟩
    have := (hmem _).mpr hk
    omega
  · intro j hj
    have hq : j / 2 < M.numVertices := by omega
    obtain ⟨k, hk⟩ := hsurj (j / 2 + 1) (by omega) (by omega)
    have hkm : k ∈ keysOf size L := (hmem k).mp (by omega)
    obtain ⟨t, ht, hcorn⟩ := (mem_keysOf size L k).mp hkm
    have hw := q6 t ht
    rw [hMvert]
    rcases hcorn with rfl | rfl | rfl
    · have := hw t.a (by simp)
      rw [hk] at this
      rcases (by omega : j = 2 * (j / 2 + 1 - 1) ∨ j = 2 * (j / 2 + 1 - 1) + 1) with he | he
      · rw [he]; exact this.1
      · rw [he]; exact this.2
    · have := hw t.b (by simp)
      rw [hk] at this
      rcases (by omega : j = 2 * (j / 2 + 1 - 1) ∨ j = 2 * (j / 2 + 1 - 1) + 1) with he | he
      · rw [he]; exact this.1
      · rw [he]; exact this.2
    · have := hw t.c (by simp)
      rw [hk] at this
      rcases (by omega : j = 2 * (j / 2 + 1 - 1) ∨ j = 2 * (j / 2 + 1 - 1) + 1) with he | he
      · rw [he]; exact this.1
      · rw [he]; exact this.2
  · intro j hj
    rw [hMvert]
    exact q4 j hj
  · intro t ht
    have hb : triBounded (size - 1) t := by
      unfold meshVisits at ht
      rcases List.mem_append.mp ht with h | h
      · exact visitsF_bounded _ (size - 1) (meshFuel size) _ (rootTriangle1_bounded (size - 1)) t h
      · exact visitsF_bounded _ (size - 1) (meshFuel size) _ (rootTriangle2_bounded (size - 1)) t h
    obtain ⟨b1, b2, b3, b4, b5, b6⟩ := hb
    have hm1 : (mid t.a t.b).1 ≤ size - 1 := by unfold mid; dsimp only; omega
    have hm2 : (mid t.a t.b).2 ≤ size - 1 := by unfold mid; dsimp only; omega
    exact ⟨key_lt_of_bounded size _ hs hm1 hm2, key_lt_of_bounded size t.a hs b1 b2,
      key_lt_of_bounded size t.b hs b3 b4, key_lt_of_bounded size t.c hs b5 b6⟩

/-- C1 witness at a concrete tile. -/
theorem C1_two_pass_extraction_witness :
    1 ≤ 3 ∧ 3 ≤ 2 ^ 16 ∧
      ((getMesh (fun _ => 0) 3 0 none).triIndex =
        3 * (getMesh (fun _ => 0) 3 0 none).numTriangles) :=
  ⟨by norm_num, by norm_num,
    ((C1_two_pass_extraction (fun _ => 0) 3 0 none (by norm_num) (by norm_num)).2.2.1)⟩

/-! ## The right-isoceles invariant of the implicit triangle tree -/

/-- Integer vectors whose squared norm is a power of two are axis
aligned (even exponent) or diagonal (odd exponent), with power-of-two
components. -/
lemma sq_two_pow_shape : ∀ (k : ℕ) (p q : ℤ), p ^ 2 + q ^ 2 = 2 ^ k →
    (k % 2 = 0 ∧ ((p.natAbs = 2 ^ (k / 2) ∧ q = 0) ∨ (p = 0 ∧ q.natAbs = 2 ^ (k / 2)))) ∨
      (k % 2 = 1 ∧ p.natAbs = 2 ^ (k / 2) ∧ q.natAbs = 2 ^ (k / 2)) := by
  intro k
  induction k using Nat.strong_induction_on with
  | _ k ih =>
    intro p q hpq
    match k with
    | 0 =>
      left
      refine ⟨rfl, ?_⟩
      have hp : p ^ 2 ≤ 1 := by nlinarith [sq_nonneg q]
      have hq : q ^ 2 ≤ 1 := by nlinarith [sq_nonneg p]
      obtain ⟨hp1, hp2⟩ : -1 ≤ p ∧ p ≤ 1 := by constructor <;> nlinarith
      obtain ⟨hq1, hq2⟩ : -1 ≤ q ∧ q ≤ 1 := by constructor <;> nlinarith
      interval_cases p <;> interval_cases q <;> simp_all
    | 1 =>
      right
      refine ⟨rfl, ?_⟩
      have hp : p ^ 2 ≤ 2 := by nlinarith [sq_nonneg q]
      have hq : q ^ 2 ≤ 2 := by nlinarith [sq_nonneg p]
      obtain ⟨hp1, hp2⟩ : -1 ≤ p ∧ p ≤ 1 := by constructor <;> nlinarith
      obtain ⟨hq1, hq2⟩ : -1 ≤ q ∧ q ≤ 1 := by constructor <;> nlinarith
      interval_cases p <;> interval_cases q <;> simp_all
    | (k + 2) =>
      have h4 : (2 : ℤ) ^ (k + 2) = 4 * 2 ^ k := by ring
      rcases Int.even_or_odd p with ⟨a, rfl⟩ | ⟨a, rfl⟩
      · rcases Int.even_or_odd q with ⟨b, rfl⟩ | ⟨b, rfl⟩
        · have hab : a ^ 2 + b ^ 2 = 2 ^ k := by
            have h40 : (4 : ℤ) * (a ^ 2 + b ^ 2) = 4 * 2 ^ k := by
              rw [← h4, ← hpq]; ring
            linarith
          rcases ih k (by omega) a b hab with ⟨hk, h⟩ | ⟨hk, h1, h2⟩
          · left
            refine ⟨by omega, ?_⟩
            have hdiv : (k + 2) / 2 = k / 2 + 1 := by omega
            rcases h with ⟨ha, hb⟩ | ⟨ha, hb⟩
            · left
              constructor
              · have : a + a = 2 * a := by ring
                rw [this, Int.natAbs_mul, ha, hdiv]
                simp [pow_succ]
                ring
              · rw [hb]; ring
            · right
              constructor
              · rw [ha]; ring
              · have : b + b = 2 * b := by ring
                rw [this, Int.natAbs_mul, hb, hdiv]
                simp [pow_succ]
                ring
          · right
            refine ⟨by omega, ?_, ?_⟩
            · have : a + a = 2 * a := by ring
              rw [this, Int.natAbs_mul, h1, show (k + 2) / 2 = k / 2 + 1 by omega]
              simp [pow_succ]
              ring
            · have : b + b = 2 * b := by ring
              rw [this, Int.natAbs_mul, h2, show (k + 2) / 2 = k / 2 + 1 by omega]
              simp [pow_succ]
              ring
        · exfalso
          have he : (2 * a) ^ 2 + (2 * b + 1) ^ 2 = 4 * (a * a + b * b + b) + 1 := by ring
          have hpq' : 4 * (a * a + b * b + b) + 1 = 4 * 2 ^ k := by
            rw [← he, ← h4, ← hpq]; ring
          omega
      · rcases Int.even_or_odd q with ⟨b, rfl⟩ | ⟨b, rfl⟩
        · exfalso
          have hpq' : 4 * (a * a + a + b * b) + 1 = 4 * 2 ^ k := by
            rw [← h4, ← hpq]; ring
          omega
        · exfalso
          have hpq' : 4 * (a * a + a + b * b + b) + 2 = 4 * 2 ^ k := by
            rw [← h4, ← hpq]; ring
          omega

/-- The invariant carried by every triangle of the implicit tree at
level lvl (the root halves are level 1 and the unit mesh leaves level
2n + 1): the triangle is right isoceles with apex c, its leg from c to a
rotated by -90 degrees gives the leg from c to b, the squared leg length
is 2 ^ (2n + 1 - lvl), all vertices are inside the grid, the hypotenuse
ends lie on the coarser lattice and the apex on the finer one. -/
structure TriInv (n : ℕ) (lvl : ℕ) (t : Triangle) : Prop where
  lvl_lb : 1 ≤ lvl
  lvl_ub : lvl ≤ 2 * n + 1
  boundA1 : t.a.1 ≤ 2 ^ n
  boundA2 : t.a.2 ≤ 2 ^ n
  boundB1 : t.b.1 ≤ 2 ^ n
  boundB2 : t.b.2 ≤ 2 ^ n
  boundC1 : t.c.1 ≤ 2 ^ n
  boundC2 : t.c.2 ≤ 2 ^ n
  rot1 : (t.b.1 : ℤ) - t.c.1 = (t.a.2 : ℤ) - t.c.2
  rot2 : (t.b.2 : ℤ) - t.c.2 = (t.c.1 : ℤ) - t.a.1
  len : ((t.a.1 : ℤ) - t.c.1) ^ 2 + ((t.a.2 : ℤ) - t.c.2) ^ 2 = 2 ^ (2 * n + 1 - lvl)
  latA1 : 2 ^ (n - (lvl - 1) / 2) ∣ t.a.1
  latA2 : 2 ^ (n - (lvl - 1) / 2) ∣ t.a.2
  latB1 : 2 ^ (n - (lvl - 1) / 2) ∣ t.b.1
  latB2 : 2 ^ (n - (lvl - 1) / 2) ∣ t.b.2
  latC1 : 2 ^ (n - lvl / 2) ∣ t.c.1
  latC2 : 2 ^ (n - lvl / 2) ∣ t.c.2

lemma dvd_half_sum (e x y : ℕ) (he : 1 ≤ e) (hx : 2 ^ e ∣ x) (hy : 2 ^ e ∣ y) :
    2 ^ (e - 1) ∣ (x + y) / 2 := by
  obtain ⟨u, hu⟩ := hx
  obtain ⟨v, hv⟩ := hy
  refine ⟨u + v, ?_⟩
  subst hu hv
  have h2 : 2 ^ e = 2 * 2 ^ (e - 1) := by
    rw [← pow_succ']
    congr 1
    omega
  rw [h2]
  have : 2 * 2 ^ (e - 1) * u + 2 * 2 ^ (e - 1) * v = 2 * (2 ^ (e - 1) * (u + v)) := by ring
  rw [this, Nat.mul_div_cancel_left _ (by norm_num)]

/-- The midpoint of the hypotenuse is exact (both coordinate sums are
even) whenever the triangle is not a unit leaf. -/
lemma triInv_mid_exact (n lvl : ℕ) (t : Triangle) (h : TriInv n lvl t) (hlvl : lvl ≤ 2 * n) :
    2 * ((mid t.a t.b).1 : ℤ) = (t.a.1 : ℤ) + t.b.1 ∧
      2 * ((mid t.a t.b).2 : ℤ) = (t.a.2 : ℤ) + t.b.2 := by
  have hK : 1 ≤ 2 * n + 1 - lvl := by omega
  have hr1 := h.rot1
  have hr2 := h.rot2
  have hpar : (2 : ℤ) ∣ ((t.a.1 : ℤ) + t.b.1) ∧ (2 : ℤ) ∣ ((t.a.2 : ℤ) + t.b.2) := by
    rcases sq_two_pow_shape (2 * n + 1 - lvl) _ _ h.len with
      ⟨hk, ⟨hp, hq⟩ | ⟨hp, hq⟩⟩ | ⟨hk, hp, hq⟩
    · have h1 : (2 : ℤ) ∣ ((t.a.1 : ℤ) - t.c.1) := by
        refine Int.dvd_natAbs.mp (Int.natCast_dvd_natCast.mpr ?_)
        rw [hp]
        exact dvd_pow_self 2 (by omega)
      constructor <;> omega
    · have h1 : (2 : ℤ) ∣ ((t.a.2 : ℤ) - t.c.2) := by
        refine Int.dvd_natAbs.mp (Int.natCast_dvd_natCast.mpr ?_)
        rw [hq]
        exact dvd_pow_self 2 (by omega)
      constructor <;> omega
    · have habs := Int.natAbs_eq_natAbs_iff.mp (hp.trans hq.symm)
      rcases habs with he | he <;> constructor <;> omega
  have hn1 : 2 ∣ (t.a.1 + t.b.1) := by exact_mod_cast hpar.1
  have hn2 : 2 ∣ (t.a.2 + t.b.2) := by exact_mod_cast hpar.2
  constructor
  · show 2 * (((t.a.1 + t.b.1) / 2 : ℕ) : ℤ) = (t.a.1 : ℤ) + t.b.1
    have hc := Nat.mul_div_cancel' hn1
    exact_mod_cast hc
  · show 2 * (((t.a.2 + t.b.2) / 2 : ℕ) : ℤ) = (t.a.2 : ℤ) + t.b.2
    have hc := Nat.mul_div_cancel' hn2
    exact_mod_cast hc

lemma childTris_fst (t : Triangle) : (childTris t).1 = ⟨t.c, t.a, mid t.a t.b⟩ := rfl

lemma childTris_snd (t : Triangle) : (childTris t).2 = ⟨t.b, t.c, mid t.a t.b⟩ := rfl

/-- The split step preserves the invariant, one level down, for both
children (c, a, m) and (b, c, m). -/
lemma triInv_step (n lvl : ℕ) (t : Triangle) (h : TriInv n lvl t) (hlvl : lvl ≤ 2 * n) :
    TriInv n (lvl + 1) (childTris t).1 ∧ TriInv n (lvl + 1) (childTris t).2 := by
  obtain ⟨hm1, hm2⟩ := triInv_mid_exact n lvl t h hlvl
  have hlb := h.lvl_lb
  have hub := h.lvl_ub
  have hr1 := h.rot1
  have hr2 := h.rot2
  have hlen := h.len
  have hK : 1 ≤ 2 * n + 1 - lvl := by omega
  have hexp : (2 : ℤ) ^ (2 * n + 1 - lvl) = 2 * 2 ^ (2 * n + 1 - (lvl + 1)) := by
    rw [← pow_succ']
    congr 1
    omega
  have hmb1 : (mid t.a t.b).1 ≤ 2 ^ n := by
    have h1 := h.boundA1
    have h2 := h.boundB1
    unfold mid
    dsimp only
    omega
  have hmb2 : (mid t.a t.b).2 ≤ 2 ^ n := by
    have h1 := h.boundA2
    have h2 := h.boundB2
    unfold mid
    dsimp only
    omega
  have e1 : 2 * ((t.c.1 : ℤ) - (mid t.a t.b).1) =
      -(((t.a.1 : ℤ) - t.c.1) + ((t.a.2 : ℤ) - t.c.2)) := by omega
  have e2 : 2 * ((t.c.2 : ℤ) - (mid t.a t.b).2) =
      ((t.a.1 : ℤ) - t.c.1) - ((t.a.2 : ℤ) - t.c.2) := by omega
  have e3 : 2 * ((t.b.1 : ℤ) - (mid t.a t.b).1) =
      ((t.a.2 : ℤ) - t.c.2) - ((t.a.1 : ℤ) - t.c.1) := by omega
  have e4 : 2 * ((t.b.2 : ℤ) - (mid t.a t.b).2) =
      -(((t.a.1 : ℤ) - t.c.1) + ((t.a.2 : ℤ) - t.c.2)) := by omega
  have len1 : ((t.c.1 : ℤ) - (mid t.a t.b).1) ^ 2 + ((t.c.2 : ℤ) - (mid t.a t.b).2) ^ 2 =
      2 ^ (2 * n + 1 - (lvl + 1)) := by
    have q1 : (2 * ((t.c.1 : ℤ) - (mid t.a t.b).1)) ^ 2 =
        (((t.a.1 : ℤ) - t.c.1) + ((t.a.2 : ℤ) - t.c.2)) ^ 2 := by rw [e1]; ring
    have q2 : (2 * ((t.c.2 : ℤ) - (mid t.a t.b).2)) ^ 2 =
        (((t.a.1 : ℤ) - t.c.1) - ((t.a.2 : ℤ) - t.c.2)) ^ 2 := by rw [e2]
    have h4 : (4 : ℤ) * (((t.c.1 : ℤ) - (mid t.a t.b).1) ^ 2 +
        ((t.c.2 : ℤ) - (mid t.a t.b).2) ^ 2) = 4 * 2 ^ (2 * n + 1 - (lvl + 1)) := by
      linear_combination q1 + q2 + 2 * hlen + 2 * hexp
    linarith
  have len2 : ((t.b.1 : ℤ) - (mid t.a t.b).1) ^ 2 + ((t.b.2 : ℤ) - (mid t.a t.b).2) ^ 2 =
      2 ^ (2 * n + 1 - (lvl + 1)) := by
    have q1 : (2 * ((t.b.1 : ℤ) - (mid t.a t.b).1)) ^ 2 =
        (((t.a.2 : ℤ) - t.c.2) - ((t.a.1 : ℤ) - t.c.1)) ^ 2 := by rw [e3]
    have q2 : (2 * ((t.b.2 : ℤ) - (mid t.a t.b).2)) ^ 2 =
        (((t.a.1 : ℤ) - t.c.1) + ((t.a.2 : ℤ) - t.c.2)) ^ 2 := by rw [e4]; ring
    have h4 : (4 : ℤ) * (((t.b.1 : ℤ) - (mid t.a t.b).1) ^ 2 +
        ((t.b.2 : ℤ) - (mid t.a t.b).2) ^ 2) = 4 * 2 ^ (2 * n + 1 - (lvl + 1)) := by
      linear_combination q1 + q2 + 2 * hlen + 2 * hexp
    linarith
  -- the lattice exponents
  have hEab : 1 ≤ n - (lvl - 1) / 2 := by omega
  have hEeq1 : n - ((lvl + 1) - 1) / 2 = n - lvl / 2 := by omega
  have hEeq2 : n - (lvl - 1) / 2 - 1 = n - (lvl + 1) / 2 := by omega
  have hmon2 : n - lvl / 2 ≤ n - (lvl - 1) / 2 := by omega
  have hlatM1 : 2 ^ (n - (lvl + 1) / 2) ∣ (mid t.a t.b).1 := by
    rw [← hEeq2]
    exact dvd_half_sum _ _ _ hEab h.latA1 h.latB1
  have hlatM2 : 2 ^ (n - (lvl + 1) / 2) ∣ (mid t.a t.b).2 := by
    rw [← hEeq2]
    exact dvd_half_sum _ _ _ hEab h.latA2 h.latB2
  have hdownA1 : 2 ^ (n - lvl / 2) ∣ t.a.1 :=
    dvd_trans (pow_dvd_pow 2 hmon2) h.latA1
  have hdownA2 : 2 ^ (n - lvl / 2) ∣ t.a.2 :=
    dvd_trans (pow_dvd_pow 2 hmon2) h.latA2
  have hdownB1 : 2 ^ (n - lvl / 2) ∣ t.b.1 :=
    dvd_trans (pow_dvd_pow 2 hmon2) h.latB1
  have hdownB2 : 2 ^ (n - lvl / 2) ∣ t.b.2 :=
    dvd_trans (pow_dvd_pow 2 hmon2) h.latB2
  constructor
  · rw [childTris_fst]
    refine ⟨by omega, by omega, h.boundC1, h.boundC2, h.boundA1, h.boundA2, hmb1, hmb2,
      ?_, ?_, len1, ?_, ?_, ?_, ?_, hlatM1, hlatM2⟩
    · dsimp only
      omega
    · dsimp only
      omega
    · dsimp only
      rw [hEeq1]
      exact h.latC1
    · dsimp only
      rw [hEeq1]
      exact h.latC2
    · dsimp only
      rw [hEeq1]
      exact hdownA1
    · dsimp only
      rw [hEeq1]
      exact hdownA2
  · rw [childTris_snd]
    refine ⟨by omega, by omega, h.boundB1, h.boundB2, h.boundC1, h.boundC2, hmb1, hmb2,
      ?_, ?_, len2, ?_, ?_, ?_, ?_, hlatM1, hlatM2⟩
    · dsimp only
      omega
    · dsimp only
      omega
    · dsimp only
      rw [hEeq1]
      exact hdownB1
    · dsimp only
      rw [hEeq1]
      exact hdownB2
    · dsimp only
      rw [hEeq1]
      exact h.latC1
    · dsimp only
      rw [hEeq1]
      exact h.latC2

def tripleToTri (s : Point × Point × Point) : Triangle := ⟨s.1, s.2.1, s.2.2⟩

lemma tripleToTri_childTriple (b1 : Bool) (s : Point × Point × Point) :
    tripleToTri (childTriple b1 s) =
      (if b1 then (childTris (tripleToTri s)).1 else (childTris (tripleToTri s)).2) := by
  cases b1 <;> rfl

lemma rootOdd_inv (n : ℕ) :
    TriInv n 1 ⟨(0, 0), (2 ^ n, 2 ^ n), (2 ^ n, 0)⟩ where
  lvl_lb := le_refl 1
  lvl_ub := by omega
  boundA1 := Nat.zero_le _
  boundA2 := Nat.zero_le _
  boundB1 := le_refl _
  boundB2 := le_refl _
  boundC1 := le_refl _
  boundC2 := Nat.zero_le _
  rot1 := by push_cast; ring
  rot2 := by push_cast; ring
  len := by
    have he : 2 * n + 1 - 1 = 2 * n := by omega
    rw [he]
    push_cast
    rw [two_mul, pow_add]
    ring
  latA1 := by simpa using dvd_zero _
  latA2 := by simpa using dvd_zero _
  latB1 := by simpa using dvd_refl (2 ^ n)
  latB2 := by simpa using dvd_refl (2 ^ n)
  latC1 := by simpa using dvd_refl (2 ^ n)
  latC2 := by simpa using dvd_zero _

lemma rootEven_inv (n : ℕ) :
    TriInv n 1 ⟨(2 ^ n, 2 ^ n), (0, 0), (0, 2 ^ n)⟩ where
  lvl_lb := le_refl 1
  lvl_ub := by omega
  boundA1 := le_refl _
  boundA2 := le_refl _
  boundB1 := Nat.zero_le _
  boundB2 := Nat.zero_le _
  boundC1 := Nat.zero_le _
  boundC2 := le_refl _
  rot1 := by push_cast; ring
  rot2 := by push_cast; ring
  len := by
    have he : 2 * n + 1 - 1 = 2 * n := by omega
    rw [he]
    push_cast
    rw [two_mul, pow_add]
    ring
  latA1 := by simpa using dvd_refl (2 ^ n)
  latA2 := by simpa using dvd_refl (2 ^ n)
  latB1 := by simpa using dvd_zero _
  latB2 := by simpa using dvd_zero _
  latC1 := by simpa using dvd_zero _
  latC2 := by simpa using dvd_refl (2 ^ n)

/-- The two root configurations satisfy the invariant at level 1. -/
lemma rootTriple_inv (n : ℕ) (id : ℕ) :
    TriInv n 1 (tripleToTri (rootTriple (2 ^ n) id)) := by
  unfold rootTriple
  by_cases hp : id % 2 = 1
  · rw [if_pos hp]
    exact rootOdd_inv n
  · rw [if_neg hp]
    exact rootEven_inv n

lemma log2_step (id : ℕ) (h : 2 ≤ id) : Nat.log2 id = Nat.log2 (id / 2) + 1 := by
  rw [Nat.log2]
  simp [h]

lemma log2_one : Nat.log2 1 = 0 := by
  rw [Nat.log2]
  norm_num

lemma log2_small (id : ℕ) (h2 : 2 ≤ id) (h3 : id ≤ 3) : Nat.log2 id = 1 := by
  interval_cases id
  · rw [log2_step 2 (by norm_num)]
    norm_num [log2_one]
  · rw [log2_step 3 (by norm_num)]
    have h32 : (3 : ℕ) / 2 = 1 := by norm_num
    rw [h32, log2_one]

/-- The descent loop preserves the invariant, ending at the level given
by the bit length of the id. -/
lemma coordLoopF_inv : ∀ (fuel id : ℕ) (s : Point × Point × Point) (n lvl : ℕ),
    id ≤ fuel → 2 ≤ id → TriInv n lvl (tripleToTri s) →
    lvl + Nat.log2 id ≤ 2 * n + 2 →
    TriInv n (lvl + Nat.log2 id - 1) (tripleToTri (coordLoopF fuel id s)) := by
  intro fuel
  induction fuel with
  | zero =>
    intro id s n lvl hf h2 hinv hbound
    omega
  | succ f ih =>
    intro id s n lvl hf h2 hinv hbound
    show TriInv n (lvl + Nat.log2 id - 1) (tripleToTri (coordLoopF (f + 1) id s))
    simp only [coordLoopF]
    by_cases hid : 1 < id / 2
    · rw [if_pos hid]
      have h4 : 4 ≤ id := by omega
      have hlog : Nat.log2 id = Nat.log2 (id / 2) + 1 := log2_step id h2
      have hlog2 : 2 ≤ Nat.log2 id := by
        rw [hlog, log2_step (id / 2) (by omega)]
        omega
      have hstep := triInv_step n lvl (tripleToTri s) hinv (by omega)
      have hc := tripleToTri_childTriple ((id / 2) % 2 == 1) s
      have hnext : TriInv n (lvl + 1) (tripleToTri (childTriple ((id / 2) % 2 == 1) s)) := by
        rw [hc]
        by_cases hb : (id / 2) % 2 == 1
        · rw [if_pos hb]
          exact hstep.1
        · rw [if_neg hb]
          exact hstep.2
      have hres := ih (id / 2) _ n (lvl + 1) (by omega) (by omega) hnext (by omega)
      have he : lvl + 1 + Nat.log2 (id / 2) - 1 = lvl + Nat.log2 id - 1 := by omega
      rwa [he] at hres
    · rw [if_neg hid]
      have h3 : id ≤ 3 := by omega
      rw [log2_small id h2 h3]
      have he : lvl + 1 - 1 = lvl := by omega
      rwa [he]

/-- Every table triangle satisfies the invariant at its bit-length
level, which is at most 2n. -/
lemma triABC_inv (n : ℕ) (i : ℕ) (hi : (i : ℤ) < numTrianglesZ (2 ^ n + 1)) :
    TriInv n (Nat.log2 (i + 2)) (tripleToTri (triABC (2 ^ n) i)) ∧
      Nat.log2 (i + 2) ≤ 2 * n := by
  have hT : ((2 ^ n + 1 : ℕ) : ℤ) - 1 = (2 : ℤ) ^ n := by push_cast; ring
  have hnum : numTrianglesZ (2 ^ n + 1) = 2 * 2 ^ (2 * n) - 2 := by
    unfold numTrianglesZ
    rw [hT]
    rw [show (2 : ℤ) ^ (2 * n) = 2 ^ n * 2 ^ n by rw [two_mul, pow_add]]
    ring
  have hi2 : i + 2 < 2 ^ (2 * n + 1) := by
    rw [hnum] at hi
    have : (i : ℤ) + 2 < 2 * 2 ^ (2 * n) := by omega
    have h2 : ((i + 2 : ℕ) : ℤ) < ((2 ^ (2 * n + 1) : ℕ) : ℤ) := by
      push_cast
      rw [pow_succ]
      push_cast at this ⊢
      linarith
    exact_mod_cast h2
  have hlog : Nat.log2 (i + 2) ≤ 2 * n := by
    have := (Nat.log2_lt (by omega : i + 2 ≠ 0)).mpr hi2
    omega
  have hlog1 : 1 ≤ Nat.log2 (i + 2) := by
    have := (Nat.le_log2 (by omega : i + 2 ≠ 0)).mpr (by omega : 2 ^ 1 ≤ i + 2)
    omega
  have hres := coordLoopF_inv (i + 2) (i + 2) (rootTriple (2 ^ n) (i + 2)) n 1
    (le_refl _) (by omega) (rootTriple_inv n (i + 2)) (by omega)
  have he : 1 + Nat.log2 (i + 2) - 1 = Nat.log2 (i + 2) := by omega
  rw [he] at hres
  exact ⟨hres, hlog⟩

/-- The source identity recovers exactly the descent apex. -/
lemma triInv_apex (n lvl : ℕ) (t : Triangle) (h : TriInv n lvl t) (hlvl : lvl ≤ 2 * n) :
    apex t.a (mid t.a t.b) = toZ t.c := by
  obtain ⟨hm1, hm2⟩ := triInv_mid_exact n lvl t h hlvl
  have hr1 := h.rot1
  have hr2 := h.rot2
  unfold apex toZ
  have hx : ((mid t.a t.b).1 : ℤ) + ((mid t.a t.b).2 : ℤ) - (t.a.2 : ℤ) = (t.c.1 : ℤ) := by omega
  have hy : ((mid t.a t.b).2 : ℤ) + (t.a.1 : ℤ) - ((mid t.a t.b).1 : ℤ) = (t.c.2 : ℤ) := by omega
  rw [hx, hy]

/-- The leg length read off the invariant: greater than 1 exactly above
the unit leaves, and never larger than the tile size. -/
lemma triInv_legLength (n lvl : ℕ) (t : Triangle) (h : TriInv n lvl t) :
    (1 < legLength t ↔ lvl ≤ 2 * n) ∧ legLength t ≤ 2 ^ n := by
  have hlb := h.lvl_lb
  have hub := h.lvl_ub
  have hshape := sq_two_pow_shape (2 * n + 1 - lvl) _ _ h.len
  have hleg : legLength t =
      ((t.a.1 : ℤ) - t.c.1).natAbs + ((t.a.2 : ℤ) - t.c.2).natAbs := rfl
  rcases hshape with ⟨hk, ⟨hp, hq⟩ | ⟨hp, hq⟩⟩ | ⟨hk, hp, hq⟩
  · rw [hleg, hp, hq]
    simp only [Int.natAbs_zero, Nat.add_zero]
    constructor
    · rw [Nat.one_lt_two_pow_iff]
      omega
    · exact Nat.pow_le_pow_right (by norm_num) (by omega)
  · rw [hleg, hp, hq]
    simp only [Int.natAbs_zero, Nat.zero_add]
    constructor
    · rw [Nat.one_lt_two_pow_iff]
      omega
    · exact Nat.pow_le_pow_right (by norm_num) (by omega)
  · rw [hleg, hp, hq]
    have hKodd : (2 * n + 1 - lvl) % 2 = 1 := hk
    constructor
    · constructor
      · intro _
        omega
      · intro _
        have : 1 ≤ 2 ^ ((2 * n + 1 - lvl) / 2) := Nat.one_le_two_pow
        omega
    · have he : 2 ^ ((2 * n + 1 - lvl) / 2) + 2 ^ ((2 * n + 1 - lvl) / 2) =
          2 ^ ((2 * n + 1 - lvl) / 2 + 1) := by
        rw [pow_succ]
        ring
      rw [he]
      exact Nat.pow_le_pow_right (by norm_num) (by omega)

/-! ## Claim C8: the apex identity on the coordinate table -/

/-- C8: for every valid grid and every entry (a, b) of the coords table,
the apex recovered by the midpoint rotation identity lies inside
[0, T] x [0, T] and the three vertices are pairwise distinct. -/
theorem C8_apex_in_grid (n i : ℕ) (hi : (i : ℤ) < numTrianglesZ (2 ^ n + 1)) :
    0 ≤ (apex (coords (2 ^ n) i).1 (mid (coords (2 ^ n) i).1 (coords (2 ^ n) i).2)).1 ∧
      (apex (coords (2 ^ n) i).1 (mid (coords (2 ^ n) i).1 (coords (2 ^ n) i).2)).1 ≤ 2 ^ n ∧
      0 ≤ (apex (coords (2 ^ n) i).1 (mid (coords (2 ^ n) i).1 (coords (2 ^ n) i).2)).2 ∧
      (apex (coords (2 ^ n) i).1 (mid (coords (2 ^ n) i).1 (coords (2 ^ n) i).2)).2 ≤ 2 ^ n ∧
      toZ (coords (2 ^ n) i).1 ≠ toZ (coords (2 ^ n) i).2 ∧
      toZ (coords (2 ^ n) i).1 ≠
        apex (coords (2 ^ n) i).1 (mid (coords (2 ^ n) i).1 (coords (2 ^ n) i).2) ∧
      toZ (coords (2 ^ n) i).2 ≠
        apex (coords (2 ^ n) i).1 (mid (coords (2 ^ n) i).1 (coords (2 ^ n) i).2) := by
  obtain ⟨hinv, hlvl⟩ := triABC_inv n i hi
  set t := tripleToTri (triABC (2 ^ n) i) with ht
  have hca : (coords (2 ^ n) i).1 = t.a := rfl
  have hcb : (coords (2 ^ n) i).2 = t.b := rfl
  have hapex := triInv_apex n _ t hinv hlvl
  rw [hca, hcb, hapex]
  have hr1 := hinv.rot1
  have hr2 := hinv.rot2
  have hlen := hinv.len
  have hpos : (0 : ℤ) < 2 ^ (2 * n + 1 - Nat.log2 (i + 2)) := by positivity
  have hKge : 1 ≤ 2 * n + 1 - Nat.log2 (i + 2) := by
    have := hinv.lvl_lb
    omega
  have hK2 : (2 : ℤ) ≤ 2 ^ (2 * n + 1 - Nat.log2 (i + 2)) := by
    calc (2 : ℤ) = 2 ^ 1 := by norm_num
      _ ≤ 2 ^ (2 * n + 1 - Nat.log2 (i + 2)) := by
          apply pow_le_pow_right (by norm_num) hKge
  have hb1 := hinv.boundC1
  have hb2 := hinv.boundC2
  refine ⟨?_, ?_, ?_, ?_, ?_, ?_, ?_⟩
  · unfold toZ; dsimp only; positivity
  · unfold toZ; dsimp only; exact_mod_cast hb1
  · unfold toZ; dsimp only; positivity
  · unfold toZ; dsimp only; exact_mod_cast hb2
  · intro hc
    unfold toZ at hc
    have h1 : (t.a.1 : ℤ) = t.b.1 := congrArg Prod.fst hc
    have h2 : (t.a.2 : ℤ) = t.b.2 := congrArg Prod.snd hc
    have hz1 : (t.a.1 : ℤ) - t.c.1 = 0 := by omega
    have hz2 : (t.a.2 : ℤ) - t.c.2 = 0 := by omega
    rw [hz1, hz2] at hlen
    norm_num at hlen
    omega
  · intro hc
    unfold toZ at hc
    have h1 : (t.a.1 : ℤ) = t.c.1 := congrArg Prod.fst hc
    have h2 : (t.a.2 : ℤ) = t.c.2 := congrArg Prod.snd hc
    have hz1 : (t.a.1 : ℤ) - t.c.1 = 0 := by omega
    have hz2 : (t.a.2 : ℤ) - t.c.2 = 0 := by omega
    rw [hz1, hz2] at hlen
    norm_num at hlen
    omega
  · intro hc
    unfold toZ at hc
    have h1 : (t.b.1 : ℤ) = t.c.1 := congrArg Prod.fst hc
    have h2 : (t.b.2 : ℤ) = t.c.2 := congrArg Prod.snd hc
    have hz1 : (t.a.1 : ℤ) - t.c.1 = 0 := by omega
    have hz2 : (t.a.2 : ℤ) - t.c.2 = 0 := by omega
    rw [hz1, hz2] at hlen
    norm_num at hlen
    omega

/-- C8 witness at the first table entry of the 3 by 3 grid. -/
theorem C8_apex_in_grid_witness :
    ((0 : ℤ) ≤ (apex (coords (2 ^ 1) 0).1 (mid (coords (2 ^ 1) 0).1 (coords (2 ^ 1) 0).2)).1) ∧
      (apex (coords (2 ^ 1) 0).1 (mid (coords (2 ^ 1) 0).1 (coords (2 ^ 1) 0).2)).1 ≤ 2 ^ 1 ∧
      (0 : ℤ) ≤ (apex (coords (2 ^ 1) 0).1 (mid (coords (2 ^ 1) 0).1 (coords (2 ^ 1) 0).2)).2 ∧
      (apex (coords (2 ^ 1) 0).1 (mid (coords (2 ^ 1) 0).1 (coords (2 ^ 1) 0).2)).2 ≤ 2 ^ 1 ∧
      toZ (coords (2 ^ 1) 0).1 ≠ toZ (coords (2 ^ 1) 0).2 ∧
      toZ (coords (2 ^ 1) 0).1 ≠
        apex (coords (2 ^ 1) 0).1 (mid (coords (2 ^ 1) 0).1 (coords (2 ^ 1) 0).2) ∧
      toZ (coords (2 ^ 1) 0).2 ≠
        apex (coords (2 ^ 1) 0).1 (mid (coords (2 ^ 1) 0).1 (coords (2 ^ 1) 0).2) :=
  C8_apex_in_grid 1 0 (by decide)

/-! ## Midpoint classes: levels are recoverable from pixel positions -/

/-- x is exactly divisible by 2 ^ e. -/
def val2exact (e x : ℕ) : Prop := 2 ^ e ∣ x ∧ ¬ 2 ^ (e + 1) ∣ x

/-- The pixel class of the hypotenuse midpoints at a given level: at odd
levels both coordinates are exactly divisible by the level scale, at
even levels exactly one coordinate is and the other is finer. -/
def MidClass (n lvl : ℕ) (p : Point) : Prop :=
  if lvl % 2 = 1 then
    val2exact (n - (lvl + 1) / 2) p.1 ∧ val2exact (n - (lvl + 1) / 2) p.2
  else
    (val2exact (n - lvl / 2) p.1 ∧ 2 ^ (n - lvl / 2 + 1) ∣ p.2) ∨
      (val2exact (n - lvl / 2) p.2 ∧ 2 ^ (n - lvl / 2 + 1) ∣ p.1)

lemma val2exact_of_form (e : ℕ) (m : ℕ) (A : ℤ)
    (hs : (m : ℤ) = 2 ^ (e + 1) * A + 2 ^ e ∨ (m : ℤ) = 2 ^ (e + 1) * A - 2 ^ e) :
    val2exact e m := by
  constructor
  · have hz : (((2 ^ e : ℕ)) : ℤ) ∣ (m : ℤ) := by
      push_cast
      rcases hs with hs | hs
      · exact ⟨2 * A + 1, by rw [hs]; ring⟩
      · exact ⟨2 * A - 1, by rw [hs]; ring⟩
    exact_mod_cast hz
  · intro hdvd
    obtain ⟨w, hw⟩ := hdvd
    have hwz : (m : ℤ) = 2 ^ (e + 1) * (w : ℤ) := by exact_mod_cast hw
    have hne : ((2 : ℤ) ^ e) ≠ 0 := by positivity
    rcases hs with hs | hs
    · have hc : (2 : ℤ) ^ e * (2 * A + 1) = 2 ^ e * (2 * w) := by
        linear_combination hwz - hs
      have h2 : (2 : ℤ) * A + 1 = 2 * w := mul_left_cancel₀ hne hc
      omega
    · have hc : (2 : ℤ) ^ e * (2 * A - 1) = 2 ^ e * (2 * w) := by
        linear_combination hwz - hs
      have h2 : (2 : ℤ) * A - 1 = 2 * w := mul_left_cancel₀ hne hc
      omega

lemma nat_pow_dvd_of_int_eq (e m : ℕ) (A : ℤ) (h : (m : ℤ) = 2 ^ e * A) : 2 ^ e ∣ m := by
  have hz : (((2 ^ e : ℕ)) : ℤ) ∣ (m : ℤ) := by
    push_cast
    exact ⟨A, h⟩
  exact_mod_cast hz

lemma val2exact_unique (e e' x : ℕ) (h : val2exact e x) (h' : val2exact e' x) : e = e' := by
  by_contra hne
  rcases Nat.lt_or_ge e e' with hlt | hge
  · exact h.2 (dvd_trans (pow_dvd_pow 2 (by omega)) h'.1)
  · have : e' < e := by omega
    exact h'.2 (dvd_trans (pow_dvd_pow 2 (by omega)) h.1)

lemma val2exact_corner (e x n : ℕ) (hx : x = 0 ∨ x = 2 ^ n) (he : e < n) :
    ¬ val2exact e x := by
  rintro ⟨h1, h2⟩
  rcases hx with rfl | rfl
  · exact h2 (dvd_zero _)
  · exact h2 (pow_dvd_pow 2 (by omega))

/-- The hypotenuse midpoint of an invariant triangle lies in the class
of its level. -/
lemma triInv_midClass (n lvl : ℕ) (t : Triangle) (h : TriInv n lvl t) (hlvl : lvl ≤ 2 * n) :
    MidClass n lvl (mid t.a t.b) := by
  have hlb := h.lvl_lb
  obtain ⟨hm1, hm2⟩ := triInv_mid_exact n lvl t h hlvl
  have hr1 := h.rot1
  have hr2 := h.rot2
  have hd1 : 2 * ((mid t.a t.b).1 : ℤ) =
      2 * (t.a.1 : ℤ) + (((t.a.2 : ℤ) - t.c.2) - ((t.a.1 : ℤ) - t.c.1)) := by omega
  have hd2 : 2 * ((mid t.a t.b).2 : ℤ) =
      2 * (t.a.2 : ℤ) - (((t.a.1 : ℤ) - t.c.1) + ((t.a.2 : ℤ) - t.c.2)) := by omega
  rcases sq_two_pow_shape (2 * n + 1 - lvl) _ _ h.len with ⟨hk, hax⟩ | ⟨hk, hp, hq⟩
  · -- even exponent: the level is odd, the leg is axis aligned
    have hlodd : lvl % 2 = 1 := by omega
    set e := n - (lvl + 1) / 2 with he
    have hKdiv : (2 * n + 1 - lvl) / 2 = e + 1 := by omega
    have hlatexp : n - (lvl - 1) / 2 = e + 1 := by omega
    obtain ⟨A1n, hA1⟩ := h.latA1
    obtain ⟨A2n, hA2⟩ := h.latA2
    have hA1z : (t.a.1 : ℤ) = 2 ^ (e + 1) * (A1n : ℤ) := by
      rw [← hlatexp]
      exact_mod_cast hA1
    have hA2z : (t.a.2 : ℤ) = 2 ^ (e + 1) * (A2n : ℤ) := by
      rw [← hlatexp]
      exact_mod_cast hA2
    unfold MidClass
    rw [if_pos hlodd, ← he]
    have hpow : (2 : ℤ) ^ (e + 1) = 2 * 2 ^ e := by
      rw [pow_succ]
      ring
    rcases hax with ⟨hp, hq⟩ | ⟨hp, hq⟩
    · -- p = (s 2^(e+1), 0)
      rcases Int.natAbs_eq ((t.a.1 : ℤ) - t.c.1) with hs | hs
      all_goals rw [hp, hKdiv] at hs
      all_goals push_cast at hs
      all_goals constructor
      · refine val2exact_of_form e _ A1n (Or.inr ?_)
        omega
      · refine val2exact_of_form e _ A2n (Or.inr ?_)
        omega
      · refine val2exact_of_form e _ A1n (Or.inl ?_)
        omega
      · refine val2exact_of_form e _ A2n (Or.inl ?_)
        omega
    · -- p = (0, s 2^(e+1))
      rcases Int.natAbs_eq ((t.a.2 : ℤ) - t.c.2) with hs | hs
      all_goals rw [hq, hKdiv] at hs
      all_goals push_cast at hs
      all_goals constructor
      · refine val2exact_of_form e _ A1n (Or.inl ?_)
        omega
      · refine val2exact_of_form e _ A2n (Or.inr ?_)
        omega
      · refine val2exact_of_form e _ A1n (Or.inr ?_)
        omega
      · refine val2exact_of_form e _ A2n (Or.inl ?_)
        omega
  · -- odd exponent: the level is even, the leg is diagonal
    have hleven : lvl % 2 = 0 := by omega
    set f := n - lvl / 2 with hf
    have hKdiv : (2 * n + 1 - lvl) / 2 = f := by omega
    have hlatexp : n - (lvl - 1) / 2 = f + 1 := by omega
    obtain ⟨A1n, hA1⟩ := h.latA1
    obtain ⟨A2n, hA2⟩ := h.latA2
    have hA1z : (t.a.1 : ℤ) = 2 ^ (f + 1) * (A1n : ℤ) := by
      rw [← hlatexp]
      exact_mod_cast hA1
    have hA2z : (t.a.2 : ℤ) = 2 ^ (f + 1) * (A2n : ℤ) := by
      rw [← hlatexp]
      exact_mod_cast hA2
    unfold MidClass
    rw [if_neg (by omega), ← hf]
    have hpow : (2 : ℤ) ^ (f + 1) = 2 * 2 ^ f := by
      rw [pow_succ]
      ring
    rcases Int.natAbs_eq ((t.a.1 : ℤ) - t.c.1) with hs1 | hs1 <;>
      rcases Int.natAbs_eq ((t.a.2 : ℤ) - t.c.2) with hs2 | hs2
    all_goals rw [hp, hKdiv] at hs1
    all_goals rw [hq, hKdiv] at hs2
    all_goals push_cast at hs1 hs2
    · -- p1 = 2^f, p2 = 2^f: the first midpoint coordinate is even
      refine Or.inr ⟨?_, ?_⟩
      · refine val2exact_of_form f _ A2n (Or.inr ?_)
        omega
      · refine nat_pow_dvd_of_int_eq (f + 1) _ A1n ?_
        omega
    · -- p1 = 2^f, p2 = -2^f
      refine Or.inl ⟨?_, ?_⟩
      · refine val2exact_of_form f _ A1n (Or.inr ?_)
        omega
      · refine nat_pow_dvd_of_int_eq (f + 1) _ A2n ?_
        omega
    · -- p1 = -2^f, p2 = 2^f
      refine Or.inl ⟨?_, ?_⟩
      · refine val2exact_of_form f _ A1n (Or.inl ?_)
        omega
      · refine nat_pow_dvd_of_int_eq (f + 1) _ A2n ?_
        omega
    · -- p1 = -2^f, p2 = -2^f
      refine Or.inr ⟨?_, ?_⟩
      · refine val2exact_of_form f _ A2n (Or.inl ?_)
        omega
      · refine nat_pow_dvd_of_int_eq (f + 1) _ A1n ?_
        omega

/-- Midpoint classes of different levels are disjoint. -/
lemma midClass_disjoint (n lvl lvl' : ℕ) (p : Point)
    (h1 : 1 ≤ lvl) (h1' : 1 ≤ lvl') (h2 : lvl ≤ 2 * n) (h2' : lvl' ≤ 2 * n)
    (hc : MidClass n lvl p) (hc' : MidClass n lvl' p) : lvl = lvl' := by
  unfold MidClass at hc hc'
  by_cases ho : lvl % 2 = 1 <;> by_cases ho' : lvl' % 2 = 1
  · rw [if_pos ho] at hc
    rw [if_pos ho'] at hc'
    have := val2exact_unique _ _ _ hc.1 hc'.1
    omega
  · exfalso
    rw [if_pos ho] at hc
    rw [if_neg ho'] at hc'
    rcases hc' with ⟨hv, hd⟩ | ⟨hv, hd⟩
    · have he := val2exact_unique _ _ _ hc.1 hv
      refine hc.2.2 ?_
      have : n - (lvl + 1) / 2 + 1 ≤ n - lvl' / 2 + 1 := by omega
      exact dvd_trans (pow_dvd_pow 2 this) hd
    · have he := val2exact_unique _ _ _ hc.2 hv
      refine hc.1.2 ?_
      have : n - (lvl + 1) / 2 + 1 ≤ n - lvl' / 2 + 1 := by omega
      exact dvd_trans (pow_dvd_pow 2 this) hd
  · exfalso
    rw [if_neg ho] at hc
    rw [if_pos ho'] at hc'
    rcases hc with ⟨hv, hd⟩ | ⟨hv, hd⟩
    · have he := val2exact_unique _ _ _ hc'.1 hv
      refine hc'.2.2 ?_
      have : n - (lvl' + 1) / 2 + 1 ≤ n - lvl / 2 + 1 := by omega
      exact dvd_trans (pow_dvd_pow 2 this) hd
    · have he := val2exact_unique _ _ _ hc'.2 hv
      refine hc'.1.2 ?_
      have : n - (lvl' + 1) / 2 + 1 ≤ n - lvl / 2 + 1 := by omega
      exact dvd_trans (pow_dvd_pow 2 this) hd
  · rw [if_neg ho] at hc
    rw [if_neg ho'] at hc'
    rcases hc with ⟨hv, hd⟩ | ⟨hv, hd⟩ <;> rcases hc' with ⟨hv', hd'⟩ | ⟨hv', hd'⟩
    · have := val2exact_unique _ _ _ hv hv'
      omega
    · exfalso
      have hlt : n - lvl' / 2 + 1 ≤ n - lvl / 2 := by
        by_contra hcon
        exact hv.2 (dvd_trans (pow_dvd_pow 2 (by omega)) hd')
      have hlt' : n - lvl / 2 + 1 ≤ n - lvl' / 2 := by
        by_contra hcon
        exact hv'.2 (dvd_trans (pow_dvd_pow 2 (by omega)) hd)
      omega
    · exfalso
      have hlt : n - lvl' / 2 + 1 ≤ n - lvl / 2 := by
        by_contra hcon
        exact hv.2 (dvd_trans (pow_dvd_pow 2 (by omega)) hd')
      have hlt' : n - lvl / 2 + 1 ≤ n - lvl' / 2 := by
        by_contra hcon
        exact hv'.2 (dvd_trans (pow_dvd_pow 2 (by omega)) hd)
      omega
    · have := val2exact_unique _ _ _ hv hv'
      omega

/-! ## Claim C2: the error hierarchy after the update sweep -/

lemma mid_comm (p q : Point) : mid p q = mid q p := by
  unfold mid
  rw [Nat.add_comm p.1, Nat.add_comm p.2]

lemma mid_bounded (M : ℕ) (p q : Point) (hp1 : p.1 ≤ M) (hp2 : p.2 ≤ M)
    (hq1 : q.1 ≤ M) (hq2 : q.2 ≤ M) : (mid p q).1 ≤ M ∧ (mid p q).2 ≤ M := by
  unfold mid
  constructor
  · show (p.1 + q.1) / 2 ≤ M
    omega
  · show (p.2 + q.2) / 2 ≤ M
    omega

lemma key_inj (g : ℕ) (p q : Point) (hp : p.1 < g) (hq : q.1 < g)
    (h : key g p = key g q) : p = q := by
  unfold key at h
  have hg : 0 < g := by omega
  have hh : p.1 + p.2 * g = q.1 + q.2 * g := by
    rw [Nat.add_comm p.1 (p.2 * g), Nat.add_comm q.1 (q.2 * g)]
    exact h
  have e1 : p.1 = q.1 := by
    have h' := congrArg (fun x => x % g) hh
    simp only [Nat.add_mul_mod_self_right] at h'
    rwa [Nat.mod_eq_of_lt hp, Nat.mod_eq_of_lt hq] at h'
  have e2 : p.2 = q.2 := by
    have h' := congrArg (fun x => x / g) hh
    simp only at h'
    rw [Nat.add_mul_div_right _ _ hg, Nat.add_mul_div_right _ _ hg,
      Nat.div_eq_of_lt hp, Nat.div_eq_of_lt hq] at h'
    omega
  exact Prod.ext_iff.mpr ⟨e1, e2⟩

/-- The child index computation of the source, applied to an exact
lattice apex, is the buffer key of the midpoint. -/
lemma childKey_eq_key_mid (size : ℕ) (p q : Point) :
    childKey size p (toZ q) = key size (mid p q) := by
  unfold childKey toZ key mid
  have h1 : (((p.1 + q.1) / 2 : ℕ) : ℤ) = ((p.1 : ℤ) + (q.1 : ℤ)) / 2 := by
    omega
  have h2 : (((p.2 + q.2) / 2 : ℕ) : ℤ) = ((p.2 : ℤ) + (q.2 : ℤ)) / 2 := by
    omega
  rw [← h1, ← h2]
  rw [show ((((p.2 + q.2) / 2 : ℕ) : ℤ) * (size : ℤ) + (((p.1 + q.1) / 2 : ℕ) : ℤ))
      = (((p.2 + q.2) / 2 * size + (p.1 + q.1) / 2 : ℕ) : ℤ) by push_cast; ring]
  exact Int.toNat_natCast _

lemma log2_mono (a b : ℕ) (ha : 2 ≤ a) (hab : a ≤ b) : Nat.log2 a ≤ Nat.log2 b := by
  have hb : b ≠ 0 := by omega
  refine (Nat.le_log2 hb).mpr (le_trans ?_ hab)
  exact (Nat.le_log2 (by omega)).mp (le_refl _)

lemma numTrianglesZ_pow (n : ℕ) : numTrianglesZ (2 ^ n + 1) = 2 * 2 ^ (2 * n) - 2 := by
  unfold numTrianglesZ
  push_cast
  rw [show (2 : ℤ) ^ (2 * n) = 2 ^ n * 2 ^ n by rw [two_mul, pow_add]]
  ring

lemma numParentTrianglesZ_pow (n : ℕ) :
    numParentTrianglesZ (2 ^ n + 1) = 2 ^ (2 * n) - 2 := by
  unfold numParentTrianglesZ
  rw [numTrianglesZ_pow]
  push_cast
  rw [show (2 : ℤ) ^ (2 * n) = 2 ^ n * 2 ^ n by rw [two_mul, pow_add]]
  ring

/-- One update step never decreases any entry of the error field. -/
lemma errorsStep_le_self (terrain : ℕ → ℚ) (g : ℕ) (errs : ℕ → ℚ) (j k : ℕ) :
    errs k ≤ errorsStep terrain g errs j k := by
  unfold errorsStep
  simp only [ite_apply]
  split_ifs <;> simp_all [le_max_iff]

/-- One update step changes the error field only at the key of the
hypotenuse midpoint of its table triangle. -/
lemma errorsStep_apply_ne (terrain : ℕ → ℚ) (g : ℕ) (errs : ℕ → ℚ) (j k : ℕ)
    (hk : k ≠ key g (mid (coords (g - 1) j).1 (coords (g - 1) j).2)) :
    errorsStep terrain g errs j k = errs k := by
  unfold errorsStep
  simp only [ite_apply]
  split_ifs <;> simp_all

lemma errorsStep_nonneg (terrain : ℕ → ℚ) (g : ℕ) (errs : ℕ → ℚ) (j : ℕ)
    (h : ∀ k, 0 ≤ errs k) : ∀ k, 0 ≤ errorsStep terrain g errs j k :=
  fun k => le_trans (h k) (errorsStep_le_self terrain g errs j k)

lemma foldl_errorsStep_le (terrain : ℕ → ℚ) (g : ℕ) (l : List ℕ) :
    ∀ (errs : ℕ → ℚ) (k : ℕ), errs k ≤ l.foldl (errorsStep terrain g) errs k := by
  induction l with
  | nil => intro errs k; exact le_refl _
  | cons j l ih =>
    intro errs k
    exact le_trans (errorsStep_le_self terrain g errs j k) (ih _ k)

lemma foldl_errorsStep_nonneg (terrain : ℕ → ℚ) (g : ℕ) (l : List ℕ) :
    ∀ (errs : ℕ → ℚ), (∀ k, 0 ≤ errs k) → ∀ k, 0 ≤ l.foldl (errorsStep terrain g) errs k := by
  induction l with
  | nil => intro errs h k; exact h k
  | cons j l ih => intro errs h k; exact ih _ (errorsStep_nonneg terrain g errs j h) k

lemma foldl_errorsStep_ne (terrain : ℕ → ℚ) (g : ℕ) (l : List ℕ) :
    ∀ (errs : ℕ → ℚ) (k : ℕ),
      (∀ j ∈ l, k ≠ key g (mid (coords (g - 1) j).1 (coords (g - 1) j).2)) →
      l.foldl (errorsStep terrain g) errs k = errs k := by
  induction l with
  | nil => intro errs k _; rfl
  | cons j l ih =>
    intro errs k h
    have h1 := errorsStep_apply_ne terrain g errs j k (h j (by simp))
    have h2 := ih (errorsStep terrain g errs j) k (fun j' hj' => h j' (by simp [hj']))
    exact h2.trans h1

/-- At an internal table index, the update step leaves the value at the
hypotenuse midpoint at least as large as the values it leaves at the two
child midpoint keys. -/
lemma errorsStep_children_le (terrain : ℕ → ℚ) (g : ℕ) (errs : ℕ → ℚ) (i : ℕ)
    (hc : (i : ℤ) < numParentTrianglesZ g) :
    errorsStep terrain g errs i
        (childKey g (coords (g - 1) i).1
          (apex (coords (g - 1) i).1 (mid (coords (g - 1) i).1 (coords (g - 1) i).2))) ≤
      errorsStep terrain g errs i
        (key g (mid (coords (g - 1) i).1 (coords (g - 1) i).2)) ∧
    errorsStep terrain g errs i
        (childKey g (coords (g - 1) i).2
          (apex (coords (g - 1) i).1 (mid (coords (g - 1) i).1 (coords (g - 1) i).2))) ≤
      errorsStep terrain g errs i
        (key g (mid (coords (g - 1) i).1 (coords (g - 1) i).2)) := by
  constructor <;>
  · unfold errorsStep
    simp only [ite_apply]
    split_ifs <;> simp_all [le_max_iff]

lemma range_reverse_split (N i : ℕ) (h : i < N) :
    (List.range N).reverse =
      (List.map (fun k => i + 1 + k) (List.range (N - i - 1))).reverse ++
        i :: (List.range i).reverse := by
  have hN : N = (i + 1) + (N - i - 1) := by omega
  conv_lhs => rw [hN]
  rw [List.range_add, List.reverse_append, List.range_succ, List.reverse_append]
  simp

/-- The write key of every update step carries the midpoint class of its
level, and lies inside the grid. -/
lemma table_mid_class (n j : ℕ) (hj : (j : ℤ) < numTrianglesZ (2 ^ n + 1)) :
    MidClass n (Nat.log2 (j + 2)) (mid (coords (2 ^ n) j).1 (coords (2 ^ n) j).2) ∧
      (mid (coords (2 ^ n) j).1 (coords (2 ^ n) j).2).1 ≤ 2 ^ n ∧
      (mid (coords (2 ^ n) j).1 (coords (2 ^ n) j).2).2 ≤ 2 ^ n ∧
      1 ≤ Nat.log2 (j + 2) ∧ Nat.log2 (j + 2) ≤ 2 * n := by
  obtain ⟨hinv, hlog⟩ := triABC_inv n j hj
  have hcl := triInv_midClass n (Nat.log2 (j + 2)) _ hinv hlog
  have hb := mid_bounded (2 ^ n) (tripleToTri (triABC (2 ^ n) j)).a
    (tripleToTri (triABC (2 ^ n) j)).b hinv.boundA1 hinv.boundA2 hinv.boundB1 hinv.boundB2
  exact ⟨hcl, hb.1, hb.2, hinv.lvl_lb, hlog⟩

/-- At an internal table index, the source child keys are the midpoint
keys of the two split children, which carry the class one level down. -/
lemma table_child_class (n i : ℕ) (hi : (i : ℤ) < numParentTrianglesZ (2 ^ n + 1)) :
    apex (coords (2 ^ n) i).1 (mid (coords (2 ^ n) i).1 (coords (2 ^ n) i).2) =
      toZ (tripleToTri (triABC (2 ^ n) i)).c ∧
      MidClass n (Nat.log2 (i + 2) + 1)
        (mid (coords (2 ^ n) i).1 (tripleToTri (triABC (2 ^ n) i)).c) ∧
      MidClass n (Nat.log2 (i + 2) + 1)
        (mid (coords (2 ^ n) i).2 (tripleToTri (triABC (2 ^ n) i)).c) ∧
      (mid (coords (2 ^ n) i).1 (tripleToTri (triABC (2 ^ n) i)).c).1 ≤ 2 ^ n ∧
      (mid (coords (2 ^ n) i).1 (tripleToTri (triABC (2 ^ n) i)).c).2 ≤ 2 ^ n ∧
      (mid (coords (2 ^ n) i).2 (tripleToTri (triABC (2 ^ n) i)).c).1 ≤ 2 ^ n ∧
      (mid (coords (2 ^ n) i).2 (tripleToTri (triABC (2 ^ n) i)).c).2 ≤ 2 ^ n ∧
      Nat.log2 (i + 2) + 1 ≤ 2 * n := by
  have hnum := numTrianglesZ_pow n
  have hpar := numParentTrianglesZ_pow n
  rw [hpar] at hi
  have h0i : (0 : ℤ) ≤ (i : ℤ) := Int.natCast_nonneg i
  have hpow : (0 : ℤ) ≤ 2 ^ (2 * n) := by positivity
  have hiN : (i : ℤ) < numTrianglesZ (2 ^ n + 1) := by
    rw [hnum]
    linarith
  obtain ⟨hinv, hlog⟩ := triABC_inv n i hiN
  have hi2n : i + 2 < 2 ^ (2 * n) := by
    have hz : ((i + 2 : ℕ) : ℤ) < ((2 ^ (2 * n) : ℕ) : ℤ) := by push_cast; linarith
    exact_mod_cast hz
  have hloglt : Nat.log2 (i + 2) < 2 * n := (Nat.log2_lt (by omega)).mpr hi2n
  set t := tripleToTri (triABC (2 ^ n) i) with ht
  obtain ⟨hc1, hc2⟩ := triInv_step n (Nat.log2 (i + 2)) t hinv hlog
  have hap := triInv_apex n (Nat.log2 (i + 2)) t hinv hlog
  have hm1 := triInv_midClass n (Nat.log2 (i + 2) + 1) _ hc1 (by omega)
  have hm2 := triInv_midClass n (Nat.log2 (i + 2) + 1) _ hc2 (by omega)
  have hm1' : MidClass n (Nat.log2 (i + 2) + 1) (mid t.a t.c) := by
    rw [mid_comm t.a t.c]
    exact hm1
  refine ⟨hap, hm1', hm2, ?_, ?_, ?_, ?_, by omega⟩
  · exact (mid_bounded (2 ^ n) t.a t.c hinv.boundA1 hinv.boundA2 hinv.boundC1 hinv.boundC2).1
  · exact (mid_bounded (2 ^ n) t.a t.c hinv.boundA1 hinv.boundA2 hinv.boundC1 hinv.boundC2).2
  · exact (mid_bounded (2 ^ n) t.b t.c hinv.boundB1 hinv.boundB2 hinv.boundC1 hinv.boundC2).1
  · exact (mid_bounded (2 ^ n) t.b t.c hinv.boundB1 hinv.boundB2 hinv.boundC1 hinv.boundC2).2

/-- C2: after the bottom-up update sweep of a validly constructed tile,
every entry of the error field is nonnegative, and for every internal
table triangle the error stored at its hypotenuse midpoint dominates the
errors stored at the two child midpoint keys of the source. -/
theorem C2_error_hierarchy (n gridSize : ℕ) (terrain : List ℚ) (i : ℕ)
    (hv : ValidTile n gridSize terrain)
    (hi : (i : ℤ) < numParentTrianglesZ gridSize) :
    (∀ k, 0 ≤ tileErrors terrain gridSize k) ∧
      tileErrors terrain gridSize
          (childKey gridSize (coords (gridSize - 1) i).1
            (apex (coords (gridSize - 1) i).1
              (mid (coords (gridSize - 1) i).1 (coords (gridSize - 1) i).2))) ≤
        tileErrors terrain gridSize
          (key gridSize (mid (coords (gridSize - 1) i).1 (coords (gridSize - 1) i).2)) ∧
      tileErrors terrain gridSize
          (childKey gridSize (coords (gridSize - 1) i).2
            (apex (coords (gridSize - 1) i).1
              (mid (coords (gridSize - 1) i).1 (coords (gridSize - 1) i).2))) ≤
        tileErrors terrain gridSize
          (key gridSize (mid (coords (gridSize - 1) i).1 (coords (gridSize - 1) i).2)) := by
  obtain ⟨hg, hlen⟩ := hv
  subst hg
  have hT : 2 ^ n + 1 - 1 = 2 ^ n := Nat.add_sub_cancel (2 ^ n) 1
  rw [hT]
  have hnum := numTrianglesZ_pow n
  have hpar := numParentTrianglesZ_pow n
  have h0i : (0 : ℤ) ≤ (i : ℤ) := Int.natCast_nonneg i
  have hpow : (0 : ℤ) ≤ 2 ^ (2 * n) := by positivity
  have hiN : (i : ℤ) < numTrianglesZ (2 ^ n + 1) := by
    rw [hnum]
    rw [hpar] at hi
    linarith
  have hnn : ∀ k, 0 ≤ tileErrors terrain (2 ^ n + 1) k := by
    intro k
    unfold tileErrors computeErrors
    exact foldl_errorsStep_nonneg _ _ _ _ (fun _ => le_refl 0) k
  have hiNat : i < (numTrianglesZ (2 ^ n + 1)).toNat := Int.lt_toNat.mpr hiN
  have hsplit := range_reverse_split ((numTrianglesZ (2 ^ n + 1)).toNat) i hiNat
  set F := errorsStep (terrainFun terrain) (2 ^ n + 1) with hF
  have hfold : tileErrors terrain (2 ^ n + 1) =
      (List.range i).reverse.foldl F
        (F ((List.map (fun k => i + 1 + k)
            (List.range ((numTrianglesZ (2 ^ n + 1)).toNat - i - 1))).reverse.foldl F
          (fun _ => 0)) i) := by
    show computeErrors (terrainFun terrain) (2 ^ n + 1) = _
    unfold computeErrors
    rw [← hF, hsplit, List.foldl_append, List.foldl_cons]
  set pre := (List.map (fun k => i + 1 + k)
      (List.range ((numTrianglesZ (2 ^ n + 1)).toNat - i - 1))).reverse.foldl F (fun _ => 0)
    with hpreDef
  obtain ⟨hap, hclL, hclR, hbL1, hbL2, hbR1, hbR2, hlvl1⟩ := table_child_class n i hi
  set t := tripleToTri (triABC (2 ^ n) i) with ht
  have hLkey : childKey (2 ^ n + 1) (coords (2 ^ n) i).1
      (apex (coords (2 ^ n) i).1 (mid (coords (2 ^ n) i).1 (coords (2 ^ n) i).2)) =
      key (2 ^ n + 1) (mid (coords (2 ^ n) i).1 t.c) := by
    rw [hap]
    exact childKey_eq_key_mid (2 ^ n + 1) (coords (2 ^ n) i).1 t.c
  have hRkey : childKey (2 ^ n + 1) (coords (2 ^ n) i).2
      (apex (coords (2 ^ n) i).1 (mid (coords (2 ^ n) i).1 (coords (2 ^ n) i).2)) =
      key (2 ^ n + 1) (mid (coords (2 ^ n) i).2 t.c) := by
    rw [hap]
    exact childKey_eq_key_mid (2 ^ n + 1) (coords (2 ^ n) i).2 t.c
  have hstepLR := errorsStep_children_le (terrainFun terrain) (2 ^ n + 1) pre i hi
  rw [hT] at hstepLR
  rw [← hF] at hstepLR
  have hstableL : (List.range i).reverse.foldl F (F pre i)
      (key (2 ^ n + 1) (mid (coords (2 ^ n) i).1 t.c)) =
      (F pre i) (key (2 ^ n + 1) (mid (coords (2 ^ n) i).1 t.c)) := by
    rw [hF]
    refine foldl_errorsStep_ne _ _ _ _ _ ?_
    intro j hj heq
    rw [List.mem_reverse, List.mem_range] at hj
    rw [hT] at heq
    have hjN : (j : ℤ) < numTrianglesZ (2 ^ n + 1) := by
      have hji : (j : ℤ) < (i : ℤ) := by exact_mod_cast hj
      linarith
    obtain ⟨hclj, hbj1, hbj2, hlbj, hubj⟩ := table_mid_class n j hjN
    have hpoint := key_inj (2 ^ n + 1) _ _ (Nat.lt_succ_of_le hbL1) (Nat.lt_succ_of_le hbj1) heq
    rw [← hpoint] at hclj
    have hdisj := midClass_disjoint n (Nat.log2 (i + 2) + 1) (Nat.log2 (j + 2)) _
      (by omega) hlbj hlvl1 hubj hclL hclj
    have hmono := log2_mono (j + 2) (i + 2) (by omega) (by omega)
    omega
  have hstableR : (List.range i).reverse.foldl F (F pre i)
      (key (2 ^ n + 1) (mid (coords (2 ^ n) i).2 t.c)) =
      (F pre i) (key (2 ^ n + 1) (mid (coords (2 ^ n) i).2 t.c)) := by
    rw [hF]
    refine foldl_errorsStep_ne _ _ _ _ _ ?_
    intro j hj heq
    rw [List.mem_reverse, List.mem_range] at hj
    rw [hT] at heq
    have hjN : (j : ℤ) < numTrianglesZ (2 ^ n + 1) := by
      have hji : (j : ℤ) < (i : ℤ) := by exact_mod_cast hj
      linarith
    obtain ⟨hclj, hbj1, hbj2, hlbj, hubj⟩ := table_mid_class n j hjN
    have hpoint := key_inj (2 ^ n + 1) _ _ (Nat.lt_succ_of_le hbR1) (Nat.lt_succ_of_le hbj1) heq
    rw [← hpoint] at hclj
    have hdisj := midClass_disjoint n (Nat.log2 (i + 2) + 1) (Nat.log2 (j + 2)) _
      (by omega) hlbj hlvl1 hubj hclR hclj
    have hmono := log2_mono (j + 2) (i + 2) (by omega) (by omega)
    omega
  refine ⟨hnn, ?_, ?_⟩
  · rw [hfold, hLkey, hstableL]
    have hA : (F pre i) (key (2 ^ n + 1) (mid (coords (2 ^ n) i).1 t.c)) ≤
        (F pre i) (key (2 ^ n + 1) (mid (coords (2 ^ n) i).1 (coords (2 ^ n) i).2)) := by
      rw [← hLkey]
      exact hstepLR.1
    have hB : (F pre i) (key (2 ^ n + 1) (mid (coords (2 ^ n) i).1 (coords (2 ^ n) i).2)) ≤
        (List.range i).reverse.foldl F (F pre i)
          (key (2 ^ n + 1) (mid (coords (2 ^ n) i).1 (coords (2 ^ n) i).2)) := by
      rw [hF]
      exact foldl_errorsStep_le (terrainFun terrain) (2 ^ n + 1) _ _ _
    exact le_trans hA hB
  · rw [hfold, hRkey, hstableR]
    have hA : (F pre i) (key (2 ^ n + 1) (mid (coords (2 ^ n) i).2 t.c)) ≤
        (F pre i) (key (2 ^ n + 1) (mid (coords (2 ^ n) i).1 (coords (2 ^ n) i).2)) := by
      rw [← hRkey]
      exact hstepLR.2
    have hB : (F pre i) (key (2 ^ n + 1) (mid (coords (2 ^ n) i).1 (coords (2 ^ n) i).2)) ≤
        (List.range i).reverse.foldl F (F pre i)
          (key (2 ^ n + 1) (mid (coords (2 ^ n) i).1 (coords (2 ^ n) i).2)) := by
      rw [hF]
      exact foldl_errorsStep_le (terrainFun terrain) (2 ^ n + 1) _ _ _
    exact le_trans hA hB

/-- Witness for C2 at the smallest valid grid. -/
theorem C2_error_hierarchy_witness :
    ValidTile 1 3 [(0 : ℚ), 0, 0, 5, 0, 0, 0, 0, 0] ∧
      (((0 : ℕ) : ℤ) < numParentTrianglesZ 3) ∧
      ((∀ k, 0 ≤ tileErrors [(0 : ℚ), 0, 0, 5, 0, 0, 0, 0, 0] 3 k) ∧
        tileErrors [(0 : ℚ), 0, 0, 5, 0, 0, 0, 0, 0] 3
            (childKey 3 (coords (3 - 1) 0).1
              (apex (coords (3 - 1) 0).1 (mid (coords (3 - 1) 0).1 (coords (3 - 1) 0).2))) ≤
          tileErrors [(0 : ℚ), 0, 0, 5, 0, 0, 0, 0, 0] 3
            (key 3 (mid (coords (3 - 1) 0).1 (coords (3 - 1) 0).2)) ∧
        tileErrors [(0 : ℚ), 0, 0, 5, 0, 0, 0, 0, 0] 3
            (childKey 3 (coords (3 - 1) 0).2
              (apex (coords (3 - 1) 0).1 (mid (coords (3 - 1) 0).1 (coords (3 - 1) 0).2))) ≤
          tileErrors [(0 : ℚ), 0, 0, 5, 0, 0, 0, 0, 0] 3
            (key 3 (mid (coords (3 - 1) 0).1 (coords (3 - 1) 0).2))) :=
  ⟨⟨by norm_num, by norm_num⟩, by decide,
    C2_error_hierarchy 1 3 _ 0 ⟨by norm_num, by norm_num⟩ (by decide)⟩

/-! ## Claim C4 (amended): the four corner pixels keep error zero -/

lemma midClass_not_corner (n lvl : ℕ) (p : Point) (h1 : 1 ≤ lvl) (h2 : lvl ≤ 2 * n)
    (hx : p.1 = 0 ∨ p.1 = 2 ^ n) (hy : p.2 = 0 ∨ p.2 = 2 ^ n) :
    ¬ MidClass n lvl p := by
  intro hc
  unfold MidClass at hc
  by_cases ho : lvl % 2 = 1
  · rw [if_pos ho] at hc
    exact val2exact_corner _ _ n hx (by omega) hc.1
  · rw [if_neg ho] at hc
    rcases hc with ⟨hv, _⟩ | ⟨hv, _⟩
    · exact val2exact_corner _ _ n hx (by omega) hv
    · exact val2exact_corner _ _ n hy (by omega) hv

/-- C4 (amended): after the update sweep of a validly constructed tile,
the four corner pixels always hold error zero, for every terrain.  (The
original claim about all edge pixels is refuted by C4_counterexample:
non-corner edge pixels can hold boundary interpolation error.) -/
theorem C4_corner_errors (n gridSize : ℕ) (terrain : List ℚ) (p : Point)
    (hv : ValidTile n gridSize terrain)
    (hx : p.1 = 0 ∨ p.1 = gridSize - 1) (hy : p.2 = 0 ∨ p.2 = gridSize - 1) :
    tileErrors terrain gridSize (key gridSize p) = 0 := by
  obtain ⟨hg, hlen⟩ := hv
  subst hg
  have hT : 2 ^ n + 1 - 1 = 2 ^ n := Nat.add_sub_cancel (2 ^ n) 1
  rw [hT] at hx hy
  unfold tileErrors computeErrors
  refine foldl_errorsStep_ne _ _ _ _ _ ?_
  intro j hj heq
  rw [List.mem_reverse, List.mem_range] at hj
  have hjN : (j : ℤ) < numTrianglesZ (2 ^ n + 1) := Int.lt_toNat.mp hj
  obtain ⟨hclj, hbj1, hbj2, hlbj, hubj⟩ := table_mid_class n j hjN
  rw [hT] at heq
  have hp1 : p.1 < 2 ^ n + 1 := by
    rcases hx with hcase | hcase <;> rw [hcase]
    · exact Nat.succ_pos _
    · exact Nat.lt_succ_of_le (le_refl _)
  have hpoint := key_inj (2 ^ n + 1) _ _ hp1 (Nat.lt_succ_of_le hbj1) heq
  rw [← hpoint] at hclj
  exact midClass_not_corner n (Nat.log2 (j + 2)) p hlbj hubj hx hy hclj

/-- Witness for the amended C4 at the corner (2, 2) of a 3 x 3 tile. -/
theorem C4_corner_errors_witness :
    ValidTile 1 3 [(0 : ℚ), 0, 0, 5, 0, 0, 0, 0, 0] ∧
      (((2, 2) : Point).1 = 0 ∨ ((2, 2) : Point).1 = 3 - 1) ∧
      (((2, 2) : Point).2 = 0 ∨ ((2, 2) : Point).2 = 3 - 1) ∧
      tileErrors [(0 : ℚ), 0, 0, 5, 0, 0, 0, 0, 0] 3 (key 3 ((2, 2) : Point)) = 0 :=
  ⟨⟨by norm_num, by norm_num⟩, Or.inr rfl, Or.inr rfl,
    C4_corner_errors 1 3 _ ((2, 2) : Point) ⟨by norm_num, by norm_num⟩ (Or.inr rfl) (Or.inr rfl)⟩

/-! ## Claim C7: flat terrain gives zero errors and the two root leaves -/

lemma key_lt_sq (M : ℕ) (p : Point) (h1 : p.1 ≤ M) (h2 : p.2 ≤ M) :
    key (M + 1) p < (M + 1) * (M + 1) := by
  unfold key
  have hmul : p.2 * (M + 1) ≤ M * (M + 1) := Nat.mul_le_mul_right _ h2
  have hr : (M + 1) * (M + 1) = M * (M + 1) + M + 1 := by ring
  calc p.2 * (M + 1) + p.1 ≤ M * (M + 1) + M := add_le_add hmul h1
    _ < (M + 1) * (M + 1) := by rw [hr]; exact Nat.lt_succ_self _

lemma replicate_getD (len k : ℕ) (h : ℚ) (hk : k < len) :
    terrainFun (List.replicate len h) k = h := by
  unfold terrainFun
  rw [List.getD_eq_getElem?_getD, List.getElem?_replicate, if_pos hk]
  rfl

lemma flat_step_zero (n : ℕ) (h : ℚ) (j : ℕ) (errs : ℕ → ℚ)
    (hz : ∀ k, errs k = 0) (hj : (j : ℤ) < numTrianglesZ (2 ^ n + 1)) :
    ∀ k, errorsStep (terrainFun (List.replicate ((2 ^ n + 1) * (2 ^ n + 1)) h))
      (2 ^ n + 1) errs j k = 0 := by
  intro k
  obtain ⟨hinv, hlog⟩ := triABC_inv n j hj
  have hbm := mid_bounded (2 ^ n) (tripleToTri (triABC (2 ^ n) j)).a
    (tripleToTri (triABC (2 ^ n) j)).b hinv.boundA1 hinv.boundA2 hinv.boundB1 hinv.boundB2
  have hta : terrainFun (List.replicate ((2 ^ n + 1) * (2 ^ n + 1)) h)
      (key (2 ^ n + 1) (coords (2 ^ n) j).1) = h :=
    replicate_getD _ _ h (key_lt_sq (2 ^ n) _ hinv.boundA1 hinv.boundA2)
  have htb : terrainFun (List.replicate ((2 ^ n + 1) * (2 ^ n + 1)) h)
      (key (2 ^ n + 1) (coords (2 ^ n) j).2) = h :=
    replicate_getD _ _ h (key_lt_sq (2 ^ n) _ hinv.boundB1 hinv.boundB2)
  have htm : terrainFun (List.replicate ((2 ^ n + 1) * (2 ^ n + 1)) h)
      (key (2 ^ n + 1) (mid (coords (2 ^ n) j).1 (coords (2 ^ n) j).2)) = h :=
    replicate_getD _ _ h (key_lt_sq (2 ^ n) _ hbm.1 hbm.2)
  unfold errorsStep
  simp only [ite_apply, Nat.add_sub_cancel]
  rw [hta, htb, htm]
  split_ifs <;> simp [hz, add_self_div_two]

lemma flat_errors_zero (n : ℕ) (h : ℚ) (k : ℕ) :
    tileErrors (List.replicate ((2 ^ n + 1) * (2 ^ n + 1)) h) (2 ^ n + 1) k = 0 := by
  unfold tileErrors computeErrors
  have hgen : ∀ (l : List ℕ), (∀ j ∈ l, (j : ℤ) < numTrianglesZ (2 ^ n + 1)) →
      ∀ (errs : ℕ → ℚ), (∀ k, errs k = 0) →
      ∀ k, l.foldl (errorsStep (terrainFun (List.replicate ((2 ^ n + 1) * (2 ^ n + 1)) h))
        (2 ^ n + 1)) errs k = 0 := by
    intro l
    induction l with
    | nil => intro _ errs hz k; exact hz k
    | cons j l ih =>
      intro hl errs hz k
      refine ih (fun j' hj' => hl j' (by simp [hj'])) _ ?_ k
      exact flat_step_zero n h j errs hz (hl j (by simp))
  refine hgen _ ?_ _ (fun _ => rfl) k
  intro j hj
  rw [List.mem_reverse, List.mem_range] at hj
  exact Int.lt_toNat.mp hj

lemma countElements_leaf (cfg : MeshCfg) (fuel : ℕ) (t : Triangle) (s : Pass1State)
    (h : shouldSplit cfg t = false) :
    countElements cfg (fuel + 1) t s = emitCount cfg.size t s := by
  unfold countElements
  rw [h]
  simp

lemma processTriangle_leaf (cfg : MeshCfg) (ind : ℕ → ℕ) (numV numT fuel : ℕ)
    (t : Triangle) (s : Pass2State) (h : shouldSplit cfg t = false) :
    processTriangle cfg ind numV numT (fuel + 1) t s = emitFill cfg.size ind numV numT t s := by
  unfold processTriangle
  rw [h]
  simp

lemma getMesh_numTriangles (errs : ℕ → ℚ) (size : ℕ) (maxError : ℚ)
    (maxLength : Option ℚ) :
    (getMesh errs size maxError maxLength).numTriangles =
      (pass1Final (meshCfgOf errs size maxError maxLength) (meshFuel size)
        (size - 1)).numTriangles := rfl

lemma getMesh_numVertices (errs : ℕ → ℚ) (size : ℕ) (maxError : ℚ)
    (maxLength : Option ℚ) :
    (getMesh errs size maxError maxLength).numVertices =
      (pass1Final (meshCfgOf errs size maxError maxLength) (meshFuel size)
        (size - 1)).numVertices := rfl

lemma getMesh_vertices (errs : ℕ → ℚ) (size : ℕ) (maxError : ℚ)
    (maxLength : Option ℚ) :
    (getMesh errs size maxError maxLength).vertices =
      (pass2Final (meshCfgOf errs size maxError maxLength)
        (pass1Final (meshCfgOf errs size maxError maxLength) (meshFuel size)
          (size - 1)).indices
        (pass1Final (meshCfgOf errs size maxError maxLength) (meshFuel size)
          (size - 1)).numVertices
        (pass1Final (meshCfgOf errs size maxError maxLength) (meshFuel size)
          (size - 1)).numTriangles
        (meshFuel size) (size - 1)).vertices := rfl

/-- A mesh extraction at threshold zero over an identically zero error
field emits exactly the two root triangles: two triangles, four
vertices, and the vertex buffer holds the four tile corners. -/
lemma zero_errors_mesh (n : ℕ) (errs : ℕ → ℚ) (hz : ∀ k, errs k = 0) :
    (getMesh errs (2 ^ n + 1) 0 none).numTriangles = 2 ∧
      (getMesh errs (2 ^ n + 1) 0 none).numVertices = 4 ∧
      (getMesh errs (2 ^ n + 1) 0 none).vertices 0 = some 0 ∧
      (getMesh errs (2 ^ n + 1) 0 none).vertices 1 = some 0 ∧
      (getMesh errs (2 ^ n + 1) 0 none).vertices 2 = some (2 ^ n) ∧
      (getMesh errs (2 ^ n + 1) 0 none).vertices 3 = some (2 ^ n) ∧
      (getMesh errs (2 ^ n + 1) 0 none).vertices 4 = some (2 ^ n) ∧
      (getMesh errs (2 ^ n + 1) 0 none).vertices 5 = some 0 ∧
      (getMesh errs (2 ^ n + 1) 0 none).vertices 6 = some 0 ∧
      (getMesh errs (2 ^ n + 1) 0 none).vertices 7 = some (2 ^ n) ∧
      (∀ k, 8 ≤ k → (getMesh errs (2 ^ n + 1) 0 none).vertices k = none) := by
  have hpos : 0 < 2 ^ n := pow_pos (by norm_num) n
  have hposBM : 0 < 2 ^ n * (2 ^ n + 1) + 2 ^ n := by positivity
  have hposB : 0 < 2 ^ n * (2 ^ n + 1) := by positivity
  have h1lt : 1 < 2 ^ n + 1 := Nat.succ_lt_succ hpos
  have hMltB : 2 ^ n < 2 ^ n * (2 ^ n + 1) := by
    calc 2 ^ n = 2 ^ n * 1 := (Nat.mul_one _).symm
      _ < 2 ^ n * (2 ^ n + 1) := mul_lt_mul_of_pos_left h1lt hpos
  have hMltBM : 2 ^ n < 2 ^ n * (2 ^ n + 1) + 2 ^ n := Nat.lt_add_of_pos_left hposB
  have hBltBM : 2 ^ n * (2 ^ n + 1) < 2 ^ n * (2 ^ n + 1) + 2 ^ n := Nat.lt_add_of_pos_right hpos
  have ne1 : 2 ^ n ≠ 0 := hpos.ne'
  have ne2 : (0 : ℕ) ≠ 2 ^ n := hpos.ne
  have ne3 : 2 ^ n * (2 ^ n + 1) + 2 ^ n ≠ 0 := hposBM.ne'
  have ne4 : (0 : ℕ) ≠ 2 ^ n * (2 ^ n + 1) + 2 ^ n := hposBM.ne
  have ne5 : 2 ^ n * (2 ^ n + 1) ≠ 0 := hposB.ne'
  have ne6 : (0 : ℕ) ≠ 2 ^ n * (2 ^ n + 1) := hposB.ne
  have ne7 : 2 ^ n ≠ 2 ^ n * (2 ^ n + 1) := hMltB.ne
  have ne8 : 2 ^ n * (2 ^ n + 1) ≠ 2 ^ n := hMltB.ne'
  have ne9 : 2 ^ n ≠ 2 ^ n * (2 ^ n + 1) + 2 ^ n := hMltBM.ne
  have ne10 : 2 ^ n * (2 ^ n + 1) + 2 ^ n ≠ 2 ^ n := hMltBM.ne'
  have ne11 : 2 ^ n * (2 ^ n + 1) ≠ 2 ^ n * (2 ^ n + 1) + 2 ^ n := hBltBM.ne
  have ne12 : 2 ^ n * (2 ^ n + 1) + 2 ^ n ≠ 2 ^ n * (2 ^ n + 1) := hBltBM.ne'
  have hkey00 : key (2 ^ n + 1) ((0, 0) : Point) = 0 := by simp [key]
  have hkeymm : key (2 ^ n + 1) ((2 ^ n, 2 ^ n) : Point) = 2 ^ n * (2 ^ n + 1) + 2 ^ n := rfl
  have hkeym0 : key (2 ^ n + 1) ((2 ^ n, 0) : Point) = 2 ^ n := by simp [key]
  have hkey0m : key (2 ^ n + 1) ((0, 2 ^ n) : Point) = 2 ^ n * (2 ^ n + 1) := by simp [key]
  have hleg1 : legLength (rootTriangle1 (2 ^ n)) = 2 ^ n := by
    show (((0 : ℕ) : ℤ) - ((2 ^ n : ℕ) : ℤ)).natAbs +
      (((0 : ℕ) : ℤ) - ((0 : ℕ) : ℤ)).natAbs = 2 ^ n
    rw [sub_self, Int.natAbs_zero, Nat.add_zero, Nat.cast_zero, zero_sub, Int.natAbs_neg,
      Int.natAbs_cast]
  have hleg2 : legLength (rootTriangle2 (2 ^ n)) = 2 ^ n := by
    show (((2 ^ n : ℕ) : ℤ) - ((0 : ℕ) : ℤ)).natAbs +
      (((2 ^ n : ℕ) : ℤ) - ((2 ^ n : ℕ) : ℤ)).natAbs = 2 ^ n
    rw [sub_self, Int.natAbs_zero, Nat.add_zero, Nat.cast_zero, sub_zero, Int.natAbs_cast]
  have hssfalse : ∀ t : Triangle, legLength t = 2 ^ n →
      shouldSplit (meshCfgOf errs (2 ^ n + 1) 0 none) t = false := by
    intro t hlen
    have hcl : ¬ ((0 : ℚ) < errs (key (2 ^ n + 1) (mid t.a t.b))) := by
      rw [hz]
      exact lt_irrefl 0
    have hms : ¬ (maxScaleOf (2 ^ n + 1) none < ((legLength t : ℕ) : ℚ)) := by
      unfold maxScaleOf
      rw [hlen]
      push_cast
      linarith
    simp only [shouldSplit, meshCfgOf]
    rw [decide_eq_false hcl, decide_eq_false hms]
    simp
  have hss1 := hssfalse (rootTriangle1 (2 ^ n)) hleg1
  have hss2 := hssfalse (rootTriangle2 (2 ^ n)) hleg2
  have hfuel : meshFuel (2 ^ n + 1) = 2 * 2 ^ n + 1 + 1 := by
    unfold meshFuel
    ring
  have hT1 : markKey 0 (⟨fun _ => 0, 0, 0⟩ : Pass1State) =
      ⟨fun j => if j = 0 then 1 else 0, 1, 0⟩ := by
    rw [markKey_of_zero 0 _ rfl]
  have hT2 : markKey (2 ^ n * (2 ^ n + 1) + 2 ^ n)
      (⟨fun j => if j = 0 then 1 else 0, 1, 0⟩ : Pass1State) =
      ⟨fun j => if j = 2 ^ n * (2 ^ n + 1) + 2 ^ n then 2 else if j = 0 then 1 else 0, 2, 0⟩ := by
    rw [markKey_of_zero _ _ (by simp [ne3])]
  have hT3 : markKey (2 ^ n)
      (⟨fun j => if j = 2 ^ n * (2 ^ n + 1) + 2 ^ n then 2 else if j = 0 then 1 else 0, 2, 0⟩ :
        Pass1State) =
      ⟨fun j => if j = 2 ^ n then 3 else if j = 2 ^ n * (2 ^ n + 1) + 2 ^ n then 2
        else if j = 0 then 1 else 0, 3, 0⟩ := by
    rw [markKey_of_zero _ _ (by simp [ne9, ne1])]
  have hE1 : emitCount (2 ^ n + 1) (rootTriangle1 (2 ^ n)) ⟨fun _ => 0, 0, 0⟩ =
      ⟨fun j => if j = 2 ^ n then 3 else if j = 2 ^ n * (2 ^ n + 1) + 2 ^ n then 2
        else if j = 0 then 1 else 0, 3, 1⟩ := by
    unfold emitCount
    simp only [rootTriangle1, hkey00, hkeymm, hkeym0]
    rw [hT1, hT2, hT3]
  have hT4 : markKey (2 ^ n * (2 ^ n + 1) + 2 ^ n)
      (⟨fun j => if j = 2 ^ n then 3 else if j = 2 ^ n * (2 ^ n + 1) + 2 ^ n then 2
        else if j = 0 then 1 else 0, 3, 1⟩ : Pass1State) =
      ⟨fun j => if j = 2 ^ n then 3 else if j = 2 ^ n * (2 ^ n + 1) + 2 ^ n then 2
        else if j = 0 then 1 else 0, 3, 1⟩ := by
    rw [markKey_of_ne _ _ (by simp [ne10])]
  have hT5 : markKey 0
      (⟨fun j => if j = 2 ^ n then 3 else if j = 2 ^ n * (2 ^ n + 1) + 2 ^ n then 2
        else if j = 0 then 1 else 0, 3, 1⟩ : Pass1State) =
      ⟨fun j => if j = 2 ^ n then 3 else if j = 2 ^ n * (2 ^ n + 1) + 2 ^ n then 2
        else if j = 0 then 1 else 0, 3, 1⟩ := by
    rw [markKey_of_ne _ _ (by simp [ne2, ne4])]
  have hT6 : markKey (2 ^ n * (2 ^ n + 1))
      (⟨fun j => if j = 2 ^ n then 3 else if j = 2 ^ n * (2 ^ n + 1) + 2 ^ n then 2
        else if j = 0 then 1 else 0, 3, 1⟩ : Pass1State) =
      ⟨fun j => if j = 2 ^ n * (2 ^ n + 1) then 4 else if j = 2 ^ n then 3
        else if j = 2 ^ n * (2 ^ n + 1) + 2 ^ n then 2 else if j = 0 then 1 else 0, 4, 1⟩ := by
    rw [markKey_of_zero _ _ (by simp [ne8, ne12, ne5])]
  have hS1 : emitCount (2 ^ n + 1) (rootTriangle2 (2 ^ n))
      (⟨fun j => if j = 2 ^ n then 3 else if j = 2 ^ n * (2 ^ n + 1) + 2 ^ n then 2
        else if j = 0 then 1 else 0, 3, 1⟩ : Pass1State) =
      ⟨fun j => if j = 2 ^ n * (2 ^ n + 1) then 4 else if j = 2 ^ n then 3
        else if j = 2 ^ n * (2 ^ n + 1) + 2 ^ n then 2 else if j = 0 then 1 else 0, 4, 2⟩ := by
    unfold emitCount
    simp only [rootTriangle2, hkey00, hkeymm, hkey0m]
    rw [hT4, hT5, hT6]
  have hP1 : pass1Final (meshCfgOf errs (2 ^ n + 1) 0 none) (meshFuel (2 ^ n + 1)) (2 ^ n) =
      ⟨fun j => if j = 2 ^ n * (2 ^ n + 1) then 4 else if j = 2 ^ n then 3
        else if j = 2 ^ n * (2 ^ n + 1) + 2 ^ n then 2 else if j = 0 then 1 else 0, 4, 2⟩ := by
    unfold pass1Final
    rw [hfuel, countElements_leaf _ _ _ _ hss2, countElements_leaf _ _ _ _ hss1]
    show emitCount (2 ^ n + 1) (rootTriangle2 (2 ^ n))
      (emitCount (2 ^ n + 1) (rootTriangle1 (2 ^ n)) ⟨fun _ => 0, 0, 0⟩) = _
    rw [hE1, hS1]
  have hi1 : (fun j => if j = 2 ^ n * (2 ^ n + 1) then 4 else if j = 2 ^ n then 3
      else if j = 2 ^ n * (2 ^ n + 1) + 2 ^ n then 2 else if j = 0 then 1 else 0) 0 = 1 := by
    simp [ne6, ne2, ne4]
  have hi2 : (fun j => if j = 2 ^ n * (2 ^ n + 1) then 4 else if j = 2 ^ n then 3
      else if j = 2 ^ n * (2 ^ n + 1) + 2 ^ n then 2 else if j = 0 then 1 else 0)
      (2 ^ n * (2 ^ n + 1) + 2 ^ n) = 2 := by
    simp [ne12, ne10]
  have hi3 : (fun j => if j = 2 ^ n * (2 ^ n + 1) then 4 else if j = 2 ^ n then 3
      else if j = 2 ^ n * (2 ^ n + 1) + 2 ^ n then 2 else if j = 0 then 1 else 0) (2 ^ n) = 3 := by
    simp [ne7]
  have hi4 : (fun j => if j = 2 ^ n * (2 ^ n + 1) then 4 else if j = 2 ^ n then 3
      else if j = 2 ^ n * (2 ^ n + 1) + 2 ^ n then 2 else if j = 0 then 1 else 0)
      (2 ^ n * (2 ^ n + 1)) = 4 := by
    simp
  have hp2 : pass2Final (meshCfgOf errs (2 ^ n + 1) 0 none)
      (fun j => if j = 2 ^ n * (2 ^ n + 1) then 4 else if j = 2 ^ n then 3
        else if j = 2 ^ n * (2 ^ n + 1) + 2 ^ n then 2 else if j = 0 then 1 else 0) 4 2
      (meshFuel (2 ^ n + 1)) (2 ^ n) =
      emitFill (2 ^ n + 1)
        (fun j => if j = 2 ^ n * (2 ^ n + 1) then 4 else if j = 2 ^ n then 3
          else if j = 2 ^ n * (2 ^ n + 1) + 2 ^ n then 2 else if j = 0 then 1 else 0) 4 2
        (rootTriangle2 (2 ^ n))
        (emitFill (2 ^ n + 1)
          (fun j => if j = 2 ^ n * (2 ^ n + 1) then 4 else if j = 2 ^ n then 3
            else if j = 2 ^ n * (2 ^ n + 1) + 2 ^ n then 2 else if j = 0 then 1 else 0) 4 2
          (rootTriangle1 (2 ^ n)) ⟨fun _ => none, fun _ => none, 0⟩) := by
    unfold pass2Final
    rw [hfuel, processTriangle_leaf _ _ _ _ _ _ _ hss2, processTriangle_leaf _ _ _ _ _ _ _ hss1]
    rfl
  rw [getMesh_numTriangles, getMesh_numVertices, getMesh_vertices, Nat.add_sub_cancel,
    hP1]
  dsimp only
  rw [hp2]
  refine ⟨rfl, rfl, ?_, ?_, ?_, ?_, ?_, ?_, ?_, ?_, ?_⟩
  · rw [emitFill_vertices_eq, emitFill_vertices_eq]
    simp only [rootTriangle1, rootTriangle2, hkey00, hkeymm, hkeym0, hkey0m]
    norm_num [bufWrite, ne1, ne2, ne3, ne4, ne5, ne6, ne7, ne8, ne9, ne10, ne11, ne12]
  · rw [emitFill_vertices_eq, emitFill_vertices_eq]
    simp only [rootTriangle1, rootTriangle2, hkey00, hkeymm, hkeym0, hkey0m]
    norm_num [bufWrite, ne1, ne2, ne3, ne4, ne5, ne6, ne7, ne8, ne9, ne10, ne11, ne12]
  · rw [emitFill_vertices_eq, emitFill_vertices_eq]
    simp only [rootTriangle1, rootTriangle2, hkey00, hkeymm, hkeym0, hkey0m]
    norm_num [bufWrite, ne1, ne2, ne3, ne4, ne5, ne6, ne7, ne8, ne9, ne10, ne11, ne12]
  · rw [emitFill_vertices_eq, emitFill_vertices_eq]
    simp only [rootTriangle1, rootTriangle2, hkey00, hkeymm, hkeym0, hkey0m]
    norm_num [bufWrite, ne1, ne2, ne3, ne4, ne5, ne6, ne7, ne8, ne9, ne10, ne11, ne12]
  · rw [emitFill_vertices_eq, emitFill_vertices_eq]
    simp only [rootTriangle1, rootTriangle2, hkey00, hkeymm, hkeym0, hkey0m]
    norm_num [bufWrite, ne1, ne2, ne3, ne4, ne5, ne6, ne7, ne8, ne9, ne10, ne11, ne12]
  · rw [emitFill_vertices_eq, emitFill_vertices_eq]
    simp only [rootTriangle1, rootTriangle2, hkey00, hkeymm, hkeym0, hkey0m]
    norm_num [bufWrite, ne1, ne2, ne3, ne4, ne5, ne6, ne7, ne8, ne9, ne10, ne11, ne12]
  · rw [emitFill_vertices_eq, emitFill_vertices_eq]
    simp only [rootTriangle1, rootTriangle2, hkey00, hkeymm, hkeym0, hkey0m]
    norm_num [bufWrite, ne1, ne2, ne3, ne4, ne5, ne6, ne7, ne8, ne9, ne10, ne11, ne12]
  · rw [emitFill_vertices_eq, emitFill_vertices_eq]
    simp only [rootTriangle1, rootTriangle2, hkey00, hkeymm, hkeym0, hkey0m]
    norm_num [bufWrite, ne1, ne2, ne3, ne4, ne5, ne6, ne7, ne8, ne9, ne10, ne11, ne12]
  · intro k hk
    exact emitFill_vertices_none_high _ _ _ _ _ _ k (by omega)
      (emitFill_vertices_none_high _ _ _ _ _ _ k (by omega) rfl)

/-- C7: for a flat terrain every error field entry is zero and
getMesh(0) with no length constraint emits exactly 2 triangles over
exactly 4 vertices: the four tile corners (0,0), (T,T), (T,0), (0,T). -/
theorem C7_flat_mesh (n : ℕ) (h : ℚ) :
    (∀ k, tileErrors (List.replicate ((2 ^ n + 1) * (2 ^ n + 1)) h) (2 ^ n + 1) k = 0) ∧
      (tileGetMesh (List.replicate ((2 ^ n + 1) * (2 ^ n + 1)) h)
        (2 ^ n + 1) 0 none).numTriangles = 2 ∧
      (tileGetMesh (List.replicate ((2 ^ n + 1) * (2 ^ n + 1)) h)
        (2 ^ n + 1) 0 none).numVertices = 4 ∧
      (tileGetMesh (List.replicate ((2 ^ n + 1) * (2 ^ n + 1)) h)
        (2 ^ n + 1) 0 none).vertices 0 = some 0 ∧
      (tileGetMesh (List.replicate ((2 ^ n + 1) * (2 ^ n + 1)) h)
        (2 ^ n + 1) 0 none).vertices 1 = some 0 ∧
      (tileGetMesh (List.replicate ((2 ^ n + 1) * (2 ^ n + 1)) h)
        (2 ^ n + 1) 0 none).vertices 2 = some (2 ^ n) ∧
      (tileGetMesh (List.replicate ((2 ^ n + 1) * (2 ^ n + 1)) h)
        (2 ^ n + 1) 0 none).vertices 3 = some (2 ^ n) ∧
      (tileGetMesh (List.replicate ((2 ^ n + 1) * (2 ^ n + 1)) h)
        (2 ^ n + 1) 0 none).vertices 4 = some (2 ^ n) ∧
      (tileGetMesh (List.replicate ((2 ^ n + 1) * (2 ^ n + 1)) h)
        (2 ^ n + 1) 0 none).vertices 5 = some 0 ∧
      (tileGetMesh (List.replicate ((2 ^ n + 1) * (2 ^ n + 1)) h)
        (2 ^ n + 1) 0 none).vertices 6 = some 0 ∧
      (tileGetMesh (List.replicate ((2 ^ n + 1) * (2 ^ n + 1)) h)
        (2 ^ n + 1) 0 none).vertices 7 = some (2 ^ n) ∧
      (∀ k, 8 ≤ k → (tileGetMesh (List.replicate ((2 ^ n + 1) * (2 ^ n + 1)) h)
        (2 ^ n + 1) 0 none).vertices k = none) := by
  refine ⟨fun k => flat_errors_zero n h k, ?_⟩
  exact zero_errors_mesh n _ (fun k => flat_errors_zero n h k)

/-! ## Claim C3 (amended): a negative threshold forces full refinement -/

/-- Closed membership of a point in the right triangle with apex c and
hypotenuse from a to b, in halfplane form: both barycentric dot products
with the leg a - c and its quarter rotation are nonnegative and their
sum is at most the squared leg length. -/
def inTri (t : Triangle) (p : Point) : Prop :=
  0 ≤ ((p.1 : ℤ) - t.c.1) * ((t.a.1 : ℤ) - t.c.1) +
      ((p.2 : ℤ) - t.c.2) * ((t.a.2 : ℤ) - t.c.2) ∧
    0 ≤ ((p.1 : ℤ) - t.c.1) * ((t.a.2 : ℤ) - t.c.2) -
      ((p.2 : ℤ) - t.c.2) * ((t.a.1 : ℤ) - t.c.1) ∧
    ((p.1 : ℤ) - t.c.1) * ((t.a.1 : ℤ) - t.c.1) +
        ((p.2 : ℤ) - t.c.2) * ((t.a.2 : ℤ) - t.c.2) +
        (((p.1 : ℤ) - t.c.1) * ((t.a.2 : ℤ) - t.c.2) -
          ((p.2 : ℤ) - t.c.2) * ((t.a.1 : ℤ) - t.c.1)) ≤
      ((t.a.1 : ℤ) - t.c.1) ^ 2 + ((t.a.2 : ℤ) - t.c.2) ^ 2

/-- Every point of a split triangle lies in one of the two children
(the pure integer form, with the rotation and midpoint identities as
hypotheses). -/
lemma child_plane_split (a1 a2 b1 b2 c1 c2 m1 m2 p1 p2 : ℤ)
    (hr1 : b1 - c1 = a2 - c2) (hr2 : b2 - c2 = c1 - a1)
    (hm1 : 2 * m1 = a1 + b1) (hm2 : 2 * m2 = a2 + b2)
    (hx : 0 ≤ (p1 - c1) * (a1 - c1) + (p2 - c2) * (a2 - c2))
    (hy : 0 ≤ (p1 - c1) * (a2 - c2) - (p2 - c2) * (a1 - c1))
    (hxy : (p1 - c1) * (a1 - c1) + (p2 - c2) * (a2 - c2) +
        ((p1 - c1) * (a2 - c2) - (p2 - c2) * (a1 - c1)) ≤
      (a1 - c1) ^ 2 + (a2 - c2) ^ 2) :
    (0 ≤ (p1 - m1) * (c1 - m1) + (p2 - m2) * (c2 - m2) ∧
      0 ≤ (p1 - m1) * (c2 - m2) - (p2 - m2) * (c1 - m1) ∧
      (p1 - m1) * (c1 - m1) + (p2 - m2) * (c2 - m2) +
          ((p1 - m1) * (c2 - m2) - (p2 - m2) * (c1 - m1)) ≤
        (c1 - m1) ^ 2 + (c2 - m2) ^ 2) ∨
    (0 ≤ (p1 - m1) * (b1 - m1) + (p2 - m2) * (b2 - m2) ∧
      0 ≤ (p1 - m1) * (b2 - m2) - (p2 - m2) * (b1 - m1) ∧
      (p1 - m1) * (b1 - m1) + (p2 - m2) * (b2 - m2) +
          ((p1 - m1) * (b2 - m2) - (p2 - m2) * (b1 - m1)) ≤
        (b1 - m1) ^ 2 + (b2 - m2) ^ 2) := by
  have hc1x : 4 * ((p1 - m1) * (c1 - m1) + (p2 - m2) * (c2 - m2)) =
      2 * ((a1 - c1) ^ 2 + (a2 - c2) ^ 2) -
        2 * ((p1 - c1) * (a1 - c1) + (p2 - c2) * (a2 - c2)) -
        2 * ((p1 - c1) * (a2 - c2) - (p2 - c2) * (a1 - c1)) := by
    linear_combination (-2 * p1 + 2 * m1 - 2 * c1 + b1 + a1) * hm1 +
      (-2 * p2 + 2 * m2 - 2 * c2 + b2 + a2) * hm2 +
      (-2 * p1 - c2 - c1 + b1 + a2 + 2 * a1) * hr1 +
      (-2 * p2 - c2 + c1 + b2 + 2 * a2 - a1) * hr2
  have hc1y : 4 * ((p1 - m1) * (c2 - m2) - (p2 - m2) * (c1 - m1)) =
      2 * ((p1 - c1) * (a1 - c1) + (p2 - c2) * (a2 - c2)) -
        2 * ((p1 - c1) * (a2 - c2) - (p2 - c2) * (a1 - c1)) := by
    linear_combination (2 * p2 - 2 * c2) * hm1 + (-2 * p1 + 2 * c1) * hm2 +
      (2 * p2 - 2 * c2) * hr1 + (-2 * p1 + 2 * c1) * hr2
  have hc2x : 4 * ((p1 - m1) * (b1 - m1) + (p2 - m2) * (b2 - m2)) =
      2 * ((p1 - c1) * (a2 - c2) - (p2 - c2) * (a1 - c1)) -
        2 * ((p1 - c1) * (a1 - c1) + (p2 - c2) * (a2 - c2)) := by
    linear_combination (-2 * p1 + 2 * m1 - b1 + a1) * hm1 +
      (-2 * p2 + 2 * m2 - b2 + a2) * hm2 +
      (2 * p1 + c2 - c1 - b1 - a2) * hr1 + (2 * p2 - c2 - c1 - b2 + a1) * hr2
  have hc2y : 4 * ((p1 - m1) * (b2 - m2) - (p2 - m2) * (b1 - m1)) =
      2 * ((a1 - c1) ^ 2 + (a2 - c2) ^ 2) -
        2 * ((p1 - c1) * (a1 - c1) + (p2 - c2) * (a2 - c2)) -
        2 * ((p1 - c1) * (a2 - c2) - (p2 - c2) * (a1 - c1)) := by
    linear_combination (2 * p2 - 2 * b2) * hm1 + (-2 * p1 + 2 * b1) * hm2 +
      (-2 * p2 + 2 * a2) * hr1 + (2 * p1 - 2 * a1) * hr2
  have hl1 : 4 * ((c1 - m1) ^ 2 + (c2 - m2) ^ 2) =
      2 * ((a1 - c1) ^ 2 + (a2 - c2) ^ 2) := by
    linear_combination (2 * m1 - 4 * c1 + b1 + a1) * hm1 +
      (2 * m2 - 4 * c2 + b2 + a2) * hm2 +
      (-c2 - 3 * c1 + b1 + a2 + 2 * a1) * hr1 + (-3 * c2 + c1 + b2 + 2 * a2 - a1) * hr2
  have hl2 : 4 * ((b1 - m1) ^ 2 + (b2 - m2) ^ 2) =
      2 * ((a1 - c1) ^ 2 + (a2 - c2) ^ 2) := by
    linear_combination (2 * m1 - 3 * b1 + a1) * hm1 + (2 * m2 - 3 * b2 + a2) * hm2 +
      (-c2 + c1 + b1 + a2 - 2 * a1) * hr1 + (c2 + c1 + b2 - 2 * a2 - a1) * hr2
  rcases le_total ((p1 - c1) * (a2 - c2) - (p2 - c2) * (a1 - c1))
      ((p1 - c1) * (a1 - c1) + (p2 - c2) * (a2 - c2)) with hcase | hcase
  · left
    refine ⟨by linarith, by linarith, by linarith⟩
  · right
    refine ⟨by linarith, by linarith, by linarith⟩

/-- The split step covers the parent: every parent point lies in one of
the two children produced by the source split. -/
lemma inTri_split (n lvl : ℕ) (t : Triangle) (h : TriInv n lvl t) (hlvl : lvl ≤ 2 * n)
    (p : Point) (hp : inTri t p) :
    inTri (childTris t).1 p ∨ inTri (childTris t).2 p := by
  obtain ⟨hm1, hm2⟩ := triInv_mid_exact n lvl t h hlvl
  exact child_plane_split (t.a.1 : ℤ) (t.a.2 : ℤ) (t.b.1 : ℤ) (t.b.2 : ℤ)
    (t.c.1 : ℤ) (t.c.2 : ℤ) ((mid t.a t.b).1 : ℤ) ((mid t.a t.b).2 : ℤ)
    (p.1 : ℤ) (p.2 : ℤ) h.rot1 h.rot2 hm1 hm2 hp.1 hp.2.1 hp.2.2

/-- A unit leaf contains exactly its three corners. -/
lemma inTri_unit (n : ℕ) (t : Triangle) (h : TriInv n (2 * n + 1) t) (p : Point)
    (hp : inTri t p) : p = t.a ∨ p = t.b ∨ p = t.c := by
  have hlen : ((t.a.1 : ℤ) - t.c.1) ^ 2 + ((t.a.2 : ℤ) - t.c.2) ^ 2 = 1 := by
    have hl := h.len
    have he : 2 * n + 1 - (2 * n + 1) = 0 := by omega
    rw [he] at hl
    simpa using hl
  obtain ⟨hx, hy, hxy⟩ := hp
  rw [hlen] at hxy
  have hw1 : (p.1 : ℤ) - t.c.1 =
      ((t.a.1 : ℤ) - t.c.1) * (((p.1 : ℤ) - t.c.1) * ((t.a.1 : ℤ) - t.c.1) +
          ((p.2 : ℤ) - t.c.2) * ((t.a.2 : ℤ) - t.c.2)) +
        ((t.a.2 : ℤ) - t.c.2) * (((p.1 : ℤ) - t.c.1) * ((t.a.2 : ℤ) - t.c.2) -
          ((p.2 : ℤ) - t.c.2) * ((t.a.1 : ℤ) - t.c.1)) := by
    linear_combination ((t.c.1 : ℤ) - p.1) * hlen
  have hw2 : (p.2 : ℤ) - t.c.2 =
      ((t.a.2 : ℤ) - t.c.2) * (((p.1 : ℤ) - t.c.1) * ((t.a.1 : ℤ) - t.c.1) +
          ((p.2 : ℤ) - t.c.2) * ((t.a.2 : ℤ) - t.c.2)) -
        ((t.a.1 : ℤ) - t.c.1) * (((p.1 : ℤ) - t.c.1) * ((t.a.2 : ℤ) - t.c.2) -
          ((p.2 : ℤ) - t.c.2) * ((t.a.1 : ℤ) - t.c.1)) := by
    linear_combination ((t.c.2 : ℤ) - p.2) * hlen
  obtain ⟨X, hX⟩ : ∃ X, ((p.1 : ℤ) - t.c.1) * ((t.a.1 : ℤ) - t.c.1) +
      ((p.2 : ℤ) - t.c.2) * ((t.a.2 : ℤ) - t.c.2) = X := ⟨_, rfl⟩
  obtain ⟨Y, hY⟩ : ∃ Y, ((p.1 : ℤ) - t.c.1) * ((t.a.2 : ℤ) - t.c.2) -
      ((p.2 : ℤ) - t.c.2) * ((t.a.1 : ℤ) - t.c.1) = Y := ⟨_, rfl⟩
  rw [hX] at hx hxy
  rw [hY] at hy hxy
  rw [hX, hY] at hw1 hw2
  have hr1 := h.rot1
  have hr2 := h.rot2
  have hcases : (X = 0 ∧ Y = 0) ∨ (X = 1 ∧ Y = 0) ∨ (X = 0 ∧ Y = 1) := by omega
  rcases hcases with ⟨hX0, hY0⟩ | ⟨hX0, hY0⟩ | ⟨hX0, hY0⟩
  · right; right
    rw [hX0, hY0] at hw1 hw2
    have e1 : p.1 = t.c.1 := by exact_mod_cast (by linarith : (p.1 : ℤ) = (t.c.1 : ℤ))
    have e2 : p.2 = t.c.2 := by exact_mod_cast (by linarith : (p.2 : ℤ) = (t.c.2 : ℤ))
    exact Prod.ext_iff.mpr ⟨e1, e2⟩
  · left
    rw [hX0, hY0] at hw1 hw2
    have e1 : p.1 = t.a.1 := by exact_mod_cast (by linarith : (p.1 : ℤ) = (t.a.1 : ℤ))
    have e2 : p.2 = t.a.2 := by exact_mod_cast (by linarith : (p.2 : ℤ) = (t.a.2 : ℤ))
    exact Prod.ext_iff.mpr ⟨e1, e2⟩
  · right; left
    rw [hX0, hY0] at hw1 hw2
    have e1 : p.1 = t.b.1 := by exact_mod_cast (by linarith : (p.1 : ℤ) = (t.b.1 : ℤ))
    have e2 : p.2 = t.b.2 := by exact_mod_cast (by linarith : (p.2 : ℤ) = (t.b.2 : ℤ))
    exact Prod.ext_iff.mpr ⟨e1, e2⟩

/-- With a negative threshold and a nonnegative error field, every
non-unit triangle splits. -/
lemma shouldSplit_internal (n lvl : ℕ) (errs : ℕ → ℚ) (maxError : ℚ)
    (hneg : maxError < 0) (hnn : ∀ k, 0 ≤ errs k) (t : Triangle)
    (h : TriInv n lvl t) (hlvl : lvl ≤ 2 * n) :
    shouldSplit (meshCfgOf errs (2 ^ n + 1) maxError none) t = true := by
  have hleg : 1 < legLength t := (triInv_legLength n lvl t h).1.mpr hlvl
  have herr : maxError < errs (key (2 ^ n + 1) (mid t.a t.b)) :=
    lt_of_lt_of_le hneg (hnn _)
  simp only [shouldSplit, meshCfgOf]
  rw [decide_eq_true hleg, decide_eq_true herr]
  simp

/-- Unit triangles never split when no length constraint is given. -/
lemma shouldSplit_unit (n : ℕ) (errs : ℕ → ℚ) (maxError : ℚ) (t : Triangle)
    (h : TriInv n (2 * n + 1) t) :
    shouldSplit (meshCfgOf errs (2 ^ n + 1) maxError none) t = false := by
  obtain ⟨hiff, hub⟩ := triInv_legLength n (2 * n + 1) t h
  have h1 : ¬ (1 < legLength t) := by
    rw [hiff]
    omega
  have h2 : ¬ (maxScaleOf (2 ^ n + 1) none < ((legLength t : ℕ) : ℚ)) := by
    unfold maxScaleOf
    have hc : ((legLength t : ℕ) : ℚ) ≤ ((2 ^ n : ℕ) : ℚ) := by exact_mod_cast hub
    push_cast at hc ⊢
    linarith
  simp only [shouldSplit, meshCfgOf]
  rw [decide_eq_false h1, decide_eq_false h2]
  simp

lemma leavesF_split_eq (cfg : MeshCfg) (fuel : ℕ) (t : Triangle)
    (h : shouldSplit cfg t = true) :
    leavesF cfg (fuel + 1) t =
      leavesF cfg fuel (childTris t).1 ++ leavesF cfg fuel (childTris t).2 := by
  have he : leavesF cfg (fuel + 1) t =
      if shouldSplit cfg t then
        leavesF cfg fuel (childTris t).1 ++ leavesF cfg fuel (childTris t).2
      else [t] := rfl
  rw [he, h]
  simp

lemma leavesF_leaf_eq (cfg : MeshCfg) (fuel : ℕ) (t : Triangle)
    (h : shouldSplit cfg t = false) :
    leavesF cfg (fuel + 1) t = [t] := by
  have he : leavesF cfg (fuel + 1) t =
      if shouldSplit cfg t then
        leavesF cfg fuel (childTris t).1 ++ leavesF cfg fuel (childTris t).2
      else [t] := rfl
  rw [he, h]
  simp

/-- With a negative threshold the recursion fully refines: an invariant
triangle at level lvl produces exactly 2 ^ (2n + 1 - lvl) leaves, and
every point of the triangle is a corner of one of them. -/
lemma full_leaves (n : ℕ) (errs : ℕ → ℚ) (maxError : ℚ) (hneg : maxError < 0)
    (hnn : ∀ k, 0 ≤ errs k) :
    ∀ (fuel lvl : ℕ) (t : Triangle), TriInv n lvl t → 2 * n + 2 - lvl ≤ fuel →
      (leavesF (meshCfgOf errs (2 ^ n + 1) maxError none) fuel t).length =
          2 ^ (2 * n + 1 - lvl) ∧
        ∀ p : Point, inTri t p →
          ∃ u ∈ leavesF (meshCfgOf errs (2 ^ n + 1) maxError none) fuel t,
            p = u.a ∨ p = u.b ∨ p = u.c := by
  intro fuel
  induction fuel with
  | zero =>
    intro lvl t h hf
    have hub := h.lvl_ub
    exact absurd hf (by omega)
  | succ f ih =>
    intro lvl t h hf
    by_cases hlvl : lvl ≤ 2 * n
    · have hsp := shouldSplit_internal n lvl errs maxError hneg hnn t h hlvl
      have hch := triInv_step n lvl t h hlvl
      rw [leavesF_split_eq _ _ _ hsp]
      obtain ⟨ihl1, ihm1⟩ := ih (lvl + 1) (childTris t).1 hch.1 (by omega)
      obtain ⟨ihl2, ihm2⟩ := ih (lvl + 1) (childTris t).2 hch.2 (by omega)
      constructor
      · rw [List.length_append, ihl1, ihl2]
        have he : 2 * n + 1 - (lvl + 1) = 2 * n - lvl := by omega
        have he2 : 2 * n + 1 - lvl = (2 * n - lvl) + 1 := by omega
        rw [he, he2, pow_succ, Nat.mul_two]
      · intro p hp
        rcases inTri_split n lvl t h hlvl p hp with hc | hc
        · obtain ⟨u, hu, hcor⟩ := ihm1 p hc
          exact ⟨u, List.mem_append.mpr (Or.inl hu), hcor⟩
        · obtain ⟨u, hu, hcor⟩ := ihm2 p hc
          exact ⟨u, List.mem_append.mpr (Or.inr hu), hcor⟩
    · have hub := h.lvl_ub
      have hlvl1 : lvl = 2 * n + 1 := by omega
      subst hlvl1
      have hsp := shouldSplit_unit n errs maxError t h
      rw [leavesF_leaf_eq _ _ _ hsp]
      constructor
      · have he : 2 * n + 1 - (2 * n + 1) = 0 := by omega
        rw [he]
        rfl
      · intro p hp
        exact ⟨t, List.mem_singleton_self t, inTri_unit n t h p hp⟩

/-- The two root triangles together cover the whole grid. -/
lemma root_coverage (n : ℕ) (p : Point) (h1 : p.1 ≤ 2 ^ n) (h2 : p.2 ≤ 2 ^ n) :
    inTri (rootTriangle1 (2 ^ n)) p ∨ inTri (rootTriangle2 (2 ^ n)) p := by
  have hp1 : (p.1 : ℤ) ≤ 2 ^ n := by exact_mod_cast h1
  have hp2 : (p.2 : ℤ) ≤ 2 ^ n := by exact_mod_cast h2
  have hp1n : (0 : ℤ) ≤ (p.1 : ℤ) := Int.natCast_nonneg _
  have hp2n : (0 : ℤ) ≤ (p.2 : ℤ) := Int.natCast_nonneg _
  have hT0 : (0 : ℤ) ≤ 2 ^ n := by positivity
  rcases le_total p.2 p.1 with hc | hc
  · left
    have hc' : (p.2 : ℤ) ≤ (p.1 : ℤ) := by exact_mod_cast hc
    refine ⟨?_, ?_, ?_⟩
    · simp only [inTri, rootTriangle1]
      push_cast
      nlinarith [mul_nonneg hT0 (by linarith : (0 : ℤ) ≤ 2 ^ n - (p.1 : ℤ))]
    · simp only [inTri, rootTriangle1]
      push_cast
      nlinarith [mul_nonneg hp2n hT0]
    · simp only [inTri, rootTriangle1]
      push_cast
      nlinarith [mul_nonneg hT0 (by linarith : (0 : ℤ) ≤ (p.1 : ℤ) - (p.2 : ℤ))]
  · right
    have hc' : (p.1 : ℤ) ≤ (p.2 : ℤ) := by exact_mod_cast hc
    refine ⟨?_, ?_, ?_⟩
    · simp only [inTri, rootTriangle2]
      push_cast
      nlinarith [mul_nonneg hp1n hT0]
    · simp only [inTri, rootTriangle2]
      push_cast
      nlinarith [mul_nonneg hT0 (by linarith : (0 : ℤ) ≤ 2 ^ n - (p.2 : ℤ))]
    · simp only [inTri, rootTriangle2]
      push_cast
      nlinarith [mul_nonneg hT0 (by linarith : (0 : ℤ) ≤ (p.2 : ℤ) - (p.1 : ℤ))]

lemma fuel_root_ok (n : ℕ) : 2 * n + 2 - 1 ≤ meshFuel (2 ^ n + 1) := by
  obtain ⟨P, hP⟩ : ∃ P, 2 ^ n = P := ⟨_, rfl⟩
  have hnP : n < P := by
    rw [← hP]
    exact Nat.lt_two_pow n
  unfold meshFuel
  rw [hP]
  omega

/-- Under full refinement the touched key set is the full grid range. -/
lemma keys_full (n : ℕ) (errs : ℕ → ℚ) (maxError : ℚ) (hneg : maxError < 0)
    (hnn : ∀ k, 0 ≤ errs k) :
    (keysOf (2 ^ n + 1) (rootLeaves (meshCfgOf errs (2 ^ n + 1) maxError none)
        (meshFuel (2 ^ n + 1)) (2 ^ n))).toFinset =
      Finset.range ((2 ^ n + 1) * (2 ^ n + 1)) := by
  have hT : 2 ^ n + 1 - 1 = 2 ^ n := Nat.add_sub_cancel (2 ^ n) 1
  have hfull1 := full_leaves n errs maxError hneg hnn (meshFuel (2 ^ n + 1)) 1
    (rootTriangle1 (2 ^ n)) (rootOdd_inv n) (fuel_root_ok n)
  have hfull2 := full_leaves n errs maxError hneg hnn (meshFuel (2 ^ n + 1)) 1
    (rootTriangle2 (2 ^ n)) (rootEven_inv n) (fuel_root_ok n)
  ext k
  simp only [List.mem_toFinset, Finset.mem_range]
  constructor
  · intro hk
    obtain ⟨u, hu, hcor⟩ := (mem_keysOf _ _ _).mp hk
    have hub : triBounded (2 ^ n) u := by
      rcases List.mem_append.mp hu with hm | hm
      · exact leavesF_bounded _ _ _ _ (rootTriangle1_bounded _) u hm
      · exact leavesF_bounded _ _ _ _ (rootTriangle2_bounded _) u hm
    obtain ⟨b1, b2, b3, b4, b5, b6⟩ := hub
    have hs : 1 ≤ 2 ^ n + 1 := Nat.le_add_left 1 (2 ^ n)
    rcases hcor with rfl | rfl | rfl
    · exact key_lt_of_bounded _ _ hs (by rw [hT]; exact b1) (by rw [hT]; exact b2)
    · exact key_lt_of_bounded _ _ hs (by rw [hT]; exact b3) (by rw [hT]; exact b4)
    · exact key_lt_of_bounded _ _ hs (by rw [hT]; exact b5) (by rw [hT]; exact b6)
  · intro hk
    have hg : 0 < 2 ^ n + 1 := by positivity
    have hmod : k % (2 ^ n + 1) ≤ 2 ^ n := Nat.lt_succ_iff.mp (Nat.mod_lt k hg)
    have hdiv : k / (2 ^ n + 1) ≤ 2 ^ n :=
      Nat.lt_succ_iff.mp ((Nat.div_lt_iff_lt_mul hg).mpr hk)
    have hkey : key (2 ^ n + 1) ((k % (2 ^ n + 1), k / (2 ^ n + 1)) : Point) = k := by
      unfold key
      rw [Nat.mul_comm]
      exact Nat.div_add_mod k (2 ^ n + 1)
    rcases root_coverage n ((k % (2 ^ n + 1), k / (2 ^ n + 1)) : Point) hmod hdiv with
      hcov | hcov
    · obtain ⟨u, hu, hcor⟩ := hfull1.2 _ hcov
      refine (mem_keysOf _ _ _).mpr ⟨u, List.mem_append.mpr (Or.inl hu), ?_⟩
      rcases hcor with hcc | hcc | hcc
      · left
        rw [← hkey, hcc]
      · right; left
        rw [← hkey, hcc]
      · right; right
        rw [← hkey, hcc]
    · obtain ⟨u, hu, hcor⟩ := hfull2.2 _ hcov
      refine (mem_keysOf _ _ _).mpr ⟨u, List.mem_append.mpr (Or.inr hu), ?_⟩
      rcases hcor with hcc | hcc | hcc
      · left
        rw [← hkey, hcc]
      · right; left
        rw [← hkey, hcc]
      · right; right
        rw [← hkey, hcc]

/-- C3 (amended): for a validly constructed tile and any negative
threshold, getMesh with no length constraint emits the full refinement:
exactly 2 * T ^ 2 triangles and (T + 1) ^ 2 vertices.  (The original
claim also asserted this for max_error = 0 with non-flat terrain, which
C3_counterexample refutes.) -/
theorem C3_full_refinement (n gridSize : ℕ) (terrain : List ℚ) (maxError : ℚ)
    (hv : ValidTile n gridSize terrain) (hneg : maxError < 0) :
    (tileGetMesh terrain gridSize maxError none).numTriangles =
        2 * ((gridSize - 1) * (gridSize - 1)) ∧
      (tileGetMesh terrain gridSize maxError none).numVertices = gridSize * gridSize := by
  obtain ⟨hg, hlen⟩ := hv
  subst hg
  have hT : 2 ^ n + 1 - 1 = 2 ^ n := Nat.add_sub_cancel (2 ^ n) 1
  rw [hT]
  have hnn : ∀ k, 0 ≤ tileErrors terrain (2 ^ n + 1) k := by
    intro k
    unfold tileErrors computeErrors
    exact foldl_errorsStep_nonneg _ _ _ _ (fun _ => le_refl 0) k
  have hfull1 := full_leaves n (tileErrors terrain (2 ^ n + 1)) maxError hneg hnn
    (meshFuel (2 ^ n + 1)) 1 (rootTriangle1 (2 ^ n)) (rootOdd_inv n) (fuel_root_ok n)
  have hfull2 := full_leaves n (tileErrors terrain (2 ^ n + 1)) maxError hneg hnn
    (meshFuel (2 ^ n + 1)) 1 (rootTriangle2 (2 ^ n)) (rootEven_inv n) (fuel_root_ok n)
  have hlen1 : (rootLeaves (meshCfgOf (tileErrors terrain (2 ^ n + 1)) (2 ^ n + 1)
      maxError none) (meshFuel (2 ^ n + 1)) (2 ^ n)).length = 2 * (2 ^ n * 2 ^ n) := by
    unfold rootLeaves
    rw [List.length_append, hfull1.1, hfull2.1]
    have he : 2 * n + 1 - 1 = 2 * n := by omega
    rw [he, show 2 * n = n + n from by omega, pow_add]
    obtain ⟨X, hX⟩ : ∃ X, 2 ^ n * 2 ^ n = X := ⟨_, rfl⟩
    rw [hX]
    omega
  have hp1 : pass1Final (meshCfgOf (tileErrors terrain (2 ^ n + 1)) (2 ^ n + 1) maxError none)
      (meshFuel (2 ^ n + 1)) (2 ^ n) =
      { markKeys (keysOf (2 ^ n + 1)
          (rootLeaves (meshCfgOf (tileErrors terrain (2 ^ n + 1)) (2 ^ n + 1) maxError none)
            (meshFuel (2 ^ n + 1)) (2 ^ n))) ⟨fun _ => 0, 0, 0⟩ with
        numTriangles := 0 + (rootLeaves (meshCfgOf (tileErrors terrain (2 ^ n + 1))
          (2 ^ n + 1) maxError none) (meshFuel (2 ^ n + 1)) (2 ^ n)).length } := by
    rw [pass1Final_eq_foldl, foldl_emitCount_eq]
    rfl
  refine ⟨?_, ?_⟩
  · show (getMesh (tileErrors terrain (2 ^ n + 1)) (2 ^ n + 1) maxError none).numTriangles = _
    rw [getMesh_numTriangles, hT, hp1]
    dsimp only
    rw [hlen1, Nat.zero_add]
  · show (getMesh (tileErrors terrain (2 ^ n + 1)) (2 ^ n + 1) maxError none).numVertices = _
    rw [getMesh_numVertices, hT, hp1]
    dsimp only
    have hinv := markKeys_inv (keysOf (2 ^ n + 1)
      (rootLeaves (meshCfgOf (tileErrors terrain (2 ^ n + 1)) (2 ^ n + 1) maxError none)
        (meshFuel (2 ^ n + 1)) (2 ^ n))) ⟨fun _ => 0, 0, 0⟩ ∅ P1Inv_zero
    have hK : ((∅ ∪ (keysOf (2 ^ n + 1)
        (rootLeaves (meshCfgOf (tileErrors terrain (2 ^ n + 1)) (2 ^ n + 1) maxError none)
          (meshFuel (2 ^ n + 1)) (2 ^ n))).toFinset) : Finset ℕ) =
        Finset.range ((2 ^ n + 1) * (2 ^ n + 1)) := by
      rw [Finset.empty_union]
      exact keys_full n (tileErrors terrain (2 ^ n + 1)) maxError hneg hnn
    rw [hK] at hinv
    rw [hinv.card, Finset.card_range]

/-- Witness for the amended C3 at the smallest valid grid. -/
theorem C3_full_refinement_witness :
    ValidTile 1 3 [(0 : ℚ), 0, 0, 0, 0, 0, 0, 0, 0] ∧ ((-1 : ℚ) < 0) ∧
      ((tileGetMesh [(0 : ℚ), 0, 0, 0, 0, 0, 0, 0, 0] 3 (-1) none).numTriangles =
          2 * ((3 - 1) * (3 - 1)) ∧
        (tileGetMesh [(0 : ℚ), 0, 0, 0, 0, 0, 0, 0, 0] 3 (-1) none).numVertices = 3 * 3) :=
  ⟨⟨by norm_num, by norm_num⟩, by norm_num,
    C3_full_refinement 1 3 _ (-1) ⟨by norm_num, by norm_num⟩ (by norm_num)⟩

/-! ## Claim C6: monotonicity of the mesh in the error threshold -/

/-- A lower threshold splits whenever a higher one does. -/
lemma shouldSplit_mono (errs : ℕ → ℚ) (size : ℕ) (e1 e2 : ℚ) (h12 : e1 ≤ e2)
    (maxLength : Option ℚ) (t : Triangle)
    (h : shouldSplit (meshCfgOf errs size e2 maxLength) t = true) :
    shouldSplit (meshCfgOf errs size e1 maxLength) t = true := by
  simp only [shouldSplit, meshCfgOf, Bool.or_eq_true, Bool.and_eq_true,
    decide_eq_true_eq] at h ⊢
  rcases h with ⟨h1, h2⟩ | h3
  · exact Or.inl ⟨h1, lt_of_le_of_lt h12 h2⟩
  · exact Or.inr h3

lemma split_implies_internal (n lvl : ℕ) (errs : ℕ → ℚ) (maxError : ℚ) (t : Triangle)
    (h : TriInv n lvl t)
    (hsp : shouldSplit (meshCfgOf errs (2 ^ n + 1) maxError none) t = true) :
    lvl ≤ 2 * n := by
  by_contra hcon
  have hub := h.lvl_ub
  have hlu : lvl = 2 * n + 1 := by omega
  subst hlu
  rw [shouldSplit_unit n errs maxError t h] at hsp
  exact absurd hsp (by simp)

/-- With the grid invariant and enough fuel the recursion always emits
at least one leaf. -/
lemma leaves_pos (n : ℕ) (errs : ℕ → ℚ) (maxError : ℚ) :
    ∀ (fuel lvl : ℕ) (t : Triangle), TriInv n lvl t → 2 * n + 2 - lvl ≤ fuel →
      1 ≤ (leavesF (meshCfgOf errs (2 ^ n + 1) maxError none) fuel t).length := by
  intro fuel
  induction fuel with
  | zero =>
    intro lvl t h hf
    have hub := h.lvl_ub
    exact absurd hf (by omega)
  | succ f ih =>
    intro lvl t h hf
    by_cases hsp : shouldSplit (meshCfgOf errs (2 ^ n + 1) maxError none) t = true
    · have hlvl := split_implies_internal n lvl errs maxError t h hsp
      have hch := triInv_step n lvl t h hlvl
      rw [leavesF_split_eq _ _ _ hsp, List.length_append]
      have h1 := ih (lvl + 1) (childTris t).1 hch.1 (by omega)
      omega
    · rw [leavesF_leaf_eq _ _ _ (Bool.eq_false_iff.mpr hsp)]
      simp

/-- Lowering the threshold never decreases the number of emitted
leaves. -/
lemma leaves_length_mono (n : ℕ) (errs : ℕ → ℚ) (e1 e2 : ℚ) (h12 : e1 ≤ e2) :
    ∀ (fuel lvl : ℕ) (t : Triangle), TriInv n lvl t → 2 * n + 2 - lvl ≤ fuel →
      (leavesF (meshCfgOf errs (2 ^ n + 1) e2 none) fuel t).length ≤
        (leavesF (meshCfgOf errs (2 ^ n + 1) e1 none) fuel t).length := by
  intro fuel
  induction fuel with
  | zero =>
    intro lvl t h hf
    have hub := h.lvl_ub
    exact absurd hf (by omega)
  | succ f ih =>
    intro lvl t h hf
    by_cases hs2 : shouldSplit (meshCfgOf errs (2 ^ n + 1) e2 none) t = true
    · have hs1 := shouldSplit_mono errs (2 ^ n + 1) e1 e2 h12 none t hs2
      have hlvl := split_implies_internal n lvl errs e2 t h hs2
      have hch := triInv_step n lvl t h hlvl
      rw [leavesF_split_eq _ _ _ hs1, leavesF_split_eq _ _ _ hs2,
        List.length_append, List.length_append]
      have m1 := ih (lvl + 1) (childTris t).1 hch.1 (by omega)
      have m2 := ih (lvl + 1) (childTris t).2 hch.2 (by omega)
      omega
    · rw [leavesF_leaf_eq _ _ _ (Bool.eq_false_iff.mpr hs2)]
      simpa using leaves_pos n errs e1 (f + 1) lvl t h hf

/-- Every corner of a triangle survives as a corner of one of the
leaves of its subtree. -/
lemma corner_mem_leaves (n : ℕ) (errs : ℕ → ℚ) (maxError : ℚ) :
    ∀ (fuel lvl : ℕ) (t : Triangle), TriInv n lvl t → 2 * n + 2 - lvl ≤ fuel →
      ∀ v : Point, (v = t.a ∨ v = t.b ∨ v = t.c) →
        ∃ u ∈ leavesF (meshCfgOf errs (2 ^ n + 1) maxError none) fuel t,
          v = u.a ∨ v = u.b ∨ v = u.c := by
  intro fuel
  induction fuel with
  | zero =>
    intro lvl t h hf
    have hub := h.lvl_ub
    exact absurd hf (by omega)
  | succ f ih =>
    intro lvl t h hf v hv
    by_cases hsp : shouldSplit (meshCfgOf errs (2 ^ n + 1) maxError none) t = true
    · have hlvl := split_implies_internal n lvl errs maxError t h hsp
      have hch := triInv_step n lvl t h hlvl
      rw [leavesF_split_eq _ _ _ hsp]
      rcases hv with rfl | rfl | rfl
      · obtain ⟨u, hu, hc⟩ := ih (lvl + 1) (childTris t).1 hch.1 (by omega) t.a
          (Or.inr (Or.inl rfl))
        exact ⟨u, List.mem_append.mpr (Or.inl hu), hc⟩
      · obtain ⟨u, hu, hc⟩ := ih (lvl + 1) (childTris t).2 hch.2 (by omega) t.b
          (Or.inl rfl)
        exact ⟨u, List.mem_append.mpr (Or.inr hu), hc⟩
      · obtain ⟨u, hu, hc⟩ := ih (lvl + 1) (childTris t).1 hch.1 (by omega) t.c
          (Or.inl rfl)
        exact ⟨u, List.mem_append.mpr (Or.inl hu), hc⟩
    · rw [leavesF_leaf_eq _ _ _ (Bool.eq_false_iff.mpr hsp)]
      exact ⟨t, List.mem_singleton_self t, hv⟩

/-- Refinement: every corner of a coarse leaf is a corner of a fine
leaf of the same subtree. -/
lemma leaves_refine (n : ℕ) (errs : ℕ → ℚ) (e1 e2 : ℚ) (h12 : e1 ≤ e2) :
    ∀ (fuel lvl : ℕ) (t : Triangle), TriInv n lvl t → 2 * n + 2 - lvl ≤ fuel →
      ∀ u ∈ leavesF (meshCfgOf errs (2 ^ n + 1) e2 none) fuel t,
        ∀ v : Point, (v = u.a ∨ v = u.b ∨ v = u.c) →
          ∃ w ∈ leavesF (meshCfgOf errs (2 ^ n + 1) e1 none) fuel t,
            v = w.a ∨ v = w.b ∨ v = w.c := by
  intro fuel
  induction fuel with
  | zero =>
    intro lvl t h hf
    have hub := h.lvl_ub
    exact absurd hf (by omega)
  | succ f ih =>
    intro lvl t h hf u hu v hv
    by_cases hs2 : shouldSplit (meshCfgOf errs (2 ^ n + 1) e2 none) t = true
    · have hs1 := shouldSplit_mono errs (2 ^ n + 1) e1 e2 h12 none t hs2
      have hlvl := split_implies_internal n lvl errs e2 t h hs2
      have hch := triInv_step n lvl t h hlvl
      rw [leavesF_split_eq _ _ _ hs2] at hu
      rw [leavesF_split_eq _ _ _ hs1]
      rcases List.mem_append.mp hu with hm | hm
      · obtain ⟨w, hw, hc⟩ := ih (lvl + 1) (childTris t).1 hch.1 (by omega) u hm v hv
        exact ⟨w, List.mem_append.mpr (Or.inl hw), hc⟩
      · obtain ⟨w, hw, hc⟩ := ih (lvl + 1) (childTris t).2 hch.2 (by omega) u hm v hv
        exact ⟨w, List.mem_append.mpr (Or.inr hw), hc⟩
    · rw [leavesF_leaf_eq _ _ _ (Bool.eq_false_iff.mpr hs2)] at hu
      have hut := List.mem_singleton.mp hu
      subst hut
      exact corner_mem_leaves n errs e1 (f + 1) lvl u h hf v hv

lemma getMesh_numTriangles_eq_len (errs : ℕ → ℚ) (size : ℕ) (maxError : ℚ)
    (maxLength : Option ℚ) :
    (getMesh errs size maxError maxLength).numTriangles =
      (rootLeaves (meshCfgOf errs size maxError maxLength) (meshFuel size)
        (size - 1)).length := by
  rw [getMesh_numTriangles, pass1Final_eq_foldl, foldl_emitCount_eq]
  dsimp only
  rw [Nat.zero_add]

/-- C6: lowering the error threshold (with no length constraint) never
decreases the triangle count, and every grid vertex used by the coarser
mesh (a corner of one of its emitted triangles) is also used by the
finer mesh. -/
theorem C6_error_monotonicity (n gridSize : ℕ) (terrain : List ℚ) (e1 e2 : ℚ)
    (hv : ValidTile n gridSize terrain) (h12 : e1 ≤ e2) :
    (tileGetMesh terrain gridSize e2 none).numTriangles ≤
        (tileGetMesh terrain gridSize e1 none).numTriangles ∧
      ∀ p : Point,
        (∃ u ∈ meshLeaves (tileErrors terrain gridSize) gridSize e2 none,
          p = u.a ∨ p = u.b ∨ p = u.c) →
        ∃ w ∈ meshLeaves (tileErrors terrain gridSize) gridSize e1 none,
          p = w.a ∨ p = w.b ∨ p = w.c := by
  obtain ⟨hg, hlen⟩ := hv
  subst hg
  have hT : 2 ^ n + 1 - 1 = 2 ^ n := Nat.add_sub_cancel (2 ^ n) 1
  constructor
  · show (getMesh (tileErrors terrain (2 ^ n + 1)) (2 ^ n + 1) e2 none).numTriangles ≤
      (getMesh (tileErrors terrain (2 ^ n + 1)) (2 ^ n + 1) e1 none).numTriangles
    rw [getMesh_numTriangles_eq_len, getMesh_numTriangles_eq_len, hT]
    unfold rootLeaves
    rw [List.length_append, List.length_append]
    have m1 := leaves_length_mono n (tileErrors terrain (2 ^ n + 1)) e1 e2 h12
      (meshFuel (2 ^ n + 1)) 1 (rootTriangle1 (2 ^ n)) (rootOdd_inv n) (fuel_root_ok n)
    have m2 := leaves_length_mono n (tileErrors terrain (2 ^ n + 1)) e1 e2 h12
      (meshFuel (2 ^ n + 1)) 1 (rootTriangle2 (2 ^ n)) (rootEven_inv n) (fuel_root_ok n)
    omega
  · intro p hp
    obtain ⟨u, hu, hcor⟩ := hp
    unfold meshLeaves at hu ⊢
    rw [hT] at hu ⊢
    unfold rootLeaves at hu ⊢
    rcases List.mem_append.mp hu with hm | hm
    · obtain ⟨w, hw, hc⟩ := leaves_refine n (tileErrors terrain (2 ^ n + 1)) e1 e2 h12
        (meshFuel (2 ^ n + 1)) 1 (rootTriangle1 (2 ^ n)) (rootOdd_inv n) (fuel_root_ok n)
        u hm p hcor
      exact ⟨w, List.mem_append.mpr (Or.inl hw), hc⟩
    · obtain ⟨w, hw, hc⟩ := leaves_refine n (tileErrors terrain (2 ^ n + 1)) e1 e2 h12
        (meshFuel (2 ^ n + 1)) 1 (rootTriangle2 (2 ^ n)) (rootEven_inv n) (fuel_root_ok n)
        u hm p hcor
      exact ⟨w, List.mem_append.mpr (Or.inr hw), hc⟩

/-- Witness for C6 at the smallest valid grid. -/
theorem C6_error_monotonicity_witness :
    ValidTile 1 3 [(0 : ℚ), 0, 0, 5, 0, 0, 0, 0, 0] ∧ ((0 : ℚ) ≤ 1) ∧
      ((tileGetMesh [(0 : ℚ), 0, 0, 5, 0, 0, 0, 0, 0] 3 1 none).numTriangles ≤
          (tileGetMesh [(0 : ℚ), 0, 0, 5, 0, 0, 0, 0, 0] 3 0 none).numTriangles ∧
        ∀ p : Point,
          (∃ u ∈ meshLeaves (tileErrors [(0 : ℚ), 0, 0, 5, 0, 0, 0, 0, 0] 3) 3 1 none,
            p = u.a ∨ p = u.b ∨ p = u.c) →
          ∃ w ∈ meshLeaves (tileErrors [(0 : ℚ), 0, 0, 5, 0, 0, 0, 0, 0] 3) 3 0 none,
            p = w.a ∨ p = w.b ∨ p = w.c) :=
  ⟨⟨by norm_num, by norm_num⟩, by norm_num,
    C6_error_monotonicity 1 3 _ 0 1 ⟨by norm_num, by norm_num⟩ (by norm_num)⟩

end Martini
